import Mathlib

/-!
Shallow embedding of `src/sudoku_solution.py` (a variant-Sudoku solver with
mirror ("grey"/palindrome) lines and bounded-range ("purple"/renban) lines),
together with proofs settling the specification claims.

Conventions of the embedding:
* The 9×9 board `b` and the 9×9 table of candidate sets `p` are Lean lists of
  lists, exactly mirroring the Python lists; a candidate set is a
  duplicate-free list of naturals (Python's `set` of small ints iterates in
  ascending order, which the list order preserves: the initial set is
  `[1,…,9]` and elements are only ever erased).
* Python's `ImpossibleSetup` exception is modelled by the result type `Res`:
  `ok s` is normal return with the updated board, `contra s` is a raised
  exception carrying the state at the moment of the raise (mutations made
  before the raise persist, as in Python; every caller discards that state).
* Python's unbounded recursion is modelled with a fuel parameter; `fuelOut`
  is the out-of-fuel artifact.  A fuel of 82 is enough for every call chain
  of `addNumber` (each nesting level first fills a previously empty cell and
  there are at most 81 cells), which is proved below.
* The module-level I/O (input parsing, `debug` tracing, timing) is out of
  scope per the specification; `greys`/`purples` referenced as globals by
  `addNumber` coincide with the fields of the one `Model` in use, so the
  embedding passes the `Model` explicitly.
-/

set_option maxRecDepth 40000

namespace SudokuEmb

/-- The mutable solver state: `b` is the 9×9 value grid (0 = empty) and `p`
the 9×9 table of candidate lists, as in `Board.__init__`. -/
structure Board where
  b : List (List Nat)
  p : List (List (List Nat))
deriving DecidableEq, Repr

/-- The immutable puzzle model: lookup tables `isGrey`, `greyIndexes`,
`isPurple` (0 = not on a line, `n+1` = on line `n`) and the line lists
`greys` (ordered) and `purples` (Python sets, embedded as duplicate-free
lists). -/
structure Model where
  isGrey : List (List Nat)
  greyIndexes : List (List Nat)
  isPurple : List (List Nat)
  greys : List (List (Nat × Nat))
  purples : List (List (Nat × Nat))
deriving DecidableEq, Repr

/-- Result of a state-mutating operation: normal return, raised
`ImpossibleSetup` (with the state at the raise), or out of fuel. -/
inductive Res where
  | ok : Board → Res
  | contra : Board → Res
  | fuelOut : Res
deriving DecidableEq, Repr

/-- Lookup `tbl[r][c]` with Python's list indexing (in-range in all actual
uses); out-of-range defaults to 0. -/
def getCell (tbl : List (List Nat)) (r c : Nat) : Nat :=
  (tbl.getD r []).getD c 0

/-- `tbl[r][c] = v`. -/
def setCell (tbl : List (List Nat)) (r c v : Nat) : List (List Nat) :=
  tbl.set r ((tbl.getD r []).set c v)

/-- `self.b[r][c]`. -/
def Board.bAt (s : Board) (r c : Nat) : Nat := getCell s.b r c

/-- `self.p[r][c]`. -/
def Board.pAt (s : Board) (r c : Nat) : List Nat :=
  (s.p.getD r []).getD c []

/-- `self.b[r][c] = v`. -/
def Board.setB (s : Board) (r c v : Nat) : Board :=
  { s with b := setCell s.b r c v }

/-- `self.p[r][c] = l`. -/
def Board.setP (s : Board) (r c : Nat) (l : List Nat) : Board :=
  { s with p := s.p.set r ((s.p.getD r []).set c l) }

/-- `Board.removePossibility(key,row,col)`: if the cell is unassigned and
`key` is a candidate, remove it from the candidate set. -/
def removePossibility (key row col : Nat) (s : Board) : Board :=
  if s.bAt row col = 0 ∧ key ∈ s.pAt row col then
    s.setP row col ((s.pAt row col).erase key)
  else s

/-- Exception-propagating sequencing. -/
def Res.bind (r : Res) (f : Board → Res) : Res :=
  match r with
  | .ok s => f s
  | e => e

/-- Run `f` on each element in order, threading the state and propagating a
raised exception (a Python `for` loop whose body may raise). -/
def seqAll {α : Type} : List α → (α → Board → Res) → Board → Res
  | [], _, s => .ok s
  | a :: xs, f, s =>
    match f a s with
    | .ok s' => seqAll xs f s'
    | e => e

/-- The cells of the 3×3 block containing `(row, col)`, in the row-major
order of the Python loops `range(row-row%3, row-row%3+3) × ...`. -/
def blockCells (row col : Nat) : List (Nat × Nat) :=
  (List.range 3).flatMap fun i =>
    (List.range 3).map fun j => (row - row % 3 + i, col - col % 3 + j)

/-- The pair of `removePossibility` calls per iteration of the first removal
loop of `addNumber`: `removePossibility(key,row,i); removePossibility(key,i,col)`. -/
def rcRemove (key row col : Nat) (s : Board) : Board :=
  (List.range 9).foldl
    (fun s i => removePossibility key i col (removePossibility key row i s)) s

/-- The 3×3-block removal loop of `addNumber`. -/
def blockRemove (key row col : Nat) (s : Board) : Board :=
  (blockCells row col).foldl (fun s ij => removePossibility key ij.1 ij.2 s) s

/-- `Board.addNumber(key,row,col)`: the central mutation.  The nested
`cp` is the literal body of `Board.checkPossibility` (a separate lemma
states the equality with the standalone `checkPossibility` below); it is
inlined so that the recursion is structural on the fuel. -/
def addNumber (m : Model) (fuel key row col : Nat) (s : Board) : Res :=
  -- if we attempt to override a nonempty cell with a new value then error
  if s.bAt row col ≠ 0 then
    if s.bAt row col ≠ key then .contra s else .ok s
  else
    match fuel with
    | 0 => .fuelOut
    | fuel + 1 =>
      let cp : Nat → Nat → Nat → Board → Res := fun k r c s =>
        if s.bAt r c = 0 ∧ k ∈ s.pAt r c then
          if (s.pAt r c).length = 0 then .contra s
          else if (s.pAt r c).length = 1 then
            addNumber m fuel ((s.pAt r c).headD 0) r c s
          else .ok s
        else .ok s
      let s := s.setB row col key
      -- removes the possibilities from the rows, columns and 3×3 squares
      let s := rcRemove key row col s
      let s := blockRemove key row col s
      (seqAll (List.range 9)
        (fun i s => (cp key row i s).bind (cp key i col)) s).bind fun s =>
      (seqAll (blockCells row col) (fun ij s => cp key ij.1 ij.2 s) s).bind fun s =>
      if getCell m.isGrey row col ≠ 0 then
        -- part of a grey line: add the number to the counterpart square
        let g := getCell m.isGrey row col - 1
        let line := m.greys.getD g []
        let mi := line.length - getCell m.greyIndexes row col - 1
        let mrc := line.getD mi (0, 0)
        addNumber m fuel key mrc.1 mrc.2 s
      else if getCell m.isPurple row col ≠ 0 then
        -- part of a purple line: check the line and prune possibilities
        let pi := getCell m.isPurple row col - 1
        let line := m.purples.getD pi []
        seqAll line (fun rc s =>
          if s.bAt rc.1 rc.2 ≠ 0 ∧ (rc.1 ≠ row ∨ rc.2 ≠ col) then
            if s.bAt rc.1 rc.2 = key ∨ s.bAt rc.1 rc.2 + line.length ≤ key ∨
                key + line.length ≤ s.bAt rc.1 rc.2 then
              .contra s
            else .ok s
          else
            let s := (List.range (key + 1 - line.length)).foldl
              (fun s i => removePossibility i rc.1 rc.2 s) s
            let s := (List.range' (key + line.length) (9 - (key + line.length))).foldl
              (fun s i => removePossibility i rc.1 rc.2 s) s
            (seqAll (List.range (key + 1 - line.length))
              (fun i s => cp i rc.1 rc.2 s) s).bind
            (seqAll (List.range' (key + line.length) (9 - (key + line.length)))
              (fun i s => cp i rc.1 rc.2 s))) s
      else .ok s

/-- `Board.checkPossibility(key,row,col)`: to be called right after
`removePossibility`; if the cell is unassigned and `key` is (still) a
candidate, an empty candidate set raises and a singleton set assigns its
element. -/
def checkPossibility (m : Model) (fuel key row col : Nat) (s : Board) : Res :=
  if s.bAt row col = 0 ∧ key ∈ s.pAt row col then
    if (s.pAt row col).length = 0 then .contra s
    else if (s.pAt row col).length = 1 then
      addNumber m fuel ((s.pAt row col).headD 0) row col s
    else .ok s
  else .ok s

/-- The row/column `checkPossibility` loop of `addNumber`. -/
def rcCheck (m : Model) (fuel key row col : Nat) (s : Board) : Res :=
  seqAll (List.range 9) (fun i s =>
    (checkPossibility m fuel key row i s).bind (checkPossibility m fuel key i col)) s

/-- The 3×3-block `checkPossibility` loop of `addNumber`. -/
def blockCheck (m : Model) (fuel key row col : Nat) (s : Board) : Res :=
  seqAll (blockCells row col) (fun ij s => checkPossibility m fuel key ij.1 ij.2 s) s

/-- The body of the purple-line loop of `addNumber` for one cell `rc` of the
line: an already-assigned other cell is checked against the length-`L`
window around `key`; otherwise candidates outside the window are removed
and then re-checked. -/
def purpleStep (m : Model) (fuel key row col : Nat) (line : List (Nat × Nat))
    (rc : Nat × Nat) (s : Board) : Res :=
  if s.bAt rc.1 rc.2 ≠ 0 ∧ (rc.1 ≠ row ∨ rc.2 ≠ col) then
    if s.bAt rc.1 rc.2 = key ∨ s.bAt rc.1 rc.2 + line.length ≤ key ∨
        key + line.length ≤ s.bAt rc.1 rc.2 then
      .contra s
    else .ok s
  else
    let s := (List.range (key + 1 - line.length)).foldl
      (fun s i => removePossibility i rc.1 rc.2 s) s
    let s := (List.range' (key + line.length) (9 - (key + line.length))).foldl
      (fun s i => removePossibility i rc.1 rc.2 s) s
    (seqAll (List.range (key + 1 - line.length))
      (fun i s => checkPossibility m fuel i rc.1 rc.2 s) s).bind
    (seqAll (List.range' (key + line.length) (9 - (key + line.length)))
      (fun i s => checkPossibility m fuel i rc.1 rc.2 s))

/-- The grey counterpart square of `(row, col)`:
`greys[isGrey[row][col]-1][len(line)-greyIndexes[row][col]-1]`. -/
def mirrorTarget (m : Model) (row col : Nat) : Nat × Nat :=
  (m.greys.getD (getCell m.isGrey row col - 1) []).getD
    ((m.greys.getD (getCell m.isGrey row col - 1) []).length -
      getCell m.greyIndexes row col - 1) (0, 0)

/-- Unfolding equation for `addNumber` at positive fuel, phrased with the
named pass helpers (the inlined `cp` of the definition is definitionally
`checkPossibility`). -/
theorem addNumber_succ (m : Model) (fuel key row col : Nat) (s : Board) :
    addNumber m (fuel + 1) key row col s =
      if s.bAt row col ≠ 0 then
        if s.bAt row col ≠ key then .contra s else .ok s
      else
        (rcCheck m fuel key row col
            (blockRemove key row col (rcRemove key row col (s.setB row col key)))).bind fun s =>
        (blockCheck m fuel key row col s).bind fun s =>
        if getCell m.isGrey row col ≠ 0 then
          addNumber m fuel key (mirrorTarget m row col).1 (mirrorTarget m row col).2 s
        else if getCell m.isPurple row col ≠ 0 then
          seqAll (m.purples.getD (getCell m.isPurple row col - 1) [])
            (purpleStep m fuel key row col
              (m.purples.getD (getCell m.isPurple row col - 1) [])) s
        else .ok s :=
  rfl

/-- `addNumber` on an already-assigned cell is the pure comparison, at any
fuel: a differing value raises with the state unchanged, an equal value is
a no-op. -/
theorem addNumber_assigned (m : Model) (fuel key row col : Nat) (s : Board)
    (h : s.bAt row col ≠ 0) :
    addNumber m fuel key row col s =
      if s.bAt row col ≠ key then .contra s else .ok s := by
  cases fuel <;> simp only [addNumber, if_pos h]

/-- `Board.checkGroup(group)`: for each value 1–9, collect the cells of the
group currently holding that value; if there is exactly one, re-add it. -/
def checkGroup (m : Model) (fuel : Nat) (group : List (Nat × Nat)) (s : Board) : Res :=
  seqAll (List.range' 1 9) (fun num s =>
    let l := group.filter fun rc => s.bAt rc.1 rc.2 == num
    if l.length = 1 then
      addNumber m fuel num (l.headD (0, 0)).1 (l.headD (0, 0)).2 s
    else .ok s) s

/-- `Board.check()`: run `checkGroup` on every row, column and 3×3 block. -/
def check (m : Model) (fuel : Nat) (s : Board) : Res :=
  (seqAll (List.range 9) (fun i s =>
    (checkGroup m fuel ((List.range 9).map fun j => (i, j)) s).bind
      (checkGroup m fuel ((List.range 9).map fun j => (j, i)))) s).bind
  (seqAll ((List.range 3).flatMap fun i => (List.range 3).map fun j => (i, j))
    (fun ij s =>
      checkGroup m fuel ((List.range 3).flatMap fun k =>
        (List.range 3).map fun l => (ij.1 * 3 + k, ij.2 * 3 + l)) s))

/-- The grey-phase branch-cell scan of `Board.recurse`: over all grey-line
cells in line-then-cell order, keep the first unassigned cell whose
candidate count is strictly below the running minimum (initially 100). -/
def greyScan (m : Model) (s : Board) : Nat × Nat × Nat :=
  m.greys.foldl (fun acc line =>
    line.foldl (fun acc rc =>
      if s.bAt rc.1 rc.2 = 0 ∧ (s.pAt rc.1 rc.2).length < acc.1 then
        ((s.pAt rc.1 rc.2).length, rc.1, rc.2)
      else acc) acc) (100, 0, 0)

/-- The all-cells branch-cell scan of `Board.recurse`: over all 81 cells,
update on a strictly smaller candidate count, or on an equal count when the
cell is on a purple line. -/
def fullScan (m : Model) (s : Board) (acc0 : Nat × Nat × Nat) : Nat × Nat × Nat :=
  (List.range 9).foldl (fun acc i =>
    (List.range 9).foldl (fun acc j =>
      if s.bAt i j = 0 ∧ ((s.pAt i j).length < acc.1 ∨
          ((s.pAt i j).length = acc.1 ∧ getCell m.isPurple i j ≠ 0)) then
        ((s.pAt i j).length, i, j)
      else acc) acc) acc0

/-- Result of `Board.recurse`: a solved grid, a raised `ImpossibleSetup`, or
out of fuel. -/
inductive SRes where
  | ok : List (List Nat) → SRes
  | contra : SRes
  | fuelOut : SRes
deriving DecidableEq, Repr

/-- `Board.recurse(level, greysLeft)` (the `level` argument only feeds the
out-of-scope `debug` tracing and is dropped).  Inner `addNumber` chains get
fuel 82, which is proved sufficient below (at most 81 empty cells). -/
def recurse (m : Model) : Nat → Bool → Board → SRes
  | 0, _, _ => .fuelOut
  | fuel + 1, greysLeft, s =>
    match check m 82 s with
    | .ok s1 =>
      let acc1 := if greysLeft then greyScan m s1 else (100, 0, 0)
      let gl2 := greysLeft && (acc1.1 != 100)
      let acc2 := if gl2 = true then acc1 else fullScan m s1 acc1
      if acc2.1 = 100 then .ok s1.b
      else
        (s1.pAt acc2.2.1 acc2.2.2).foldl (fun acc k =>
          match acc with
          | .contra =>
            match addNumber m 82 k acc2.2.1 acc2.2.2 s1 with
            | .ok s2 => recurse m fuel gl2 s2
            | .contra _ => .contra
            | .fuelOut => .fuelOut
          | done => done) .contra
    | .contra _ => .contra
    | .fuelOut => .fuelOut

/-- `Board.updatePossibilities()`: re-add every nonzero entry of `b` (zero
it first, then `addNumber`), in row-major order. -/
def updatePossibilities (m : Model) (fuel : Nat) (s : Board) : Res :=
  seqAll ((List.range 9).flatMap fun i => (List.range 9).map fun j => (i, j))
    (fun ij s =>
      if s.bAt ij.1 ij.2 ≠ 0 then
        addNumber m fuel (s.bAt ij.1 ij.2) ij.1 ij.2 (s.setB ij.1 ij.2 0)
      else .ok s) s

/-- The initial possibility table of `Board.__init__`: each cell gets
`{1,…,9}`. -/
def initP : List (List (List Nat)) :=
  List.replicate 9 (List.replicate 9 (List.range' 1 9))

/-- `Board.__init__` before `updatePossibilities`. -/
def mkBoard (b0 : List (List Nat)) : Board := ⟨b0, initP⟩

/-- `solve`: construct the `Board` from the givens (running
`updatePossibilities`) and run the root `recurse(0, True)`.  An
`ImpossibleSetup` escaping the root (from construction or the root
`recurse`) is the `Unsolvable` outcome. -/
def solveEmb (m : Model) (b0 : List (List Nat)) : SRes :=
  match updatePossibilities m 82 (mkBoard b0) with
  | .ok s => recurse m 100 true s
  | .contra _ => .contra
  | .fuelOut => .fuelOut

/-! ### Basic lemmas about the state accessors -/

theorem getD_set_ne {α : Type} {l : List α} {i j : Nat} (h : i ≠ j) (a d : α) :
    (l.set i a).getD j d = l.getD j d := by
  simp [List.getD_eq_getElem?_getD, List.getElem?_set_ne h]

theorem getD_set_self {α : Type} {l : List α} {i : Nat} (h : i < l.length) (a d : α) :
    (l.set i a).getD i d = a := by
  simp [List.getD_eq_getElem?_getD, List.getElem?_set_self', h]

theorem getD_set_oob {α : Type} {l : List α} {i : Nat} (h : l.length ≤ i) (a : α) :
    l.set i a = l :=
  List.set_eq_of_length_le h

/-- The board grid has 9 rows of 9 entries. -/
def BShape (s : Board) : Prop :=
  s.b.length = 9 ∧ ∀ r < 9, (s.b.getD r []).length = 9

/-- The possibility table has 9 rows of 9 entries. -/
def PShape (s : Board) : Prop :=
  s.p.length = 9 ∧ ∀ r < 9, (s.p.getD r []).length = 9

theorem pAt_setB (s : Board) (r c v r' c' : Nat) :
    (s.setB r c v).pAt r' c' = s.pAt r' c' := rfl

theorem bAt_setP (s : Board) (r c : Nat) (l : List Nat) (r' c' : Nat) :
    (s.setP r c l).bAt r' c' = s.bAt r' c' := rfl

theorem bAt_setB_ne (s : Board) {r c : Nat} (v : Nat) {r' c' : Nat}
    (h : r' ≠ r ∨ c' ≠ c) :
    (s.setB r c v).bAt r' c' = s.bAt r' c' := by
  unfold Board.setB Board.bAt setCell getCell
  rcases h with h | h
  · rw [getD_set_ne (Ne.symm h)]
  · rcases Nat.lt_or_ge r s.b.length with hr | hr
    · rcases eq_or_ne r' r with rfl | hne
      · rw [getD_set_self hr, getD_set_ne (Ne.symm h)]
      · rw [getD_set_ne (Ne.symm hne)]
    · rw [getD_set_oob hr]

theorem bAt_setB_self (s : Board) {r c : Nat} (v : Nat)
    (hb : BShape s) (hr : r < 9) (hc : c < 9) :
    (s.setB r c v).bAt r c = v := by
  unfold Board.setB Board.bAt setCell getCell
  have h1 : r < s.b.length := by rw [hb.1]; exact hr
  have h2 : c < (s.b.getD r []).length := by rw [hb.2 r hr]; exact hc
  rw [getD_set_self h1, getD_set_self h2]

theorem pAt_setP_ne (s : Board) {r c : Nat} (l : List Nat) {r' c' : Nat}
    (h : r' ≠ r ∨ c' ≠ c) :
    (s.setP r c l).pAt r' c' = s.pAt r' c' := by
  unfold Board.setP Board.pAt
  rcases h with h | h
  · rw [getD_set_ne (Ne.symm h)]
  · rcases Nat.lt_or_ge r s.p.length with hr | hr
    · rcases eq_or_ne r' r with rfl | hne
      · rw [getD_set_self hr, getD_set_ne (Ne.symm h)]
      · rw [getD_set_ne (Ne.symm hne)]
    · rw [getD_set_oob hr]

theorem pAt_setP_self (s : Board) {r c : Nat} (l : List Nat)
    (hp : PShape s) (hr : r < 9) (hc : c < 9) :
    (s.setP r c l).pAt r c = l := by
  unfold Board.setP Board.pAt
  have h1 : r < s.p.length := by rw [hp.1]; exact hr
  have h2 : c < (s.p.getD r []).length := by rw [hp.2 r hr]; exact hc
  rw [getD_set_self h1, getD_set_self h2]

theorem bshape_setP (hb : BShape s) (r c : Nat) (l : List Nat) :
    BShape (s.setP r c l) := hb

theorem pshape_setB (hp : PShape s) (r c v : Nat) :
    PShape (s.setB r c v) := hp

theorem bshape_setB (hb : BShape s) (r c v : Nat) :
    BShape (s.setB r c v) := by
  refine ⟨?_, fun r' hr' => ?_⟩
  · show (s.b.set r ((s.b.getD r []).set c v)).length = 9
    rw [List.length_set]; exact hb.1
  · show ((s.b.set r ((s.b.getD r []).set c v)).getD r' []).length = 9
    rcases eq_or_ne r' r with rfl | hne
    · rcases Nat.lt_or_ge r' s.b.length with hr | hr
      · rw [getD_set_self hr, List.length_set]; exact hb.2 r' hr'
      · rw [getD_set_oob hr]; exact hb.2 r' hr'
    · rw [getD_set_ne (Ne.symm hne)]; exact hb.2 r' hr'

theorem pshape_setP (hp : PShape s) (r c : Nat) (l : List Nat) :
    PShape (s.setP r c l) := by
  refine ⟨?_, fun r' hr' => ?_⟩
  · show (s.p.set r ((s.p.getD r []).set c l)).length = 9
    rw [List.length_set]; exact hp.1
  · show ((s.p.set r ((s.p.getD r []).set c l)).getD r' []).length = 9
    rcases eq_or_ne r' r with rfl | hne
    · rcases Nat.lt_or_ge r' s.p.length with hr | hr
      · rw [getD_set_self hr, List.length_set]; exact hp.2 r' hr'
      · rw [getD_set_oob hr]; exact hp.2 r' hr'
    · rw [getD_set_ne (Ne.symm hne)]; exact hp.2 r' hr'

/-! ### Lemmas about `removePossibility` -/

theorem pAt_setP_self' (s : Board) {r c : Nat} (l : List Nat)
    (h1 : r < s.p.length) (h2 : c < (s.p.getD r []).length) :
    (s.setP r c l).pAt r c = l := by
  unfold Board.setP Board.pAt
  rw [getD_set_self h1, getD_set_self h2]

/-- A nonempty candidate list witnesses in-range indices of the `p` table. -/
theorem pAt_indices (s : Board) {key row col : Nat} (hk : key ∈ s.pAt row col) :
    row < s.p.length ∧ col < (s.p.getD row []).length := by
  constructor
  · by_contra h
    rw [Board.pAt, List.getD_eq_default _ _ (Nat.le_of_not_lt h)] at hk
    simp at hk
  · by_contra h
    rw [Board.pAt, List.getD_eq_default _ _ (Nat.le_of_not_lt h)] at hk
    exact absurd hk (List.not_mem_nil key)

theorem removePossibility_b (key row col : Nat) (s : Board) :
    (removePossibility key row col s).b = s.b := by
  unfold removePossibility
  split <;> rfl

theorem bAt_removePossibility (key row col r c : Nat) (s : Board) :
    (removePossibility key row col s).bAt r c = s.bAt r c := by
  show getCell (removePossibility key row col s).b r c = getCell s.b r c
  rw [removePossibility_b]

theorem prodne {r c row col : Nat} (h : (r, c) ≠ (row, col)) : r ≠ row ∨ c ≠ col := by
  rcases eq_or_ne r row with rfl | hr
  · rcases eq_or_ne c col with rfl | hc
    · exact absurd rfl h
    · exact Or.inr hc
  · exact Or.inl hr

theorem pAt_removePossibility_sublist (key row col r c : Nat) (s : Board) :
    ((removePossibility key row col s).pAt r c).Sublist (s.pAt r c) := by
  unfold removePossibility
  split
  case isTrue h =>
    rcases eq_or_ne (r, c) (row, col) with heq | hne
    · obtain ⟨rfl, rfl⟩ := Prod.mk.injEq .. ▸ heq
      rw [pAt_setP_self' _ _ (pAt_indices s h.2).1 (pAt_indices s h.2).2]
      exact List.erase_sublist _ _
    · rw [pAt_setP_ne _ _ (prodne hne)]
  case isFalse h => exact List.Sublist.refl _

theorem mem_pAt_removePossibility {x key row col r c : Nat} {s : Board}
    (hx : x ∈ (removePossibility key row col s).pAt r c) : x ∈ s.pAt r c :=
  (pAt_removePossibility_sublist key row col r c s).subset hx

theorem pAt_removePossibility_ne (key row col : Nat) (s : Board) {r c : Nat}
    (h : r ≠ row ∨ c ≠ col) :
    (removePossibility key row col s).pAt r c = s.pAt r c := by
  unfold removePossibility
  split
  · exact pAt_setP_ne _ _ h
  · rfl

/-- After `removePossibility(key,row,col)` on an unassigned cell with a
duplicate-free candidate list, `key` is no longer a candidate there. -/
theorem removePossibility_removes {key row col : Nat} {s : Board}
    (hnd : (s.pAt row col).Nodup) (hb : s.bAt row col = 0) :
    key ∉ (removePossibility key row col s).pAt row col := by
  unfold removePossibility
  split
  case isTrue h =>
    rw [pAt_setP_self' _ _ (pAt_indices s h.2).1 (pAt_indices s h.2).2]
    intro hmem
    exact (hnd.mem_erase_iff.1 hmem).1 rfl
  case isFalse h =>
    intro hmem
    exact h ⟨hb, hmem⟩

/-- `s'` is `s` with possibly fewer candidates and the same grid. -/
def Shrink (s' s : Board) : Prop :=
  s'.b = s.b ∧ ∀ r c, ((s'.pAt r c).Sublist (s.pAt r c))

theorem Shrink.refl (s : Board) : Shrink s s := ⟨rfl, fun _ _ => List.Sublist.refl _⟩

theorem Shrink.trans {s3 s2 s1 : Board} (h32 : Shrink s3 s2) (h21 : Shrink s2 s1) :
    Shrink s3 s1 :=
  ⟨h32.1.trans h21.1, fun r c => (h32.2 r c).trans (h21.2 r c)⟩

theorem Shrink.bAt_eq {s' s : Board} (h : Shrink s' s) (r c : Nat) :
    s'.bAt r c = s.bAt r c := by
  show getCell s'.b r c = getCell s.b r c
  rw [h.1]

theorem Shrink.not_mem {s' s : Board} (h : Shrink s' s) {x r c : Nat}
    (hx : x ∉ s.pAt r c) : x ∉ s'.pAt r c :=
  fun hmem => hx ((h.2 r c).subset hmem)

theorem Shrink.nodup {s' s : Board} (h : Shrink s' s)
    (hnd : ∀ r c, (s.pAt r c).Nodup) (r c : Nat) : (s'.pAt r c).Nodup :=
  (h.2 r c).nodup (hnd r c)

theorem removePossibility_shrink (key row col : Nat) (s : Board) :
    Shrink (removePossibility key row col s) s :=
  ⟨removePossibility_b key row col s, fun r c => pAt_removePossibility_sublist key row col r c s⟩

theorem foldl_shrink {α : Type} (l : List α) (g : α → Board → Board)
    (hg : ∀ a s, Shrink (g a s) s) :
    ∀ s : Board, Shrink (l.foldl (fun s a => g a s) s) s := by
  induction l with
  | nil => exact fun s => Shrink.refl s
  | cons a xs ih => exact fun s => (ih (g a s)).trans (hg a s)

theorem rcRemove_shrink (key row col : Nat) (s : Board) :
    Shrink (rcRemove key row col s) s := by
  unfold rcRemove
  exact foldl_shrink (List.range 9)
    (fun i s => removePossibility key i col (removePossibility key row i s))
    (fun i s => (removePossibility_shrink key i col _).trans
      (removePossibility_shrink key row i s)) s

theorem blockRemove_shrink (key row col : Nat) (s : Board) :
    Shrink (blockRemove key row col s) s := by
  unfold blockRemove
  exact foldl_shrink (blockCells row col)
    (fun ij s => removePossibility key ij.1 ij.2 s)
    (fun ij s => removePossibility_shrink key ij.1 ij.2 s) s

/-! ### The removal passes erase the key; the check passes are dead -/

theorem foldl_preserveP {α : Type} (P : Board → Prop) (l : List α) (g : α → Board → Board)
    (hg : ∀ a s, P s → P (g a s)) :
    ∀ s : Board, P s → P (l.foldl (fun s a => g a s) s) := by
  induction l with
  | nil => exact fun _ h => h
  | cons a xs ih => exact fun s h => ih (g a s) (hg a s h)

/-- Establish a downward-closed property at the fold step of element `a` and
carry it to the end of the fold. -/
theorem foldl_establish {α : Type} (l : List α) (g : α → Board → Board)
    (hg : ∀ a s, Shrink (g a s) s) (P : Board → Prop)
    (hPdown : ∀ s' s'', Shrink s' s'' → P s'' → P s')
    (s : Board) {a : α} (ha : a ∈ l)
    (hEst : ∀ t, Shrink t s → P (g a t)) :
    P (l.foldl (fun s a => g a s) s) := by
  obtain ⟨l1, l2, rfl⟩ := List.append_of_mem ha
  rw [List.foldl_append, List.foldl_cons]
  exact hPdown _ _ (foldl_shrink l2 g hg _)
    (hEst _ (foldl_shrink l1 g hg s))

theorem removePossibility_PShape {key row col : Nat} {s : Board} (hp : PShape s) :
    PShape (removePossibility key row col s) := by
  unfold removePossibility
  split
  · exact pshape_setP hp _ _ _
  · exact hp

theorem rcRemove_removes_row (key row col : Nat) {s : Board}
    (hnd : ∀ r c, (s.pAt r c).Nodup) {i : Nat} (hi : i < 9)
    (hb : s.bAt row i = 0) :
    key ∉ (rcRemove key row col s).pAt row i := by
  unfold rcRemove
  refine foldl_establish (List.range 9)
    (fun i s => removePossibility key i col (removePossibility key row i s))
    (fun i s => (removePossibility_shrink key i col _).trans
      (removePossibility_shrink key row i s))
    (fun t => key ∉ t.pAt row i)
    (fun s' s'' hs hP => hs.not_mem hP) s (List.mem_range.2 hi) ?_
  intro t ht
  exact (removePossibility_shrink key i col _).not_mem
    (removePossibility_removes (ht.nodup hnd row i) ((ht.bAt_eq row i).trans hb))

theorem rcRemove_removes_col (key row col : Nat) {s : Board}
    (hnd : ∀ r c, (s.pAt r c).Nodup) {i : Nat} (hi : i < 9)
    (hb : s.bAt i col = 0) :
    key ∉ (rcRemove key row col s).pAt i col := by
  unfold rcRemove
  refine foldl_establish (List.range 9)
    (fun i s => removePossibility key i col (removePossibility key row i s))
    (fun i s => (removePossibility_shrink key i col _).trans
      (removePossibility_shrink key row i s))
    (fun t => key ∉ t.pAt i col)
    (fun s' s'' hs hP => hs.not_mem hP) s (List.mem_range.2 hi) ?_
  intro t ht
  have hsh : Shrink (removePossibility key row i t) s :=
    (removePossibility_shrink key row i t).trans ht
  exact removePossibility_removes (hsh.nodup hnd i col) ((hsh.bAt_eq i col).trans hb)

theorem blockRemove_removes (key row col : Nat) {s : Board}
    (hnd : ∀ r c, (s.pAt r c).Nodup) {ij : Nat × Nat} (hij : ij ∈ blockCells row col)
    (hb : s.bAt ij.1 ij.2 = 0) :
    key ∉ (blockRemove key row col s).pAt ij.1 ij.2 := by
  unfold blockRemove
  refine foldl_establish (blockCells row col)
    (fun ij s => removePossibility key ij.1 ij.2 s)
    (fun ij s => removePossibility_shrink key ij.1 ij.2 s)
    (fun t => key ∉ t.pAt ij.1 ij.2)
    (fun s' s'' hs hP => hs.not_mem hP) s hij ?_
  intro t ht
  exact removePossibility_removes (ht.nodup hnd ij.1 ij.2)
    ((ht.bAt_eq ij.1 ij.2).trans hb)

/-- The state that `addNumber` reaches after assigning the cell and running
both removal passes. -/
def afterRemoves (key row col : Nat) (s : Board) : Board :=
  blockRemove key row col (rcRemove key row col (s.setB row col key))

theorem afterRemoves_shrink (key row col : Nat) (s : Board) :
    Shrink (afterRemoves key row col s) (s.setB row col key) :=
  (blockRemove_shrink key row col _).trans (rcRemove_shrink key row col _)

theorem afterRemoves_b (key row col : Nat) (s : Board) :
    (afterRemoves key row col s).b = (s.setB row col key).b :=
  (afterRemoves_shrink key row col s).1

/-- If a cell is out of the 9×9 `p` table, its candidate list is empty. -/
theorem pAt_oob {s : Board} (hp : PShape s) {r c : Nat} (h : 9 ≤ r ∨ 9 ≤ c) :
    s.pAt r c = [] := by
  rcases h with h | h
  · have hrow : s.p.getD r [] = [] :=
      List.getD_eq_default _ _ (by rw [hp.1]; exact h)
    rw [Board.pAt, hrow]
    exact List.getD_nil
  · rcases Nat.lt_or_ge r 9 with hr | hr
    · rw [Board.pAt]
      exact List.getD_eq_default _ _ (by rw [hp.2 r hr]; exact h)
    · have hrow : s.p.getD r [] = [] :=
        List.getD_eq_default _ _ (by rw [hp.1]; exact hr)
      rw [Board.pAt, hrow]
      exact List.getD_nil

/-- `checkPossibility` does nothing when the cell is assigned or `key` is not
a candidate (this guard is precisely why it is dead right after a removal). -/
theorem checkPossibility_dead (m : Model) (fuel key row col : Nat) (s : Board)
    (h : s.bAt row col ≠ 0 ∨ key ∉ s.pAt row col) :
    checkPossibility m fuel key row col s = .ok s := by
  unfold checkPossibility
  rw [if_neg]
  rintro ⟨h1, h2⟩
  rcases h with h | h
  · exact h h1
  · exact h h2

theorem seqAll_ok_of_noop {α : Type} (l : List α) (f : α → Board → Res) (s : Board)
    (h : ∀ a ∈ l, f a s = .ok s) : seqAll l f s = .ok s := by
  induction l with
  | nil => rfl
  | cons a xs ih =>
    show (match f a s with | .ok s' => seqAll xs f s' | e => e) = .ok s
    rw [h a (List.mem_cons_self a xs)]
    exact ih fun a' ha' => h a' (List.mem_cons_of_mem a ha')

theorem Res.bind_ok (s : Board) (f : Board → Res) : (Res.ok s).bind f = f s := rfl

/-- The purple line through `(row, col)` (`purples[isPurple[row][col]-1]`). -/
def purpleLine (m : Model) (row col : Nat) : List (Nat × Nat) :=
  m.purples.getD (getCell m.isPurple row col - 1) []

theorem afterRemoves_dead_row (key row col : Nat) {s : Board}
    (hnd : ∀ r c, (s.pAt r c).Nodup) {i : Nat} (hi : i < 9) :
    (afterRemoves key row col s).bAt row i ≠ 0 ∨
      key ∉ (afterRemoves key row col s).pAt row i := by
  unfold afterRemoves
  by_cases hb : (s.setB row col key).bAt row i = 0
  · right
    exact (blockRemove_shrink key row col (rcRemove key row col (s.setB row col key))).not_mem
      (@rcRemove_removes_row key row col (s.setB row col key) (fun r c => hnd r c) i hi hb)
  · left
    rw [(blockRemove_shrink key row col (rcRemove key row col (s.setB row col key))).bAt_eq,
      (rcRemove_shrink key row col (s.setB row col key)).bAt_eq]
    exact hb

theorem afterRemoves_dead_col (key row col : Nat) {s : Board}
    (hnd : ∀ r c, (s.pAt r c).Nodup) {i : Nat} (hi : i < 9) :
    (afterRemoves key row col s).bAt i col ≠ 0 ∨
      key ∉ (afterRemoves key row col s).pAt i col := by
  unfold afterRemoves
  by_cases hb : (s.setB row col key).bAt i col = 0
  · right
    exact (blockRemove_shrink key row col (rcRemove key row col (s.setB row col key))).not_mem
      (@rcRemove_removes_col key row col (s.setB row col key) (fun r c => hnd r c) i hi hb)
  · left
    rw [(blockRemove_shrink key row col (rcRemove key row col (s.setB row col key))).bAt_eq,
      (rcRemove_shrink key row col (s.setB row col key)).bAt_eq]
    exact hb

theorem afterRemoves_dead_block (key row col : Nat) {s : Board}
    (hnd : ∀ r c, (s.pAt r c).Nodup) {ij : Nat × Nat} (hij : ij ∈ blockCells row col) :
    (afterRemoves key row col s).bAt ij.1 ij.2 ≠ 0 ∨
      key ∉ (afterRemoves key row col s).pAt ij.1 ij.2 := by
  unfold afterRemoves
  by_cases hb : (rcRemove key row col (s.setB row col key)).bAt ij.1 ij.2 = 0
  · right
    exact @blockRemove_removes key row col (rcRemove key row col (s.setB row col key))
      (fun r c => (rcRemove_shrink key row col (s.setB row col key)).nodup
        (fun r c => hnd r c) r c) ij hij hb
  · left
    rw [(blockRemove_shrink key row col (rcRemove key row col (s.setB row col key))).bAt_eq]
    exact hb

/-- Note: the candidate-list nodup facts here are stated for the *original*
state; `setB` leaves `p` untouched so they transfer. -/
theorem rcCheck_afterRemoves (m : Model) (fuel key row col : Nat) {s : Board}
    (hnd : ∀ r c, (s.pAt r c).Nodup) :
    rcCheck m fuel key row col (afterRemoves key row col s) =
      .ok (afterRemoves key row col s) := by
  unfold rcCheck
  apply seqAll_ok_of_noop
  intro i hi
  have hi9 : i < 9 := List.mem_range.1 hi
  rw [checkPossibility_dead _ _ _ _ _ _ (afterRemoves_dead_row key row col hnd hi9),
    Res.bind_ok,
    checkPossibility_dead _ _ _ _ _ _ (afterRemoves_dead_col key row col hnd hi9)]

theorem blockCheck_afterRemoves (m : Model) (fuel key row col : Nat) {s : Board}
    (hnd : ∀ r c, (s.pAt r c).Nodup) :
    blockCheck m fuel key row col (afterRemoves key row col s) =
      .ok (afterRemoves key row col s) := by
  unfold blockCheck
  apply seqAll_ok_of_noop
  intro ij hij
  exact checkPossibility_dead _ _ _ _ _ _ (afterRemoves_dead_block key row col hnd hij)

/-- `addNumber` on an empty cell at positive fuel: assign, run the removal
passes (the subsequent `checkPossibility` passes are dead because their
guard tests candidacy *after* the removal), then the grey/purple step. -/
theorem addNumber_empty (m : Model) (fuel key row col : Nat) (s : Board)
    (hb : s.bAt row col = 0) (hnd : ∀ r c, (s.pAt r c).Nodup) :
    addNumber m (fuel + 1) key row col s =
      (if getCell m.isGrey row col ≠ 0 then
        addNumber m fuel key (mirrorTarget m row col).1 (mirrorTarget m row col).2
          (afterRemoves key row col s)
      else if getCell m.isPurple row col ≠ 0 then
        seqAll (purpleLine m row col)
          (purpleStep m fuel key row col (purpleLine m row col))
          (afterRemoves key row col s)
      else .ok (afterRemoves key row col s)) := by
  rw [addNumber_succ, if_neg (by simp [hb])]
  show (rcCheck m fuel key row col (afterRemoves key row col s)).bind _ = _
  rw [rcCheck_afterRemoves m fuel key row col hnd, Res.bind_ok,
    blockCheck_afterRemoves m fuel key row col hnd, Res.bind_ok]
  rfl

/-! ### `checkGroup` and `check` are no-ops -/

theorem filter_head_prop {α : Type} (l : List α) (p : α → Bool) (d : α)
    (h : (l.filter p).length = 1) : p ((l.filter p).headD d) = true := by
  cases hf : l.filter p with
  | nil => rw [hf] at h; simp at h
  | cons a t =>
    have ha : a ∈ l.filter p := by rw [hf]; exact List.mem_cons_self a t
    exact (List.mem_filter.1 ha).2

theorem checkGroup_noop (m : Model) (fuel : Nat) (group : List (Nat × Nat)) (s : Board) :
    checkGroup m fuel group s = .ok s := by
  unfold checkGroup
  apply seqAll_ok_of_noop
  intro num hnum
  have hnum1 : 1 ≤ num := (List.mem_range'_1.1 hnum).1
  show (if (group.filter fun rc => s.bAt rc.1 rc.2 == num).length = 1 then
      addNumber m fuel num
        (((group.filter fun rc => s.bAt rc.1 rc.2 == num).headD (0, 0)).1)
        (((group.filter fun rc => s.bAt rc.1 rc.2 == num).headD (0, 0)).2) s
    else .ok s) = .ok s
  split
  case isTrue h =>
    have hp := filter_head_prop group (fun rc => s.bAt rc.1 rc.2 == num) (0, 0) h
    have hb : s.bAt ((group.filter fun rc => s.bAt rc.1 rc.2 == num).headD (0, 0)).1
        ((group.filter fun rc => s.bAt rc.1 rc.2 == num).headD (0, 0)).2 = num := by
      simpa using hp
    rw [addNumber_assigned _ _ _ _ _ _ (by rw [hb]; omega), if_neg (by rw [hb]; simp)]
  case isFalse h => rfl

theorem check_noop (m : Model) (fuel : Nat) (s : Board) : check m fuel s = .ok s := by
  unfold check
  rw [seqAll_ok_of_noop _ _ _ (fun i _ => by
    rw [checkGroup_noop, Res.bind_ok, checkGroup_noop]), Res.bind_ok]
  exact seqAll_ok_of_noop _ _ _ (fun ij _ => checkGroup_noop m fuel _ s)

/-! ### Shared concrete objects for witnesses and counterexamples -/

/-- A 9×9 table of zeros (no line membership / an empty grid). -/
def zeroTbl : List (List Nat) := List.replicate 9 (List.replicate 9 0)

/-- A puzzle model with no grey and no purple lines. -/
def emptyModel : Model := ⟨zeroTbl, zeroTbl, zeroTbl, [], []⟩

/-! ### Claim C9 -/

/-- **C9**: `checkGroup` (and hence the whole `check` sweep) returns `ok`
with the state unchanged, at every fuel and on every group and state: the
only `addNumber` calls it makes are on cells already holding the scanned
value, which return without mutation. -/
theorem c9_check_sweep_noop :
    ∀ (m : Model) (fuel : Nat) (group : List (Nat × Nat)) (s : Board),
      checkGroup m fuel group s = .ok s ∧ check m fuel s = .ok s :=
  fun m fuel group s => ⟨checkGroup_noop m fuel group s, check_noop m fuel s⟩

/-! ### Claim C7 -/

/-- **C7**: on an already-assigned cell, re-assigning the same value is a
no-op returning the unchanged board, and assigning any different value
raises `Contradiction` with the board state unchanged (the raise happens
before any mutation). -/
theorem c7_assign_idempotent (m : Model) (fuel v row col : Nat) (s : Board)
    (hv : s.bAt row col = v) (hv0 : v ≠ 0) :
    addNumber m fuel v row col s = .ok s ∧
      ∀ w, w ≠ v → addNumber m fuel w row col s = .contra s := by
  constructor
  · rw [addNumber_assigned _ _ _ _ _ _ (by rw [hv]; exact hv0), if_neg (by rw [hv]; simp)]
  · intro w hw
    rw [addNumber_assigned _ _ _ _ _ _ (by rw [hv]; exact hv0),
      if_pos (by rw [hv]; exact Ne.symm hw)]

/-- A board whose only given is a 5 at `(0,0)`, candidates untouched. -/
def bC7 : Board :=
  ⟨(5 :: List.replicate 8 0) :: List.replicate 8 (List.replicate 9 0), initP⟩

theorem c7_assign_idempotent_witness :
    addNumber emptyModel 82 5 0 0 bC7 = .ok bC7 ∧
      addNumber emptyModel 82 7 0 0 bC7 = .contra bC7 := by
  have h := c7_assign_idempotent emptyModel 82 5 0 0 bC7 (by decide) (by decide)
  exact ⟨h.1, h.2 7 (by decide)⟩

/-! ### Claim C3 -/

/-- Candidate table for the C3 scenario: cell `(0,0)` has the single
candidate 5, cell `(0,1)` has candidates `{4,5}`, all others untouched. -/
def pC3 : List (List (List Nat)) :=
  ([5] :: [4, 5] :: List.replicate 7 (List.range' 1 9)) ::
    List.replicate 8 (List.replicate 9 (List.range' 1 9))

/-- An all-blank grid with the C3 candidate table. -/
def bC3 : Board := ⟨zeroTbl, pC3⟩

/-- **C3** (code bug): after `removePossibility(5,0,0)` empties the
candidate set of the unassigned cell `(0,0)`, `checkPossibility(5,0,0)`
does *not* raise `Contradiction` — it returns with the state unchanged,
because its guard `key in p[row][col]` tests membership after the removal;
likewise after `removePossibility(5,0,1)` leaves the single candidate 4 at
`(0,1)`, `checkPossibility(5,0,1)` does *not* assign 4 — the cell stays
unassigned.  This contradicts the claim (and the function's own purpose of
detecting an error or forced assignment caused by the removal). -/
theorem c3_checkPossibility_dead_after_removal :
    (bC3.bAt 0 0 = 0 ∧ 5 ∈ bC3.pAt 0 0 ∧
      (removePossibility 5 0 0 bC3).pAt 0 0 = [] ∧
      checkPossibility emptyModel 82 5 0 0 (removePossibility 5 0 0 bC3) =
        .ok (removePossibility 5 0 0 bC3)) ∧
    (bC3.bAt 0 1 = 0 ∧ 5 ∈ bC3.pAt 0 1 ∧
      (removePossibility 5 0 1 bC3).pAt 0 1 = [4] ∧
      checkPossibility emptyModel 82 5 0 1 (removePossibility 5 0 1 bC3) =
        .ok (removePossibility 5 0 1 bC3) ∧
      (removePossibility 5 0 1 bC3).bAt 0 1 = 0) := by
  decide

/-- The successful result state, if any. -/
def Res.okState : Res → Option Board
  | .ok s => some s
  | _ => none

/-! ### Claim C4 -/

/-- Purple lookup table marking `(0,0),(0,1),(0,2)` as line 1. -/
def isPurpleC4 : List (List Nat) :=
  ([1, 1, 1] ++ List.replicate 6 0) :: List.replicate 8 (List.replicate 9 0)

/-- A model with the single purple (range) line `[(0,0),(0,1),(0,2)]` of
length 3. -/
def mC4 : Model := ⟨zeroTbl, zeroTbl, isPurpleC4, [], [[(0, 0), (0, 1), (0, 2)]]⟩

/-- **C4** (code bug): assigning 5 to a cell of a purple line of length
`L = 3` must, per the claim, remove every candidate outside the open window
`(2, 8)` from the other unassigned line cells — in particular candidate 9,
since `9 ≥ 5 + 3`.  The code removes 1, 2 (low side) and 8 (high side,
`range(key+L, 9)` stops at 8) but never 9: the resulting candidate list at
the other two line cells is `[3,4,6,7,9]`, still containing 9. -/
theorem c4_nine_never_removed :
    ((addNumber mC4 82 5 0 0 (mkBoard zeroTbl)).okState.map fun s' =>
      (s'.bAt 0 0, s'.bAt 0 1, s'.bAt 0 2, s'.pAt 0 1, s'.pAt 0 2)) =
      some (5, 0, 0, [3, 4, 6, 7, 9], [3, 4, 6, 7, 9]) := by
  set_option maxRecDepth 20000 in decide

/-! ### Cells, empty-cell count, board invariant, model well-formedness -/

/-- All 81 cells in row-major order. -/
def cellsList : List (Nat × Nat) :=
  (List.range 9).flatMap fun i => (List.range 9).map fun j => (i, j)

/-- The number of empty in-range cells. -/
def emptyCount (s : Board) : Nat :=
  (cellsList.filter fun rc => s.bAt rc.1 rc.2 == 0).length

theorem cellsList_nodup : cellsList.Nodup := by decide

theorem mem_cellsList {r c : Nat} : (r, c) ∈ cellsList ↔ r < 9 ∧ c < 9 := by
  simp only [cellsList, List.mem_flatMap, List.mem_map, List.mem_range]
  constructor
  · rintro ⟨i, hi, j, hj, h⟩
    obtain ⟨rfl, rfl⟩ := Prod.mk.injEq .. ▸ h
    exact ⟨hi, hj⟩
  · rintro ⟨hr, hc⟩
    exact ⟨r, hr, c, hc, rfl⟩

theorem emptyCount_le_81 (s : Board) : emptyCount s ≤ 81 := by
  unfold emptyCount
  have h := List.length_filter_le (fun rc => s.bAt rc.1 rc.2 == 0) cellsList
  have h2 : cellsList.length = 81 := by decide
  omega

theorem emptyCount_congr {s' s : Board} (h : s'.b = s.b) :
    emptyCount s' = emptyCount s := by
  unfold emptyCount
  congr 1
  apply List.filter_congr
  intro rc _
  show (getCell s'.b rc.1 rc.2 == 0) = (getCell s.b rc.1 rc.2 == 0)
  rw [h]

theorem emptyCount_split {row col : Nat} (hrow : row < 9) (hcol : col < 9) :
    ∃ l1 l2 : List (Nat × Nat), (row, col) ∉ l1 ∧ (row, col) ∉ l2 ∧
      ∀ t : Board, emptyCount t =
        (l1.filter fun rc => t.bAt rc.1 rc.2 == 0).length +
        ((if t.bAt row col == 0 then 1 else 0) +
          (l2.filter fun rc => t.bAt rc.1 rc.2 == 0).length) := by
  obtain ⟨l1, l2, hsplit⟩ := List.append_of_mem (mem_cellsList.2 ⟨hrow, hcol⟩)
  have hnd : (l1 ++ (row, col) :: l2).Nodup := hsplit ▸ cellsList_nodup
  refine ⟨l1, l2, ?_, ?_, ?_⟩
  · exact fun hm => (List.nodup_append.1 hnd).2.2 hm (List.mem_cons_self _ _)
  · exact (List.nodup_cons.1 (List.nodup_append.1 hnd).2.1).1
  · intro t
    unfold emptyCount
    rw [hsplit, List.filter_append, List.length_append, List.filter_cons]
    split
    case isTrue h =>
      simp only [List.length_cons]
      omega
    case isFalse h =>
      omega

theorem emptyCount_setB_lt {s : Board} {row col key : Nat} (hb : BShape s)
    (h0 : s.bAt row col = 0) (hrow : row < 9) (hcol : col < 9) (hk : 1 ≤ key) :
    emptyCount (s.setB row col key) < emptyCount s := by
  obtain ⟨l1, l2, hx1, hx2, hcount⟩ := emptyCount_split hrow hcol
  have hfilter : ∀ l : List (Nat × Nat), (row, col) ∉ l →
      (l.filter fun rc => (s.setB row col key).bAt rc.1 rc.2 == 0) =
        l.filter fun rc => s.bAt rc.1 rc.2 == 0 := by
    intro l hl
    apply List.filter_congr
    intro rc hrc
    have hne : rc ≠ (row, col) := fun h => hl (h ▸ hrc)
    show ((s.setB row col key).bAt rc.1 rc.2 == 0) = (s.bAt rc.1 rc.2 == 0)
    rw [bAt_setB_ne s key (prodne (by rw [Prod.mk.eta]; exact hne))]
  rw [hcount (s.setB row col key), hcount s, hfilter l1 hx1, hfilter l2 hx2,
    bAt_setB_self s key hb hrow hcol, h0]
  have hkey : (key == 0) = false := by
    cases key
    · omega
    · rfl
  rw [hkey]
  simp

/-- Intrinsic invariant of every board in the pipeline: 9×9 shapes,
duplicate-free candidate lists with values in 1..9, grid values ≤ 9. -/
structure SInv (s : Board) : Prop where
  bshape : BShape s
  pshape : PShape s
  pnodup : ∀ r c, (s.pAt r c).Nodup
  prange : ∀ r c, ∀ v ∈ s.pAt r c, 1 ≤ v ∧ v ≤ 9
  bmax : ∀ r, r < 9 → ∀ c, c < 9 → s.bAt r c ≤ 9

/-- Well-formedness of the puzzle model, as established by the input parser
plus the construction-time invariants the specification assigns to the
caller (coordinates in range, a cell on at most one line, `purples` are
sets). -/
structure ModelWF (m : Model) : Prop where
  greyLookup : ∀ r, r < 9 → ∀ c, c < 9 → getCell m.isGrey r c = 0 ∨
    (getCell m.isGrey r c - 1 < m.greys.length ∧
    getCell m.greyIndexes r c <
      (m.greys.getD (getCell m.isGrey r c - 1) []).length ∧
    (m.greys.getD (getCell m.isGrey r c - 1) []).getD
      (getCell m.greyIndexes r c) (0, 0) = (r, c))
  greyCells : ∀ g, g < m.greys.length → ∀ i, i < (m.greys.getD g []).length →
    ((m.greys.getD g []).getD i (0, 0)).1 < 9 ∧
    ((m.greys.getD g []).getD i (0, 0)).2 < 9 ∧
    getCell m.isGrey ((m.greys.getD g []).getD i (0, 0)).1
      ((m.greys.getD g []).getD i (0, 0)).2 = g + 1 ∧
    getCell m.greyIndexes ((m.greys.getD g []).getD i (0, 0)).1
      ((m.greys.getD g []).getD i (0, 0)).2 = i
  purpleLookup : ∀ r, r < 9 → ∀ c, c < 9 → getCell m.isPurple r c = 0 ∨
    (getCell m.isPurple r c - 1 < m.purples.length ∧
    (r, c) ∈ m.purples.getD (getCell m.isPurple r c - 1) [])
  purpleCells : ∀ k, k < m.purples.length →
    (m.purples.getD k []).Nodup ∧
    ∀ rc ∈ m.purples.getD k [], rc.1 < 9 ∧ rc.2 < 9 ∧
      getCell m.isPurple rc.1 rc.2 = k + 1
  exclusive : ∀ r, r < 9 → ∀ c, c < 9 →
    getCell m.isGrey r c = 0 ∨ getCell m.isPurple r c = 0

/-- Build `SInv` from its decidable, range-bounded form. -/
theorem SInv.ofBounded (s : Board) (h1 : BShape s) (h2 : PShape s)
    (h3 : ∀ r, r < 9 → ∀ c, c < 9 → (s.pAt r c).Nodup ∧
      (∀ v ∈ s.pAt r c, 1 ≤ v ∧ v ≤ 9) ∧ s.bAt r c ≤ 9) : SInv s := by
  refine ⟨h1, h2, fun r c => ?_, fun r c => ?_, fun r hr c hc => (h3 r hr c hc).2.2⟩
  · rcases Nat.lt_or_ge r 9 with hr | hr
    · rcases Nat.lt_or_ge c 9 with hc | hc
      · exact (h3 r hr c hc).1
      · rw [pAt_oob h2 (Or.inr hc)]; exact List.nodup_nil
    · rw [pAt_oob h2 (Or.inl hr)]; exact List.nodup_nil
  · rcases Nat.lt_or_ge r 9 with hr | hr
    · rcases Nat.lt_or_ge c 9 with hc | hc
      · exact (h3 r hr c hc).2.1
      · rw [pAt_oob h2 (Or.inr hc)]; intro v hv; exact absurd hv (List.not_mem_nil v)
    · rw [pAt_oob h2 (Or.inl hr)]; intro v hv; exact absurd hv (List.not_mem_nil v)

theorem rcRemove_PShape {key row col : Nat} {s : Board} (hp : PShape s) :
    PShape (rcRemove key row col s) := by
  unfold rcRemove
  exact foldl_preserveP PShape (List.range 9)
    (fun i s => removePossibility key i col (removePossibility key row i s))
    (fun i s h => removePossibility_PShape (removePossibility_PShape h)) s hp

theorem blockRemove_PShape {key row col : Nat} {s : Board} (hp : PShape s) :
    PShape (blockRemove key row col s) := by
  unfold blockRemove
  exact foldl_preserveP PShape (blockCells row col)
    (fun ij s => removePossibility key ij.1 ij.2 s)
    (fun ij s h => removePossibility_PShape h) s hp

/-- `SInv` carries over any `Shrink` step that also preserves the `p`-table
shape. -/
theorem SInv.ofShrink {s' s : Board} (hi : SInv s) (hs : Shrink s' s)
    (hp : PShape s') : SInv s' := by
  refine ⟨?_, hp, hs.nodup hi.pnodup, ?_, ?_⟩
  · have : s'.b = s.b := hs.1
    unfold BShape
    rw [this]
    exact hi.bshape
  · exact fun r c v hv => hi.prange r c v ((hs.2 r c).subset hv)
  · intro r hr c hc
    rw [hs.bAt_eq r c]
    exact hi.bmax r hr c hc

theorem sinv_setB {s : Board} (hi : SInv s) {key row col : Nat} (hk : key ≤ 9) :
    SInv (s.setB row col key) := by
  refine ⟨bshape_setB hi.bshape row col key, hi.pshape, hi.pnodup, hi.prange, ?_⟩
  intro r hr c hc
  rcases eq_or_ne (r, c) (row, col) with heq | hne
  · obtain ⟨rfl, rfl⟩ := Prod.mk.injEq .. ▸ heq
    rw [bAt_setB_self s key hi.bshape hr hc]
    exact hk
  · rw [bAt_setB_ne s key (prodne hne)]
    exact hi.bmax r hr c hc

theorem SInv.afterRemoves {s : Board} (hi : SInv s) {key row col : Nat} (hk : key ≤ 9) :
    SInv (afterRemoves key row col s) :=
  (sinv_setB hi hk).ofShrink (afterRemoves_shrink key row col s)
    (blockRemove_PShape (rcRemove_PShape (sinv_setB hi hk).pshape))

/-! ### The purple-line step, characterized -/

/-- The two removal loops of the purple step on cell `rc` (candidates
`0..key-L` and `key+L..8`). -/
def purpleRemovals (key : Nat) (line : List (Nat × Nat)) (rc : Nat × Nat)
    (s : Board) : Board :=
  (List.range' (key + line.length) (9 - (key + line.length))).foldl
    (fun s i => removePossibility i rc.1 rc.2 s)
    ((List.range (key + 1 - line.length)).foldl
      (fun s i => removePossibility i rc.1 rc.2 s) s)

theorem foldl_removes (L : List Nat) (r c : Nat) {s : Board}
    (hnd : ∀ r' c', (s.pAt r' c').Nodup) {i : Nat} (hi : i ∈ L)
    (hb : s.bAt r c = 0) :
    i ∉ (L.foldl (fun s k => removePossibility k r c s) s).pAt r c := by
  refine foldl_establish L (fun k s => removePossibility k r c s)
    (fun k s => removePossibility_shrink k r c s)
    (fun t => i ∉ t.pAt r c) (fun s' s'' hs hP => hs.not_mem hP) s hi ?_
  intro t ht
  exact removePossibility_removes (ht.nodup hnd r c) ((ht.bAt_eq r c).trans hb)

theorem foldl_rp_shrink (L : List Nat) (r c : Nat) (s : Board) :
    Shrink (L.foldl (fun s k => removePossibility k r c s) s) s :=
  foldl_shrink L (fun k s => removePossibility k r c s)
    (fun k s => removePossibility_shrink k r c s) s

theorem purpleRemovals_shrink (key : Nat) (line : List (Nat × Nat))
    (rc : Nat × Nat) (s : Board) : Shrink (purpleRemovals key line rc s) s := by
  unfold purpleRemovals
  exact (foldl_rp_shrink _ rc.1 rc.2 _).trans (foldl_rp_shrink _ rc.1 rc.2 s)

theorem purpleRemovals_PShape (key : Nat) (line : List (Nat × Nat))
    (rc : Nat × Nat) {s : Board} (hp : PShape s) :
    PShape (purpleRemovals key line rc s) := by
  unfold purpleRemovals
  exact foldl_preserveP PShape _ _ (fun k s h => removePossibility_PShape h) _
    (foldl_preserveP PShape _ _ (fun k s h => removePossibility_PShape h) s hp)

theorem purpleRemovals_dead (key : Nat) (line : List (Nat × Nat)) (rc : Nat × Nat)
    {s : Board} (hnd : ∀ r' c', (s.pAt r' c').Nodup) {i : Nat}
    (hi : i ∈ List.range (key + 1 - line.length) ∨
      i ∈ List.range' (key + line.length) (9 - (key + line.length))) :
    (purpleRemovals key line rc s).bAt rc.1 rc.2 ≠ 0 ∨
      i ∉ (purpleRemovals key line rc s).pAt rc.1 rc.2 := by
  by_cases hb : s.bAt rc.1 rc.2 = 0
  · right
    unfold purpleRemovals
    rcases hi with hi | hi
    · exact (foldl_rp_shrink _ rc.1 rc.2 _).not_mem
        (foldl_removes _ rc.1 rc.2 hnd hi hb)
    · have hsh := foldl_rp_shrink (List.range (key + 1 - line.length)) rc.1 rc.2 s
      exact foldl_removes _ rc.1 rc.2 (fun r' c' => hsh.nodup hnd r' c') hi
        ((hsh.bAt_eq rc.1 rc.2).trans hb)
  · left
    rw [(purpleRemovals_shrink key line rc s).bAt_eq]
    exact hb

/-- The purple-line step, with its dead `checkPossibility` loops removed:
an assigned other cell is a pure window check; an unassigned cell (or the
just-assigned cell itself) only gets the out-of-window removals. -/
theorem purpleStep_eq (m : Model) (fuel key row col : Nat)
    (line : List (Nat × Nat)) (rc : Nat × Nat) (s : Board)
    (hnd : ∀ r c, (s.pAt r c).Nodup) :
    purpleStep m fuel key row col line rc s =
      if s.bAt rc.1 rc.2 ≠ 0 ∧ (rc.1 ≠ row ∨ rc.2 ≠ col) then
        if s.bAt rc.1 rc.2 = key ∨ s.bAt rc.1 rc.2 + line.length ≤ key ∨
            key + line.length ≤ s.bAt rc.1 rc.2 then .contra s
        else .ok s
      else .ok (purpleRemovals key line rc s) := by
  unfold purpleStep
  split
  · rfl
  · show (seqAll (List.range (key + 1 - line.length))
        (fun i s => checkPossibility m fuel i rc.1 rc.2 s)
        (purpleRemovals key line rc s)).bind
      (seqAll (List.range' (key + line.length) (9 - (key + line.length)))
        (fun i s => checkPossibility m fuel i rc.1 rc.2 s)) =
      .ok (purpleRemovals key line rc s)
    rw [seqAll_ok_of_noop _ _ _ (fun i hi =>
        checkPossibility_dead _ _ _ _ _ _ (purpleRemovals_dead key line rc hnd (Or.inl hi))),
      Res.bind_ok,
      seqAll_ok_of_noop _ _ _ (fun i hi =>
        checkPossibility_dead _ _ _ _ _ _ (purpleRemovals_dead key line rc hnd (Or.inr hi)))]

theorem seqAll_no_fuelOut {α : Type} (P : Board → Prop) (l : List α)
    (f : α → Board → Res) :
    ∀ s : Board, P s →
      (∀ a ∈ l, ∀ t, P t → f a t ≠ .fuelOut ∧ (∀ t', f a t = .ok t' → P t')) →
      seqAll l f s ≠ .fuelOut := by
  induction l with
  | nil =>
    intro s _ _
    simp [seqAll]
  | cons a xs ih =>
    intro s hs hstep
    show (match f a s with | .ok s' => seqAll xs f s' | e => e) ≠ .fuelOut
    cases hfa : f a s with
    | ok s' =>
      exact ih s' ((hstep a (List.mem_cons_self a xs) s hs).2 s' hfa)
        (fun a' ha' => hstep a' (List.mem_cons_of_mem a ha'))
    | contra s' => simp
    | fuelOut => exact absurd hfa (hstep a (List.mem_cons_self a xs) s hs).1

/-! ### Termination of `addNumber` (claim C10) -/

theorem mirrorTarget_eq (m : Model) (row col : Nat) :
    mirrorTarget m row col =
      (m.greys.getD (getCell m.isGrey row col - 1) []).getD
        ((m.greys.getD (getCell m.isGrey row col - 1) []).length -
          getCell m.greyIndexes row col - 1) (0, 0) := rfl

/-- With fuel exceeding the number of empty cells, `addNumber` never runs
out of fuel: each nesting level either returns at once from an assigned
cell or first fills a previously empty in-range cell. -/
theorem addNumber_no_fuelOut (m : Model) (hm : ModelWF m) :
    ∀ fuel, ∀ s : Board, ∀ key row col : Nat, SInv s → row < 9 → col < 9 →
      1 ≤ key → key ≤ 9 → emptyCount s < fuel →
      addNumber m fuel key row col s ≠ .fuelOut := by
  intro fuel
  induction fuel with
  | zero =>
    intro s key row col _ _ _ _ _ h
    omega
  | succ fuel ih =>
    intro s key row col hs hrow hcol hk1 hk9 hcount
    by_cases hb : s.bAt row col ≠ 0
    · rw [addNumber_assigned m _ key row col s hb]
      split <;> simp
    · push_neg at hb
      rw [addNumber_empty m fuel key row col s hb hs.pnodup]
      have hSt : SInv (afterRemoves key row col s) := hs.afterRemoves hk9
      have hcount' : emptyCount (afterRemoves key row col s) < fuel := by
        have h1 : emptyCount (afterRemoves key row col s) =
            emptyCount (s.setB row col key) :=
          emptyCount_congr (afterRemoves_b key row col s)
        have h2 := emptyCount_setB_lt hs.bshape hb hrow hcol hk1
        omega
      split
      next hg =>
        obtain ⟨hg1, hg2, _⟩ := (hm.greyLookup row hrow col hcol).resolve_left hg
        have hmi : (m.greys.getD (getCell m.isGrey row col - 1) []).length -
            getCell m.greyIndexes row col - 1 <
            (m.greys.getD (getCell m.isGrey row col - 1) []).length := by omega
        have hcells := hm.greyCells _ hg1 _ hmi
        rw [mirrorTarget_eq]
        exact ih (afterRemoves key row col s) key _ _ hSt hcells.1 hcells.2.1
          hk1 hk9 hcount'
      next hg =>
        split
        next hp =>
          apply seqAll_no_fuelOut (fun t => ∀ r c, (t.pAt r c).Nodup) _ _ _ hSt.pnodup
          intro a _ t hnd
          rw [purpleStep_eq m fuel key row col _ a t hnd]
          constructor
          · split
            · split <;> simp
            · simp
          · intro t' ht'
            split at ht'
            · split at ht'
              · exact absurd ht' (by simp)
              · cases ht'
                exact hnd
            · cases ht'
              exact fun r c =>
                (purpleRemovals_shrink key (purpleLine m row col) a t).nodup hnd r c
        next hg2 =>
          simp

/-- **C10**: every `addNumber` call terminates — in the fuel-indexed
embedding, fuel 82 (one more than the 81 cells of the board) is never
exhausted, because each recursive invocation (through the mirror-line
propagation, `checkPossibility`, or `checkGroup`) either returns
immediately from an already-assigned cell or first assigns a previously
empty cell, so the number of empty cells strictly decreases along every
recursion chain and is bounded by 81. -/
theorem c10_addNumber_terminates (m : Model) (s : Board) (key row col : Nat)
    (hm : ModelWF m) (hs : SInv s) (hrow : row < 9) (hcol : col < 9)
    (hk1 : 1 ≤ key) (hk9 : key ≤ 9) :
    addNumber m 82 key row col s ≠ .fuelOut :=
  addNumber_no_fuelOut m hm 82 s key row col hs hrow hcol hk1 hk9
    (Nat.lt_succ_of_le (emptyCount_le_81 s))

theorem c10_addNumber_terminates_witness :
    addNumber emptyModel 82 5 0 0 (mkBoard zeroTbl) ≠ .fuelOut := by
  refine c10_addNumber_terminates emptyModel (mkBoard zeroTbl) 5 0 0
    ⟨?_, ?_, ?_, ?_, ?_⟩
    (SInv.ofBounded _ (by unfold BShape; decide) (by unfold PShape; decide) (by decide))
    (by decide) (by decide) (by decide) (by decide) <;> decide

/-! ### Effect of a successful `addNumber` on the grid -/

/-- A successful pass of `purpleStep` over cells `l` only shrinks candidate
sets (never touching the grid), and certifies the window check for every
assigned other cell of `l`. -/
theorem seqAll_purpleStep_ok (m : Model) (fuel key row col : Nat)
    (line : List (Nat × Nat)) :
    ∀ (l : List (Nat × Nat)) (t s' : Board), (∀ r c, (t.pAt r c).Nodup) →
      PShape t →
      seqAll l (purpleStep m fuel key row col line) t = .ok s' →
      Shrink s' t ∧ PShape s' ∧
        ∀ rc ∈ l, (rc.1 ≠ row ∨ rc.2 ≠ col) → t.bAt rc.1 rc.2 ≠ 0 →
          t.bAt rc.1 rc.2 ≠ key ∧ key < t.bAt rc.1 rc.2 + line.length ∧
            t.bAt rc.1 rc.2 < key + line.length := by
  intro l
  induction l with
  | nil =>
    intro t s' _ hp hok
    cases hok
    exact ⟨Shrink.refl t, hp, fun rc hrc => absurd hrc (List.not_mem_nil rc)⟩
  | cons rc l' ih =>
    intro t s' hnd hp hok
    rw [show seqAll (rc :: l') (purpleStep m fuel key row col line) t =
        (match purpleStep m fuel key row col line rc t with
         | .ok s'' => seqAll l' (purpleStep m fuel key row col line) s''
         | e => e) from rfl] at hok
    rw [purpleStep_eq m fuel key row col line rc t hnd] at hok
    by_cases h1 : t.bAt rc.1 rc.2 ≠ 0 ∧ (rc.1 ≠ row ∨ rc.2 ≠ col)
    · rw [if_pos h1] at hok
      by_cases h2 : t.bAt rc.1 rc.2 = key ∨ t.bAt rc.1 rc.2 + line.length ≤ key ∨
          key + line.length ≤ t.bAt rc.1 rc.2
      · rw [if_pos h2] at hok
        exact absurd hok (by simp)
      · rw [if_neg h2] at hok
        push_neg at h2
        obtain ⟨hsh, hps, hrest⟩ := ih t s' hnd hp hok
        refine ⟨hsh, hps, ?_⟩
        intro rc' hrc' hother hassigned
        rcases List.mem_cons.1 hrc' with rfl | hmem
        · exact ⟨h2.1, by omega, by omega⟩
        · exact hrest rc' hmem hother hassigned
    · rw [if_neg h1] at hok
      have hsh1 : Shrink (purpleRemovals key line rc t) t :=
        purpleRemovals_shrink key line rc t
      have hnd1 : ∀ r c, ((purpleRemovals key line rc t).pAt r c).Nodup :=
        fun r c => hsh1.nodup hnd r c
      have hp1 : PShape (purpleRemovals key line rc t) :=
        purpleRemovals_PShape key line rc hp
      obtain ⟨hsh, hps, hrest⟩ := ih (purpleRemovals key line rc t) s' hnd1 hp1 hok
      refine ⟨hsh.trans hsh1, hps, ?_⟩
      intro rc' hrc' hother hassigned
      rcases List.mem_cons.1 hrc' with rfl | hmem
      · exact absurd ⟨hassigned, hother⟩ h1
      · have hb1 : (purpleRemovals key line rc t).bAt rc'.1 rc'.2 = t.bAt rc'.1 rc'.2 :=
          hsh1.bAt_eq rc'.1 rc'.2
        have := hrest rc' hmem hother (by rw [hb1]; exact hassigned)
        rw [hb1] at this
        exact this

theorem bAt_afterRemoves (key row col r c : Nat) (s : Board) :
    (afterRemoves key row col s).bAt r c = (s.setB row col key).bAt r c :=
  (afterRemoves_shrink key row col s).bAt_eq r c

theorem addNumber_zero (m : Model) (key row col : Nat) (s : Board)
    (hb : s.bAt row col = 0) : addNumber m 0 key row col s = .fuelOut := by
  rw [addNumber]
  rw [if_neg (by simp [hb])]

attribute [irreducible] removePossibility rcRemove blockRemove afterRemoves
  purpleRemovals purpleStep checkPossibility addNumber checkGroup check

/-- Characterization of a successful `addNumber` on a well-formed model:
either the cell already held `key` and nothing changed, or the cell was
empty and the grid gains `key` there — plus, exactly when the cell is grey,
the same `key` at the mirror counterpart (which must have been empty or
already equal to `key`); all other grid cells are untouched, and when the
cell is purple every other assigned cell of its line passed the window
check. -/
theorem ne_prod {r c row col : Nat} (h : r ≠ row ∨ c ≠ col) :
    (r, c) ≠ (row, col) := by
  intro hcontra
  obtain ⟨h1, h2⟩ := Prod.mk.injEq .. ▸ hcontra
  rcases h with h | h
  · exact h h1
  · exact h h2

/-- Characterization of a successful `addNumber` on a well-formed model:
either the cell already held `key` and nothing changed, or the cell was
empty and the grid gains `key` there — plus, exactly when the cell is grey,
the same `key` at the mirror counterpart (which must have been empty or
already equal to `key`); all other grid cells are untouched, and when the
cell is purple every other assigned cell of its line passed the window
check. -/
theorem addNumber_ok_effect (m : Model) (hm : ModelWF m) :
    ∀ (fuel key row col : Nat) (s s' : Board), SInv s → row < 9 → col < 9 →
      1 ≤ key → key ≤ 9 →
      addNumber m fuel key row col s = .ok s' →
      (s.bAt row col = key ∧ s' = s) ∨
      (s.bAt row col = 0 ∧ SInv s' ∧ s'.bAt row col = key ∧
        (∀ r c, (r, c) ≠ (row, col) → (r, c) ≠ mirrorTarget m row col →
          s'.bAt r c = s.bAt r c) ∧
        ((getCell m.isGrey row col ≠ 0 ∧
            s'.bAt (mirrorTarget m row col).1 (mirrorTarget m row col).2 = key ∧
            (s.bAt (mirrorTarget m row col).1 (mirrorTarget m row col).2 = 0 ∨
              s.bAt (mirrorTarget m row col).1 (mirrorTarget m row col).2 = key)) ∨
          (getCell m.isGrey row col = 0 ∧
            (∀ r c, (r, c) ≠ (row, col) → s'.bAt r c = s.bAt r c) ∧
            (getCell m.isPurple row col ≠ 0 →
              ∀ rc ∈ purpleLine m row col, (rc.1 ≠ row ∨ rc.2 ≠ col) →
                s.bAt rc.1 rc.2 ≠ 0 →
                s.bAt rc.1 rc.2 ≠ key ∧
                key < s.bAt rc.1 rc.2 + (purpleLine m row col).length ∧
                s.bAt rc.1 rc.2 < key + (purpleLine m row col).length)))) := by
  intro fuel key row col s s' hs hrow hcol hk1 hk9 hok
  by_cases hb : s.bAt row col ≠ 0
  · rw [addNumber_assigned m fuel key row col s hb] at hok
    by_cases hbk : s.bAt row col ≠ key
    · rw [if_pos hbk] at hok
      exact absurd hok (by simp)
    · rw [if_neg hbk] at hok
      push_neg at hbk
      cases hok
      exact Or.inl ⟨hbk, rfl⟩
  · push_neg at hb
    cases fuel with
    | zero =>
      rw [addNumber_zero m key row col s hb] at hok
      exact absurd hok (by simp)
    | succ fuel =>
      rw [addNumber_empty m fuel key row col s hb hs.pnodup] at hok
      have hSt : SInv (afterRemoves key row col s) := hs.afterRemoves hk9
      have htb : ∀ r c, (afterRemoves key row col s).bAt r c =
          (s.setB row col key).bAt r c := fun r c => bAt_afterRemoves key row col r c s
      have htrc : (afterRemoves key row col s).bAt row col = key := by
        rw [htb row col, bAt_setB_self s key hs.bshape hrow hcol]
      have htne : ∀ r c, (r, c) ≠ (row, col) →
          (afterRemoves key row col s).bAt r c = s.bAt r c := by
        intro r c hne
        rw [htb r c, bAt_setB_ne s key (prodne hne)]
      refine Or.inr ⟨hb, ?_⟩
      by_cases hg : getCell m.isGrey row col ≠ 0
      · rw [if_pos hg] at hok
        obtain ⟨hg1, hg2, hg3⟩ :=
          (hm.greyLookup row hrow col hcol).resolve_left hg
        have hmi : (m.greys.getD (getCell m.isGrey row col - 1) []).length -
            getCell m.greyIndexes row col - 1 <
            (m.greys.getD (getCell m.isGrey row col - 1) []).length := by omega
        have hcells := hm.greyCells _ hg1 _ hmi
        rw [← mirrorTarget_eq m row col] at hcells
        obtain ⟨hM1, hM2, hMg, hMi⟩ := hcells
        by_cases hMb : (afterRemoves key row col s).bAt (mirrorTarget m row col).1
            (mirrorTarget m row col).2 ≠ 0
        · rw [addNumber_assigned m fuel key _ _ _ hMb] at hok
          by_cases hMk : (afterRemoves key row col s).bAt (mirrorTarget m row col).1
              (mirrorTarget m row col).2 ≠ key
          · rw [if_pos hMk] at hok
            exact absurd hok (by simp)
          · rw [if_neg hMk] at hok
            push_neg at hMk
            cases hok
            refine ⟨hSt, htrc, fun r c h1 _ => htne r c h1, Or.inl ⟨hg, hMk, ?_⟩⟩
            by_cases hMrc : mirrorTarget m row col = (row, col)
            · rw [hMrc]
              exact Or.inl hb
            · right
              rw [← htne (mirrorTarget m row col).1 (mirrorTarget m row col).2
                (by rw [Prod.mk.eta]; exact hMrc)]
              exact hMk
        · push_neg at hMb
          have hMrc : mirrorTarget m row col ≠ (row, col) := by
            intro heq
            rw [heq, htrc] at hMb
            omega
          have hsM : s.bAt (mirrorTarget m row col).1 (mirrorTarget m row col).2 = 0 := by
            rw [← htne (mirrorTarget m row col).1 (mirrorTarget m row col).2
              (by rw [Prod.mk.eta]; exact hMrc)]
            exact hMb
          cases fuel with
          | zero =>
            rw [addNumber_zero m key _ _ _ hMb] at hok
            exact absurd hok (by simp)
          | succ fuel2 =>
            rw [addNumber_empty m fuel2 key _ _ _ hMb hSt.pnodup] at hok
            have hMgrey : getCell m.isGrey (mirrorTarget m row col).1
                (mirrorTarget m row col).2 ≠ 0 := by
              rw [hMg]
              omega
            rw [if_pos hMgrey] at hok
            have hback : mirrorTarget m (mirrorTarget m row col).1
                (mirrorTarget m row col).2 = (row, col) := by
              rw [mirrorTarget_eq, hMg, hMi, Nat.add_sub_cancel]
              rw [show (m.greys.getD (getCell m.isGrey row col - 1) []).length -
                  ((m.greys.getD (getCell m.isGrey row col - 1) []).length -
                    getCell m.greyIndexes row col - 1) - 1 =
                  getCell m.greyIndexes row col from by omega]
              exact hg3
            rw [hback] at hok
            have ht2b : ∀ r c, (afterRemoves key (mirrorTarget m row col).1
                (mirrorTarget m row col).2 (afterRemoves key row col s)).bAt r c =
                ((afterRemoves key row col s).setB (mirrorTarget m row col).1
                  (mirrorTarget m row col).2 key).bAt r c :=
              fun r c => bAt_afterRemoves key _ _ r c _
            have ht2rc : (afterRemoves key (mirrorTarget m row col).1
                (mirrorTarget m row col).2 (afterRemoves key row col s)).bAt row col =
                key := by
              rw [ht2b row col,
                bAt_setB_ne _ key (prodne (by rw [Prod.mk.eta]; exact Ne.symm hMrc)),
                htrc]
            rw [addNumber_assigned _ _ _ _ _ _ (by rw [ht2rc]; omega)] at hok
            rw [if_neg (by rw [ht2rc]; simp)] at hok
            cases hok
            refine ⟨hSt.afterRemoves hk9, ht2rc, ?_, Or.inl ⟨hg, ?_, Or.inl hsM⟩⟩
            · intro r c h1 h2
              rw [ht2b r c, bAt_setB_ne _ key (prodne (by rw [Prod.mk.eta]; exact h2)),
                htne r c h1]
            · rw [ht2b, bAt_setB_self _ key hSt.bshape hM1 hM2]
      · push_neg at hg
        rw [if_neg (by simp [hg])] at hok
        by_cases hp : getCell m.isPurple row col ≠ 0
        · rw [if_pos hp] at hok
          obtain ⟨hsh, hps, hwin⟩ := seqAll_purpleStep_ok m fuel key row col
            (purpleLine m row col) (purpleLine m row col)
            (afterRemoves key row col s) s' hSt.pnodup hSt.pshape hok
          have hbeq : ∀ r c, s'.bAt r c = (afterRemoves key row col s).bAt r c :=
            fun r c => hsh.bAt_eq r c
          refine ⟨hSt.ofShrink hsh hps, by rw [hbeq, htrc], ?_, Or.inr ⟨hg, ?_, ?_⟩⟩
          · intro r c h1 _
            rw [hbeq, htne r c h1]
          · intro r c h1
            rw [hbeq, htne r c h1]
          · intro _ rc hrc hother hassigned
            have ht_rc : (afterRemoves key row col s).bAt rc.1 rc.2 = s.bAt rc.1 rc.2 :=
              htne rc.1 rc.2 (by rw [Prod.mk.eta]; exact ne_prod hother)
            have hfact := hwin rc hrc hother (by rw [ht_rc]; exact hassigned)
            rw [ht_rc] at hfact
            exact hfact
        · push_neg at hp
          rw [if_neg (by simp [hp])] at hok
          cases hok
          exact ⟨hSt, htrc, fun r c h1 _ => htne r c h1,
            Or.inr ⟨hg, fun r c h1 => htne r c h1, fun hcontra => absurd hp hcontra⟩⟩

/-! ### Generic fold helpers over accumulators -/

theorem foldl_pres {A α : Type} (P : A → Prop) (l : List α) (f : A → α → A)
    (hf : ∀ acc a, a ∈ l → P acc → P (f acc a)) :
    ∀ acc, P acc → P (l.foldl f acc) := by
  induction l with
  | nil => exact fun acc h => h
  | cons a xs ih =>
    intro acc h
    exact ih (fun acc' a' ha' => hf acc' a' (List.mem_cons_of_mem a ha'))
      (f acc a) (hf acc a (List.mem_cons_self a xs) h)

theorem foldl_est {A α : Type} (P : A → Prop) (l : List α) (f : A → α → A)
    (hf : ∀ acc a, a ∈ l → P acc → P (f acc a))
    {a : α} (ha : a ∈ l) (hest : ∀ acc, P (f acc a)) :
    ∀ acc, P (l.foldl f acc) := by
  intro acc
  obtain ⟨l1, l2, rfl⟩ := List.append_of_mem ha
  rw [List.foldl_append, List.foldl_cons]
  exact foldl_pres P l2 f
    (fun acc' a' ha' => hf acc' a' (by simp [List.mem_append, ha']))
    _ (hest _)

/-! ### The branch-cell scans -/

/-- Candidate lists hold at most 9 values (duplicate-free, within 1..9). -/
theorem pAt_len_le9 {s : Board} (hs : SInv s) (r c : Nat) :
    (s.pAt r c).length ≤ 9 := by
  have hnd := hs.pnodup r c
  have hsub : (s.pAt r c).toFinset ⊆ Finset.Icc 1 9 := by
    intro v hv
    rw [List.mem_toFinset] at hv
    obtain ⟨h1, h2⟩ := hs.prange r c v hv
    exact Finset.mem_Icc.2 ⟨h1, h2⟩
  have hcard := Finset.card_le_card hsub
  rw [List.toFinset_card_of_nodup hnd] at hcard
  simpa using hcard

/-- What `greyScan` returns: either the untouched initial accumulator, or an
unassigned cell of some grey line together with its candidate count. -/
theorem greyScan_spec (m : Model) (s : Board) :
    greyScan m s = (100, 0, 0) ∨
      ((∃ line ∈ m.greys, (greyScan m s).2 ∈ line) ∧
        s.bAt (greyScan m s).2.1 (greyScan m s).2.2 = 0 ∧
        (greyScan m s).1 = (s.pAt (greyScan m s).2.1 (greyScan m s).2.2).length) := by
  unfold greyScan
  refine foldl_pres (fun acc => acc = (100, 0, 0) ∨
      ((∃ line ∈ m.greys, acc.2 ∈ line) ∧ s.bAt acc.2.1 acc.2.2 = 0 ∧
        acc.1 = (s.pAt acc.2.1 acc.2.2).length)) m.greys _ ?_ _ (Or.inl rfl)
  intro acc line hline hacc
  refine foldl_pres (fun acc => acc = (100, 0, 0) ∨
      ((∃ line' ∈ m.greys, acc.2 ∈ line') ∧ s.bAt acc.2.1 acc.2.2 = 0 ∧
        acc.1 = (s.pAt acc.2.1 acc.2.2).length)) line
    (fun acc rc => if s.bAt rc.1 rc.2 = 0 ∧ (s.pAt rc.1 rc.2).length < acc.1 then
      ((s.pAt rc.1 rc.2).length, rc.1, rc.2) else acc) ?_ acc hacc
  intro acc' rc hrc hacc'
  dsimp only
  by_cases h : s.bAt rc.1 rc.2 = 0 ∧ (s.pAt rc.1 rc.2).length < acc'.1
  · rw [if_pos h]
    exact Or.inr ⟨⟨line, hline, hrc⟩, h.1, rfl⟩
  · rw [if_neg h]
    exact hacc'

/-- What `fullScan` returns: either the untouched accumulator, or an
unassigned in-range cell with its candidate count. -/
theorem fullScan_spec (m : Model) (s : Board) (acc0 : Nat × Nat × Nat) :
    fullScan m s acc0 = acc0 ∨
      ((fullScan m s acc0).2.1 < 9 ∧ (fullScan m s acc0).2.2 < 9 ∧
        s.bAt (fullScan m s acc0).2.1 (fullScan m s acc0).2.2 = 0 ∧
        (fullScan m s acc0).1 =
          (s.pAt (fullScan m s acc0).2.1 (fullScan m s acc0).2.2).length) := by
  unfold fullScan
  refine foldl_pres (fun acc => acc = acc0 ∨
      (acc.2.1 < 9 ∧ acc.2.2 < 9 ∧ s.bAt acc.2.1 acc.2.2 = 0 ∧
        acc.1 = (s.pAt acc.2.1 acc.2.2).length)) (List.range 9) _ ?_ _ (Or.inl rfl)
  intro acc i hi hacc
  refine foldl_pres (fun acc => acc = acc0 ∨
      (acc.2.1 < 9 ∧ acc.2.2 < 9 ∧ s.bAt acc.2.1 acc.2.2 = 0 ∧
        acc.1 = (s.pAt acc.2.1 acc.2.2).length)) (List.range 9)
    (fun acc j => if s.bAt i j = 0 ∧ ((s.pAt i j).length < acc.1 ∨
        ((s.pAt i j).length = acc.1 ∧ getCell m.isPurple i j ≠ 0)) then
      ((s.pAt i j).length, i, j) else acc) ?_ acc hacc
  intro acc' j hj hacc'
  dsimp only
  by_cases h : s.bAt i j = 0 ∧ ((s.pAt i j).length < acc'.1 ∨
      ((s.pAt i j).length = acc'.1 ∧ getCell m.isPurple i j ≠ 0))
  · rw [if_pos h]
    exact Or.inr ⟨List.mem_range.1 hi, List.mem_range.1 hj, h.1, rfl⟩
  · rw [if_neg h]
    exact hacc'

/-- If some in-range cell is empty, `fullScan` ends with a count ≤ 9 (so
never the sentinel 100): the scan visits that cell and from then on the
running minimum stays at most its candidate count. -/
theorem fullScan_le9_of_empty (m : Model) {s : Board} (hs : SInv s)
    {i j : Nat} (hi : i < 9) (hj : j < 9) (hb : s.bAt i j = 0)
    (acc0 : Nat × Nat × Nat) : (fullScan m s acc0).1 ≤ 9 := by
  unfold fullScan
  have hstep : ∀ (i' : Nat), ∀ acc (j' : Nat), acc.1 ≤ 9 →
      (if s.bAt i' j' = 0 ∧ ((s.pAt i' j').length < acc.1 ∨
          ((s.pAt i' j').length = acc.1 ∧ getCell m.isPurple i' j' ≠ 0)) then
        ((s.pAt i' j').length, i', j')
      else acc).1 ≤ 9 := by
    intro i' acc j' hacc
    split
    · exact pAt_len_le9 hs i' j'
    · exact hacc
  have hestj : ∀ (i' : Nat), s.bAt i' j = 0 → ∀ acc,
      ((List.range 9).foldl (fun acc j' =>
        if s.bAt i' j' = 0 ∧ ((s.pAt i' j').length < acc.1 ∨
            ((s.pAt i' j').length = acc.1 ∧ getCell m.isPurple i' j' ≠ 0)) then
          ((s.pAt i' j').length, i', j')
        else acc) acc).1 ≤ 9 := by
    intro i' hb' acc
    refine foldl_est (fun acc => acc.1 ≤ 9) (List.range 9) _
      (fun acc' j' _ h => hstep i' acc' j' h) (List.mem_range.2 hj) ?_ acc
    intro acc'
    dsimp only
    by_cases hcase : (s.pAt i' j).length < acc'.1 ∨
        ((s.pAt i' j).length = acc'.1 ∧ getCell m.isPurple i' j ≠ 0)
    · rw [if_pos ⟨hb', hcase⟩]
      exact pAt_len_le9 hs i' j
    · rw [if_neg (by intro hand; exact hcase hand.2)]
      rcases Nat.lt_or_ge 9 acc'.1 with hgt | hle
      · exfalso
        have hlen := pAt_len_le9 hs i' j
        exact hcase (Or.inl (by omega))
      · exact hle
  refine foldl_est (fun acc => acc.1 ≤ 9) (List.range 9)
    (fun acc i' => (List.range 9).foldl (fun acc j' =>
      if s.bAt i' j' = 0 ∧ ((s.pAt i' j').length < acc.1 ∨
          ((s.pAt i' j').length = acc.1 ∧ getCell m.isPurple i' j' ≠ 0)) then
        ((s.pAt i' j').length, i', j')
      else acc) acc) ?_ (List.mem_range.2 hi)
    (fun acc => hestj i hb acc) acc0
  intro acc i' _ hacc
  exact foldl_pres (fun acc => acc.1 ≤ 9) (List.range 9) _
    (fun acc' j' _ h => hstep i' acc' j' h) acc hacc

/-! ### Unfolding `recurse` -/

/-- The branch cell chosen by `recurse`: the grey scan while `greysLeft`
still finds empty grey cells, otherwise the full scan (fed the grey scan's
accumulator, exactly as the code leaves `min`/`minCoords`). -/
def select (m : Model) (gl : Bool) (s : Board) : Nat × Nat × Nat :=
  let acc1 := if gl = true then greyScan m s else (100, 0, 0)
  if (gl && (acc1.1 != 100)) = true then acc1 else fullScan m s acc1

/-- The `greysLeft` flag passed to the recursive calls. -/
def glNext (m : Model) (gl : Bool) (s : Board) : Bool :=
  gl && ((if gl = true then greyScan m s else (100, 0, 0)).1 != 100)

/-- One candidate trial of the branch loop of `recurse`: while no branch has
succeeded (accumulator `contra`), try `addNumber` on a fresh copy and
recurse; a successful or fuel-out outcome short-circuits the rest. -/
def branchStep (m : Model) (fuel : Nat) (gl2 : Bool) (r c : Nat) (s1 : Board)
    (acc : SRes) (k : Nat) : SRes :=
  match acc with
  | .contra =>
    match addNumber m 82 k r c s1 with
    | .ok s2 => recurse m fuel gl2 s2
    | .contra _ => .contra
    | .fuelOut => .fuelOut
  | done => done

/-- Unfolding of `recurse` at positive fuel, using that the `check` sweep is
a no-op. -/
theorem recurse_succ (m : Model) (fuel : Nat) (gl : Bool) (s : Board) :
    recurse m (fuel + 1) gl s =
      if (select m gl s).1 = 100 then .ok s.b
      else
        (s.pAt (select m gl s).2.1 (select m gl s).2.2).foldl
          (branchStep m fuel (glNext m gl s) (select m gl s).2.1
            (select m gl s).2.2 s) .contra := by
  show (match check m 82 s with
    | .ok s1 =>
      let acc1 := if gl = true then greyScan m s1 else (100, 0, 0)
      let gl2 := gl && (acc1.1 != 100)
      let acc2 := if gl2 = true then acc1 else fullScan m s1 acc1
      if acc2.1 = 100 then SRes.ok s1.b
      else
        (s1.pAt acc2.2.1 acc2.2.2).foldl (fun acc k =>
          match acc with
          | .contra =>
            match addNumber m 82 k acc2.2.1 acc2.2.2 s1 with
            | .ok s2 => recurse m fuel gl2 s2
            | .contra _ => SRes.contra
            | .fuelOut => SRes.fuelOut
          | done => done) .contra
    | .contra _ => SRes.contra
    | .fuelOut => SRes.fuelOut) = _
  rw [check_noop m 82 s]
  rfl

theorem branchFold_pass_ok (m : Model) (fuel : Nat) (gl2 : Bool) (r c : Nat)
    (s1 : Board) (l : List Nat) (g : List (List Nat)) :
    l.foldl (branchStep m fuel gl2 r c s1) (.ok g) = .ok g := by
  induction l with
  | nil => rfl
  | cons k rest ih => exact ih

theorem branchFold_pass_fuelOut (m : Model) (fuel : Nat) (gl2 : Bool) (r c : Nat)
    (s1 : Board) (l : List Nat) :
    l.foldl (branchStep m fuel gl2 r c s1) .fuelOut = .fuelOut := by
  induction l with
  | nil => rfl
  | cons k rest ih => exact ih

/-- A successful branch loop exhibits a successful candidate: some `k` in
the candidate list for which `addNumber` succeeds and the recursion returns
the final grid. -/
theorem branchFold_ok (m : Model) (fuel : Nat) (gl2 : Bool) (r c : Nat)
    (s1 : Board) :
    ∀ (l : List Nat) (g : List (List Nat)),
      l.foldl (branchStep m fuel gl2 r c s1) .contra = .ok g →
      ∃ k s2, k ∈ l ∧ addNumber m 82 k r c s1 = .ok s2 ∧
        recurse m fuel gl2 s2 = .ok g := by
  intro l
  induction l with
  | nil =>
    intro g h
    exact absurd h (by simp [List.foldl])
  | cons k rest ih =>
    intro g h
    rw [List.foldl_cons] at h
    cases haN : addNumber m 82 k r c s1 with
    | ok s2 =>
      have hstep : branchStep m fuel gl2 r c s1 .contra k = recurse m fuel gl2 s2 := by
        unfold branchStep
        rw [haN]
      rw [hstep] at h
      cases hrec : recurse m fuel gl2 s2 with
      | ok g2 =>
        rw [hrec, branchFold_pass_ok] at h
        cases h
        exact ⟨k, s2, List.mem_cons_self k rest, haN, hrec⟩
      | contra =>
        rw [hrec] at h
        obtain ⟨k', s2', hk', ha', hr'⟩ := ih g h
        exact ⟨k', s2', List.mem_cons_of_mem k hk', ha', hr'⟩
      | fuelOut =>
        rw [hrec, branchFold_pass_fuelOut] at h
        exact absurd h (by simp)
    | contra s'' =>
      have hstep : branchStep m fuel gl2 r c s1 .contra k = .contra := by
        unfold branchStep
        rw [haN]
      rw [hstep] at h
      obtain ⟨k', s2', hk', ha', hr'⟩ := ih g h
      exact ⟨k', s2', List.mem_cons_of_mem k hk', ha', hr'⟩
    | fuelOut =>
      have hstep : branchStep m fuel gl2 r c s1 .contra k = .fuelOut := by
        unfold branchStep
        rw [haN]
      rw [hstep, branchFold_pass_fuelOut] at h
      exact absurd h (by simp)

/-! ### Properties of the branch-cell selection -/

/-- If the selection ends at the sentinel 100 the whole board is assigned
(the full scan necessarily ran and visited every cell). -/
theorem select_min100_complete (m : Model) {s : Board} (hs : SInv s) (gl : Bool)
    (h100 : (select m gl s).1 = 100) :
    ∀ r, r < 9 → ∀ c, c < 9 → s.bAt r c ≠ 0 := by
  intro r hr c hc
  by_contra hempty
  have hle : (select m gl s).1 ≤ 9 := by
    cases gl with
    | false =>
      have hsel : select m false s = fullScan m s (100, 0, 0) := by
        unfold select
        simp
      rw [hsel]
      exact fullScan_le9_of_empty m hs hr hc hempty _
    | true =>
      by_cases hgs : (greyScan m s).1 = 100
      · have hsel : select m true s = fullScan m s (greyScan m s) := by
          unfold select
          simp [hgs]
        rw [hsel]
        exact fullScan_le9_of_empty m hs hr hc hempty _
      · have hsel : select m true s = greyScan m s := by
          unfold select
          simp [hgs]
        rw [hsel] at h100
        exact absurd h100 hgs
  omega

/-- A cell of a grey line is in range (model well-formedness). -/
theorem grey_mem_inrange (m : Model) (hm : ModelWF m) {rc : Nat × Nat}
    (h : ∃ line ∈ m.greys, rc ∈ line) : rc.1 < 9 ∧ rc.2 < 9 := by
  obtain ⟨line, hline, hmem⟩ := h
  obtain ⟨gi, hgi, hlineq⟩ := List.mem_iff_getElem.1 hline
  obtain ⟨i, hi, hrceq⟩ := List.mem_iff_getElem.1 hmem
  have hgD : m.greys.getD gi [] = line := by
    rw [List.getD_eq_getElem _ _ hgi]
    exact hlineq
  have hi' : i < (m.greys.getD gi []).length := by rw [hgD]; exact hi
  have hcells := hm.greyCells gi hgi i hi'
  have hrc' : (m.greys.getD gi []).getD i (0, 0) = rc := by
    rw [hgD, List.getD_eq_getElem _ _ hi]
    exact hrceq
  rw [hrc'] at hcells
  exact ⟨hcells.1, hcells.2.1⟩

/-- A selection below the sentinel names an in-range cell. -/
theorem select_cell_inrange (m : Model) (hm : ModelWF m) {s : Board} (gl : Bool)
    (h : (select m gl s).1 ≠ 100) :
    (select m gl s).2.1 < 9 ∧ (select m gl s).2.2 < 9 := by
  cases gl with
  | false =>
    have hsel : select m false s = fullScan m s (100, 0, 0) := by
      unfold select
      simp
    rw [hsel] at h ⊢
    rcases fullScan_spec m s (100, 0, 0) with heq | ⟨h1, h2, _⟩
    · rw [heq] at h
      exact absurd rfl h
    · exact ⟨h1, h2⟩
  | true =>
    by_cases hgs : (greyScan m s).1 = 100
    · have hsel : select m true s = fullScan m s (greyScan m s) := by
        unfold select
        simp [hgs]
      rw [hsel] at h ⊢
      rcases fullScan_spec m s (greyScan m s) with heq | ⟨h1, h2, _⟩
      · rw [heq] at h
        exact absurd hgs h
      · exact ⟨h1, h2⟩
    · have hsel : select m true s = greyScan m s := by
        unfold select
        simp [hgs]
      rw [hsel]
      rcases greyScan_spec m s with heq | ⟨hmem, _, _⟩
      · rw [hsel, heq] at h
        exact absurd rfl h
      · exact grey_mem_inrange m hm hmem

theorem addNumber_ok_SInv (m : Model) (hm : ModelWF m)
    {fuel key row col : Nat} {s s' : Board}
    (hs : SInv s) (hrow : row < 9) (hcol : col < 9) (hk1 : 1 ≤ key) (hk9 : key ≤ 9)
    (hok : addNumber m fuel key row col s = .ok s') : SInv s' := by
  rcases addNumber_ok_effect m hm fuel key row col s s' hs hrow hcol hk1 hk9 hok with
    ⟨_, rfl⟩ | ⟨_, hsi, _⟩
  · exact hs
  · exact hsi

/-- Master lemma: any invariant preserved by successful `addNumber` calls
holds of the board whose grid `recurse` returns, and that board is fully
assigned. -/
theorem recurse_ok_master (m : Model) (hm : ModelWF m) (P : Board → Prop)
    (hP : ∀ fuel key row col s s', SInv s → row < 9 → col < 9 → 1 ≤ key →
      key ≤ 9 → P s → addNumber m fuel key row col s = .ok s' → P s') :
    ∀ (fuel : Nat) (gl : Bool) (s : Board) (grid : List (List Nat)),
      SInv s → P s → recurse m fuel gl s = .ok grid →
      ∃ sf : Board, grid = sf.b ∧ SInv sf ∧ P sf ∧
        ∀ r, r < 9 → ∀ c, c < 9 → sf.bAt r c ≠ 0 := by
  intro fuel
  induction fuel with
  | zero =>
    intro gl s grid _ _ h
    exact absurd h (by simp [recurse])
  | succ fuel ih =>
    intro gl s grid hs hP0 hok
    rw [recurse_succ] at hok
    by_cases hmin : (select m gl s).1 = 100
    · rw [if_pos hmin] at hok
      cases hok
      exact ⟨s, rfl, hs, hP0, select_min100_complete m hs gl hmin⟩
    · rw [if_neg hmin] at hok
      obtain ⟨k, s2, hk, haN, hrec⟩ := branchFold_ok _ _ _ _ _ _ _ _ hok
      obtain ⟨hr9, hc9⟩ := select_cell_inrange m hm gl hmin
      obtain ⟨hk1, hk9⟩ := hs.prange _ _ k hk
      exact ih (glNext m gl s) s2 grid
        (addNumber_ok_SInv m hm hs hr9 hc9 hk1 hk9 haN)
        (hP 82 k _ _ s s2 hs hr9 hc9 hk1 hk9 hP0 haN) hrec

/-! ### The mirror (grey-line) invariant -/

/-- `mirrorTarget` of the cell at index `i` of grey line `gi` is the cell at
the mirrored index. -/
theorem mirrorTarget_on_line (m : Model) (hm : ModelWF m) {gi i : Nat}
    (hgi : gi < m.greys.length) (hi : i < (m.greys.getD gi []).length) :
    mirrorTarget m ((m.greys.getD gi []).getD i (0, 0)).1
      ((m.greys.getD gi []).getD i (0, 0)).2 =
      (m.greys.getD gi []).getD ((m.greys.getD gi []).length - i - 1) (0, 0) := by
  have h := hm.greyCells gi hgi i hi
  rw [mirrorTarget_eq, h.2.2.1, h.2.2.2, Nat.add_sub_cancel]

/-- A cell determines its grey line and its index on it. -/
theorem grey_index_unique (m : Model) (hm : ModelWF m) {gi i gj j : Nat}
    (hgi : gi < m.greys.length) (hi : i < (m.greys.getD gi []).length)
    (hgj : gj < m.greys.length) (hj : j < (m.greys.getD gj []).length)
    (heq : (m.greys.getD gi []).getD i (0, 0) = (m.greys.getD gj []).getD j (0, 0)) :
    gi = gj ∧ i = j := by
  have h1 := hm.greyCells gi hgi i hi
  have h2 := hm.greyCells gj hgj j hj
  rw [heq] at h1
  constructor
  · have := h1.2.2.1.symm.trans h2.2.2.1
    omega
  · exact h1.2.2.2.symm.trans h2.2.2.2

/-- Mirror-pair equality for all assigned line cells selected by `T`. -/
def MirrorOn (m : Model) (s : Board) (T : Nat × Nat → Prop) : Prop :=
  ∀ gi, gi < m.greys.length → ∀ i, i < (m.greys.getD gi []).length →
    T ((m.greys.getD gi []).getD i (0, 0)) →
    s.bAt ((m.greys.getD gi []).getD i (0, 0)).1
      ((m.greys.getD gi []).getD i (0, 0)).2 ≠ 0 →
    s.bAt ((m.greys.getD gi []).getD
        ((m.greys.getD gi []).length - i - 1) (0, 0)).1
      ((m.greys.getD gi []).getD
        ((m.greys.getD gi []).length - i - 1) (0, 0)).2 =
    s.bAt ((m.greys.getD gi []).getD i (0, 0)).1
      ((m.greys.getD gi []).getD i (0, 0)).2

/-- The mirror invariant: every assigned grey-line cell agrees with its
mirrored counterpart. -/
def MirrorInv (m : Model) (s : Board) : Prop := MirrorOn m s (fun _ => True)

/-- Transfer of the mirror invariant across one assignment-shaped change:
the grid changed at most at `Z` and its mirror target, both now holding
`v`, and when `Z` is not grey only at `Z`. -/
theorem mirror_transfer (m : Model) (hm : ModelWF m) {s s' : Board}
    {Z : Nat × Nat} {v : Nat} (T : Nat × Nat → Prop)
    (hZ1 : Z.1 < 9) (hZ2 : Z.2 < 9)
    (hchange : ∀ r c, (r, c) ≠ Z → (r, c) ≠ mirrorTarget m Z.1 Z.2 →
      s'.bAt r c = s.bAt r c)
    (hZv : s'.bAt Z.1 Z.2 = v)
    (hcase : (getCell m.isGrey Z.1 Z.2 ≠ 0 ∧
        s'.bAt (mirrorTarget m Z.1 Z.2).1 (mirrorTarget m Z.1 Z.2).2 = v) ∨
      (getCell m.isGrey Z.1 Z.2 = 0 ∧
        ∀ r c, (r, c) ≠ Z → s'.bAt r c = s.bAt r c))
    (hold : ∀ gi, gi < m.greys.length → ∀ i, i < (m.greys.getD gi []).length →
      T ((m.greys.getD gi []).getD i (0, 0)) →
      (m.greys.getD gi []).getD i (0, 0) ≠ Z →
      s.bAt ((m.greys.getD gi []).getD i (0, 0)).1
        ((m.greys.getD gi []).getD i (0, 0)).2 ≠ 0 →
      s.bAt ((m.greys.getD gi []).getD
          ((m.greys.getD gi []).length - i - 1) (0, 0)).1
        ((m.greys.getD gi []).getD
          ((m.greys.getD gi []).length - i - 1) (0, 0)).2 =
      s.bAt ((m.greys.getD gi []).getD i (0, 0)).1
        ((m.greys.getD gi []).getD i (0, 0)).2) :
    MirrorOn m s' T := by
  intro gi hgi i hi hT hXne
  have hXcells := hm.greyCells gi hgi i hi
  have hYi : (m.greys.getD gi []).length - i - 1 < (m.greys.getD gi []).length := by
    omega
  have hYcells := hm.greyCells gi hgi _ hYi
  rcases hcase with ⟨hZg, hMv⟩ | ⟨hZg, hchange'⟩
  · -- `Z` is grey; name its line data and its mirror `M`
    obtain ⟨hg1, hg2, hg3⟩ := (hm.greyLookup Z.1 hZ1 Z.2 hZ2).resolve_left hZg
    have hZeq : (m.greys.getD (getCell m.isGrey Z.1 Z.2 - 1) []).getD
        (getCell m.greyIndexes Z.1 Z.2) (0, 0) = Z := hg3.trans Prod.mk.eta
    have hMdef : mirrorTarget m Z.1 Z.2 =
        (m.greys.getD (getCell m.isGrey Z.1 Z.2 - 1) []).getD
          ((m.greys.getD (getCell m.isGrey Z.1 Z.2 - 1) []).length -
            getCell m.greyIndexes Z.1 Z.2 - 1) (0, 0) := mirrorTarget_eq m Z.1 Z.2
    have hMi : (m.greys.getD (getCell m.isGrey Z.1 Z.2 - 1) []).length -
        getCell m.greyIndexes Z.1 Z.2 - 1 <
        (m.greys.getD (getCell m.isGrey Z.1 Z.2 - 1) []).length := by omega
    by_cases hXZ : (m.greys.getD gi []).getD i (0, 0) = Z
    · -- the cell is `Z` itself; its partner is `mirrorTarget Z`
      obtain ⟨hgg, hii⟩ := grey_index_unique m hm hgi hi hg1 hg2
        (hXZ.trans hZeq.symm)
      subst hgg; subst hii
      rw [← hMdef, hZeq, hMv, hZv]
    · by_cases hXM : (m.greys.getD gi []).getD i (0, 0) = mirrorTarget m Z.1 Z.2
      · -- the cell is the mirror of `Z`; its partner is `Z`
        obtain ⟨hgg, hii⟩ := grey_index_unique m hm hgi hi hg1 hMi
          (hXM.trans hMdef)
        subst hgg
        have hYidx : (m.greys.getD (getCell m.isGrey Z.1 Z.2 - 1) []).length -
            i - 1 = getCell m.greyIndexes Z.1 Z.2 := by omega
        rw [hYidx, hZeq, hXM, hMv, hZv]
      · -- neither endpoint of the change: the pair is untouched
        have hXfix : s'.bAt ((m.greys.getD gi []).getD i (0, 0)).1
            ((m.greys.getD gi []).getD i (0, 0)).2 =
            s.bAt ((m.greys.getD gi []).getD i (0, 0)).1
              ((m.greys.getD gi []).getD i (0, 0)).2 :=
          hchange _ _ (by rw [Prod.mk.eta]; exact hXZ) (by rw [Prod.mk.eta]; exact hXM)
        have hYZ : (m.greys.getD gi []).getD
            ((m.greys.getD gi []).length - i - 1) (0, 0) ≠ Z := by
          intro hYZ
          obtain ⟨hgg, hii⟩ := grey_index_unique m hm hgi hYi hg1 hg2
            (hYZ.trans hZeq.symm)
          subst hgg
          apply hXM
          rw [hMdef]
          have hidx : (m.greys.getD (getCell m.isGrey Z.1 Z.2 - 1) []).length -
              getCell m.greyIndexes Z.1 Z.2 - 1 = i := by omega
          rw [hidx]
        have hYM : (m.greys.getD gi []).getD
            ((m.greys.getD gi []).length - i - 1) (0, 0) ≠
            mirrorTarget m Z.1 Z.2 := by
          intro hYM
          obtain ⟨hgg, hii⟩ := grey_index_unique m hm hgi hYi hg1 hMi
            (hYM.trans hMdef)
          subst hgg
          apply hXZ
          have hidx : getCell m.greyIndexes Z.1 Z.2 = i := by omega
          rw [← hidx]
          exact hZeq
        have hYfix : s'.bAt ((m.greys.getD gi []).getD
            ((m.greys.getD gi []).length - i - 1) (0, 0)).1
            ((m.greys.getD gi []).getD
              ((m.greys.getD gi []).length - i - 1) (0, 0)).2 =
            s.bAt ((m.greys.getD gi []).getD
              ((m.greys.getD gi []).length - i - 1) (0, 0)).1
            ((m.greys.getD gi []).getD
              ((m.greys.getD gi []).length - i - 1) (0, 0)).2 :=
          hchange _ _ (by rw [Prod.mk.eta]; exact hYZ) (by rw [Prod.mk.eta]; exact hYM)
        rw [hXfix] at hXne ⊢
        rw [hYfix]
        exact hold gi hgi i hi hT hXZ hXne
  · -- `Z` is not grey, so no line cell is `Z`; the pair is untouched
    have hXZ : (m.greys.getD gi []).getD i (0, 0) ≠ Z := by
      intro hXZ
      have := hXcells.2.2.1
      rw [hXZ] at this
      omega
    have hYZ : (m.greys.getD gi []).getD
        ((m.greys.getD gi []).length - i - 1) (0, 0) ≠ Z := by
      intro hYZ
      have := hYcells.2.2.1
      rw [hYZ] at this
      omega
    have hXfix := hchange' ((m.greys.getD gi []).getD i (0, 0)).1
      ((m.greys.getD gi []).getD i (0, 0)).2 (by rw [Prod.mk.eta]; exact hXZ)
    have hYfix := hchange' ((m.greys.getD gi []).getD
        ((m.greys.getD gi []).length - i - 1) (0, 0)).1
      ((m.greys.getD gi []).getD
        ((m.greys.getD gi []).length - i - 1) (0, 0)).2
      (by rw [Prod.mk.eta]; exact hYZ)
    rw [hXfix] at hXne ⊢
    rw [hYfix]
    exact hold gi hgi i hi hT hXZ hXne

/-- Successful `addNumber` preserves the mirror invariant. -/
theorem MirrorInv_addNumber (m : Model) (hm : ModelWF m) {fuel key row col : Nat}
    {s s' : Board} (hs : SInv s) (hrow : row < 9) (hcol : col < 9)
    (hk1 : 1 ≤ key) (hk9 : key ≤ 9) (hmi : MirrorInv m s)
    (hok : addNumber m fuel key row col s = .ok s') : MirrorInv m s' := by
  rcases addNumber_ok_effect m hm fuel key row col s s' hs hrow hcol hk1 hk9 hok with
    ⟨_, rfl⟩ | ⟨hb0, hs', hkey, hchange, hcase⟩
  · exact hmi
  · exact mirror_transfer m hm (fun _ => True) hrow hcol hchange hkey
      (hcase.imp (fun h => ⟨h.1, h.2.1⟩) (fun h => ⟨h.1, h.2.1⟩))
      (fun gi hgi i hi _ _ hne => hmi gi hgi i hi trivial hne)

/-- Effect of one `updatePossibilities` step on an assigned cell: the cell
is cleared and re-added; afterwards it holds its old value, everything
except it and its mirror target is unchanged, and either the cell is grey
and its mirror target holds the same value, or it is not grey, nothing
else changed, and (if it is purple) the other assigned cells of its purple
line satisfied the renban window. -/
theorem updateStep_effect (m : Model) (hm : ModelWF m) {fuel i j : Nat}
    {s s' : Board} (hs : SInv s) (hi : i < 9) (hj : j < 9)
    (hb : s.bAt i j ≠ 0)
    (hok : addNumber m fuel (s.bAt i j) i j (s.setB i j 0) = .ok s') :
    SInv s' ∧ s'.bAt i j = s.bAt i j ∧
    (∀ r c, (r, c) ≠ (i, j) → (r, c) ≠ mirrorTarget m i j →
      s'.bAt r c = s.bAt r c) ∧
    ((getCell m.isGrey i j ≠ 0 ∧
        s'.bAt (mirrorTarget m i j).1 (mirrorTarget m i j).2 = s.bAt i j) ∨
      (getCell m.isGrey i j = 0 ∧
        (∀ r c, (r, c) ≠ (i, j) → s'.bAt r c = s.bAt r c) ∧
        (getCell m.isPurple i j ≠ 0 →
          ∀ rc ∈ purpleLine m i j, (rc.1 ≠ i ∨ rc.2 ≠ j) →
            s.bAt rc.1 rc.2 ≠ 0 →
            s.bAt rc.1 rc.2 ≠ s.bAt i j ∧
            s.bAt i j < s.bAt rc.1 rc.2 + (purpleLine m i j).length ∧
            s.bAt rc.1 rc.2 < s.bAt i j + (purpleLine m i j).length))) := by
  have hs0 : SInv (s.setB i j 0) := sinv_setB hs (by omega)
  have hb09 : s.bAt i j ≤ 9 := hs.bmax i hi j hj
  have hz : (s.setB i j 0).bAt i j = 0 := bAt_setB_self s 0 hs.bshape hi hj
  have hsetne : ∀ r c, (r, c) ≠ (i, j) →
      (s.setB i j 0).bAt r c = s.bAt r c := fun r c h =>
    bAt_setB_ne s 0 (prodne h)
  rcases addNumber_ok_effect m hm fuel (s.bAt i j) i j (s.setB i j 0) s' hs0
      hi hj (by omega) hb09 hok with
    ⟨heq, _⟩ | ⟨_, hs', hkey, hchange, hcase⟩
  · rw [hz] at heq; exact absurd heq.symm hb
  · refine ⟨hs', hkey, ?_, ?_⟩
    · intro r c h1 h2
      rw [hchange r c h1 h2, hsetne r c h1]
    · rcases hcase with ⟨hg, hM, _⟩ | ⟨hg, hoth, hpw⟩
      · exact Or.inl ⟨hg, hM⟩
      · refine Or.inr ⟨hg, ?_, ?_⟩
        · intro r c h1
          rw [hoth r c h1, hsetne r c h1]
        · intro hp rc hrc hne hz'
          have hfix : (s.setB i j 0).bAt rc.1 rc.2 = s.bAt rc.1 rc.2 :=
            bAt_setB_ne s 0 hne
          have := hpw hp rc hrc hne (by rw [hfix]; exact hz')
          rw [hfix] at this
          exact this

/-- The `updatePossibilities` sweep establishes the mirror invariant: after
re-adding every given, every processed assigned grey-line cell agrees with
its mirror. -/
theorem updateSeq_mirror (m : Model) (hm : ModelWF m) (fuel : Nat) :
    ∀ (todo : List (Nat × Nat)) (s s' : Board), SInv s →
      (∀ rc ∈ todo, rc.1 < 9 ∧ rc.2 < 9) →
      MirrorOn m s (fun X => X ∉ todo) →
      seqAll todo (fun ij s =>
        if s.bAt ij.1 ij.2 ≠ 0 then
          addNumber m fuel (s.bAt ij.1 ij.2) ij.1 ij.2 (s.setB ij.1 ij.2 0)
        else .ok s) s = .ok s' →
      SInv s' ∧ MirrorInv m s' := by
  intro todo
  induction todo with
  | nil =>
    intro s s' hs _ hmo hok
    simp only [seqAll] at hok
    cases hok
    exact ⟨hs, fun gi hgi i hi _ hne => hmo gi hgi i hi (by simp) hne⟩
  | cons Z rest ih =>
    intro s s' hs hbnd hmo hok
    simp only [seqAll] at hok
    have hZ9 := hbnd Z (List.mem_cons_self Z rest)
    by_cases hbz : s.bAt Z.1 Z.2 ≠ 0
    · rw [if_pos hbz] at hok
      cases hstep : addNumber m fuel (s.bAt Z.1 Z.2) Z.1 Z.2 (s.setB Z.1 Z.2 0) with
      | ok s1 =>
        rw [hstep] at hok
        obtain ⟨hs1, hkeep, hchange, hcase⟩ :=
          updateStep_effect m hm hs hZ9.1 hZ9.2 hbz hstep
        have hmo1 : MirrorOn m s1 (fun X => X ∉ rest) :=
          mirror_transfer m hm (fun X => X ∉ rest) hZ9.1 hZ9.2
            (fun r c h1 h2 => hchange r c (by rw [Prod.mk.eta]; exact h1) h2)
            hkeep
            (hcase.imp (fun h => ⟨h.1, h.2⟩)
              (fun h => ⟨h.1, fun r c h1 =>
                h.2.1 r c (by rw [Prod.mk.eta]; exact h1)⟩))
            (fun gi hgi i hi hT hne hz =>
              hmo gi hgi i hi (fun hmem => (List.mem_cons.mp hmem).elim hne hT) hz)
        exact ih s1 s' hs1 (fun rc h => hbnd rc (List.mem_cons_of_mem _ h)) hmo1 hok
      | contra b => rw [hstep] at hok; simp at hok
      | fuelOut => rw [hstep] at hok; simp at hok
    · rw [if_neg hbz] at hok
      push_neg at hbz
      refine ih s s' hs (fun rc h => hbnd rc (List.mem_cons_of_mem _ h)) ?_ hok
      intro gi hgi i hi hT hne
      by_cases hXZ : (m.greys.getD gi []).getD i (0, 0) = Z
      · exfalso
        rw [hXZ] at hne
        exact hne hbz
      · exact hmo gi hgi i hi
          (fun hmem => (List.mem_cons.mp hmem).elim hXZ hT) hne

/-- The freshly constructed board (full candidate sets everywhere)
satisfies the state invariant as soon as the given grid has the right
shape and in-range values. -/
theorem SInv_mkBoard (b0 : List (List Nat)) (hb : BShape (mkBoard b0))
    (hmax : ∀ r, r < 9 → ∀ c, c < 9 → (mkBoard b0).bAt r c ≤ 9) :
    SInv (mkBoard b0) := by
  have hp0 : ∀ r, r < 9 → ∀ c, c < 9 →
      (initP.getD r []).getD c [] = List.range' 1 9 := by decide
  have hps : ∀ r, r < 9 → (initP.getD r []).length = 9 := by decide
  refine SInv.ofBounded _ hb ⟨rfl, hps⟩ ?_
  intro r hr c hc
  have hpAt : (mkBoard b0).pAt r c = List.range' 1 9 := hp0 r hr c hc
  rw [hpAt]
  exact ⟨by decide, by decide, hmax r hr c hc⟩

/-- A successful `solve` is a successful construction pass followed by a
successful root `recurse`. -/
theorem solveEmb_ok_elim {m : Model} {b0 grid : List (List Nat)}
    (hok : solveEmb m b0 = .ok grid) :
    ∃ s, updatePossibilities m 82 (mkBoard b0) = .ok s ∧
      recurse m 100 true s = .ok grid := by
  unfold solveEmb at hok
  cases hup : updatePossibilities m 82 (mkBoard b0) with
  | ok s => rw [hup] at hok; exact ⟨s, rfl, hok⟩
  | contra b => rw [hup] at hok; simp at hok
  | fuelOut => rw [hup] at hok; simp at hok

/-- After a successful construction pass, the state invariant and the
mirror invariant hold. -/
theorem updatePossibilities_mirror (m : Model) (hm : ModelWF m) {fuel : Nat}
    {s0 s : Board} (hs : SInv s0)
    (hok : updatePossibilities m fuel s0 = .ok s) : SInv s ∧ MirrorInv m s := by
  refine updateSeq_mirror m hm fuel cellsList s0 s hs
    (fun rc h => by cases rc; exact mem_cellsList.mp h) ?_ hok
  intro gi hgi i hi hT hne
  exfalso
  have hc := hm.greyCells gi hgi i hi
  have hmem := mem_cellsList.mpr ⟨hc.1, hc.2.1⟩
  rw [Prod.mk.eta] at hmem
  exact hT hmem

/-! ### A fully assigned board is a fixed point of the whole pipeline -/

theorem removePossibility_noop {key row col : Nat} {s : Board}
    (h : s.bAt row col ≠ 0) : removePossibility key row col s = s := by
  unfold removePossibility
  rw [if_neg (by simp [h])]

theorem foldl_fix {α β : Type} (l : List α) (f : β → α → β) (s : β) :
    (∀ a ∈ l, f s a = s) → l.foldl f s = s := by
  induction l with
  | nil => intro _; rfl
  | cons a t ih =>
    intro h
    rw [List.foldl_cons, h a (List.mem_cons_self a t)]
    exact ih (fun b hb => h b (List.mem_cons_of_mem a hb))

theorem rcRemove_noop (key row col : Nat) {s : Board}
    (hrow : ∀ i, i < 9 → s.bAt row i ≠ 0)
    (hcol : ∀ i, i < 9 → s.bAt i col ≠ 0) :
    rcRemove key row col s = s := by
  unfold rcRemove
  refine foldl_fix _ _ _ ?_
  intro i hi
  rw [removePossibility_noop (hrow i (List.mem_range.1 hi)),
    removePossibility_noop (hcol i (List.mem_range.1 hi))]

theorem blockCells_inrange {row col : Nat} (hrow : row < 9) (hcol : col < 9)
    {ij : Nat × Nat} (h : ij ∈ blockCells row col) : ij.1 < 9 ∧ ij.2 < 9 := by
  simp only [blockCells, List.mem_flatMap, List.mem_map, List.mem_range] at h
  obtain ⟨i, hi, j, hj, rfl⟩ := h
  exact ⟨by dsimp only; omega, by dsimp only; omega⟩

theorem blockRemove_noop (key row col : Nat) {s : Board}
    (h : ∀ ij ∈ blockCells row col, s.bAt ij.1 ij.2 ≠ 0) :
    blockRemove key row col s = s := by
  unfold blockRemove
  refine foldl_fix _ _ _ ?_
  intro ij hij
  exact removePossibility_noop (h ij hij)

theorem afterRemoves_full (key row col : Nat) {s : Board} (hb : BShape s)
    (hrow : row < 9) (hcol : col < 9) (hk : key ≠ 0)
    (hfull : ∀ r, r < 9 → ∀ c, c < 9 → (r, c) ≠ (row, col) → s.bAt r c ≠ 0) :
    afterRemoves key row col s = s.setB row col key := by
  have hfull' : ∀ r, r < 9 → ∀ c, c < 9 → (s.setB row col key).bAt r c ≠ 0 := by
    intro r hr c hc
    by_cases hrc : (r, c) = (row, col)
    · obtain ⟨rfl, rfl⟩ := Prod.mk.injEq .. ▸ hrc
      rw [bAt_setB_self s key hb hr hc]
      exact hk
    · rw [bAt_setB_ne s key (prodne hrc)]
      exact hfull r hr c hc hrc
  unfold afterRemoves
  rw [rcRemove_noop key row col (fun i hi => hfull' row hrow i hi)
      (fun i hi => hfull' i hi col hcol),
    blockRemove_noop key row col
      (fun ij hij => hfull' ij.1 (blockCells_inrange hrow hcol hij).1
        ij.2 (blockCells_inrange hrow hcol hij).2)]

theorem purpleRemovals_noop (key : Nat) (line : List (Nat × Nat)) (rc : Nat × Nat)
    {s : Board} (h : s.bAt rc.1 rc.2 ≠ 0) : purpleRemovals key line rc s = s := by
  unfold purpleRemovals
  rw [foldl_fix (List.range (key + 1 - line.length))
      (fun s i => removePossibility i rc.1 rc.2 s) s
      (fun i _ => removePossibility_noop h),
    foldl_fix (List.range' (key + line.length) (9 - (key + line.length)))
      (fun s i => removePossibility i rc.1 rc.2 s) s
      (fun i _ => removePossibility_noop h)]

theorem seqAll_purpleStep_full (m : Model) (fuel key row col : Nat)
    (line : List (Nat × Nat)) :
    ∀ (l : List (Nat × Nat)) (s : Board), (∀ r c, (s.pAt r c).Nodup) →
      (∀ rc ∈ l, rc.1 < 9 ∧ rc.2 < 9) →
      (∀ r, r < 9 → ∀ c, c < 9 → s.bAt r c ≠ 0) →
      (∀ rc ∈ l, (rc.1 ≠ row ∨ rc.2 ≠ col) →
        ¬(s.bAt rc.1 rc.2 = key ∨ s.bAt rc.1 rc.2 + line.length ≤ key ∨
          key + line.length ≤ s.bAt rc.1 rc.2)) →
      seqAll l (purpleStep m fuel key row col line) s = .ok s := by
  intro l
  induction l with
  | nil => intro s _ _ _ _; rfl
  | cons rc l' ih =>
    intro s hnd hbnd hfull hw
    have hrc9 := hbnd rc (List.mem_cons_self rc l')
    have hstep : purpleStep m fuel key row col line rc s = .ok s := by
      rw [purpleStep_eq m fuel key row col line rc s hnd]
      by_cases h1 : s.bAt rc.1 rc.2 ≠ 0 ∧ (rc.1 ≠ row ∨ rc.2 ≠ col)
      · rw [if_pos h1, if_neg (hw rc (List.mem_cons_self rc l') h1.2)]
      · rw [if_neg h1, purpleRemovals_noop key line rc (hfull rc.1 hrc9.1 rc.2 hrc9.2)]
    show (match purpleStep m fuel key row col line rc s with
      | .ok s' => seqAll l' (purpleStep m fuel key row col line) s'
      | e => e) = .ok s
    rw [hstep]
    exact ih s hnd (fun x hx => hbnd x (List.mem_cons_of_mem rc hx)) hfull
      (fun x hx => hw x (List.mem_cons_of_mem rc hx))

theorem list_set_own {α : Type} (l : List α) (i : Nat) (hi : i < l.length) (d : α) :
    l.set i (l.getD i d) = l := by
  apply List.ext_getElem (by simp)
  intro n h1 h2
  rw [List.getElem_set]
  split
  · next h => subst h; exact List.getD_eq_getElem _ _ hi
  · rfl

theorem setCell_setCell (tbl : List (List Nat)) (r c a b : Nat)
    (hr : r < tbl.length) :
    setCell (setCell tbl r c a) r c b = setCell tbl r c b := by
  unfold setCell
  rw [getD_set_self hr, List.set_set, List.set_set]

theorem setCell_same (tbl : List (List Nat)) (r c : Nat) (hr : r < tbl.length)
    (hc : c < (tbl.getD r []).length) :
    setCell tbl r c (getCell tbl r c) = tbl := by
  unfold setCell getCell
  rw [list_set_own (tbl.getD r []) c hc 0]
  exact list_set_own tbl r hr []

theorem setB_setB (s : Board) (r c a b : Nat) (hr : r < s.b.length) :
    (s.setB r c a).setB r c b = s.setB r c b := by
  show Board.mk (setCell (setCell s.b r c a) r c b) s.p =
    Board.mk (setCell s.b r c b) s.p
  rw [setCell_setCell s.b r c a b hr]

theorem setB_same (s : Board) (r c : Nat) (hb : BShape s) (hr : r < 9)
    (hc : c < 9) : s.setB r c (s.bAt r c) = s := by
  show Board.mk (setCell s.b r c (getCell s.b r c)) s.p = s
  rw [setCell_same s.b r c (by rw [hb.1]; exact hr) (by rw [hb.2 r hr]; exact hc)]

/-- On a board where every other cell is assigned, `addNumber` only sets the
cell (all removal and check passes are no-ops), provided the mirror cell
already holds the same value (grey case) and the purple window checks pass
(purple case). -/
theorem addNumber_full (m : Model) (hm : ModelWF m) (fuel key row col : Nat)
    {s : Board} (hs : SInv s) (hrow : row < 9) (hcol : col < 9)
    (hb0 : s.bAt row col = 0) (hk : key ≠ 0)
    (hfull : ∀ r, r < 9 → ∀ c, c < 9 → (r, c) ≠ (row, col) → s.bAt r c ≠ 0)
    (hgrey : getCell m.isGrey row col ≠ 0 →
      (s.setB row col key).bAt (mirrorTarget m row col).1
        (mirrorTarget m row col).2 = key)
    (hpw : getCell m.isGrey row col = 0 → getCell m.isPurple row col ≠ 0 →
      ∀ rc ∈ purpleLine m row col, (rc.1 ≠ row ∨ rc.2 ≠ col) →
        ¬((s.setB row col key).bAt rc.1 rc.2 = key ∨
          (s.setB row col key).bAt rc.1 rc.2 +
            (purpleLine m row col).length ≤ key ∨
          key + (purpleLine m row col).length ≤
            (s.setB row col key).bAt rc.1 rc.2)) :
    addNumber m (fuel + 1) key row col s = .ok (s.setB row col key) := by
  have hfull' : ∀ r, r < 9 → ∀ c, c < 9 → (s.setB row col key).bAt r c ≠ 0 := by
    intro r hr c hc
    by_cases hrc : (r, c) = (row, col)
    · obtain ⟨rfl, rfl⟩ := Prod.mk.injEq .. ▸ hrc
      rw [bAt_setB_self s key hs.bshape hr hc]
      exact hk
    · rw [bAt_setB_ne s key (prodne hrc)]
      exact hfull r hr c hc hrc
  rw [addNumber_empty m fuel key row col s hb0 hs.pnodup,
    afterRemoves_full key row col hs.bshape hrow hcol hk hfull]
  by_cases hg : getCell m.isGrey row col ≠ 0
  · rw [if_pos hg]
    have hM := hgrey hg
    rw [addNumber_assigned m fuel key (mirrorTarget m row col).1
        (mirrorTarget m row col).2 (s.setB row col key) (by rw [hM]; exact hk),
      if_neg (by rw [hM]; simp)]
  · rw [if_neg hg]
    push_neg at hg
    by_cases hp : getCell m.isPurple row col ≠ 0
    · rw [if_pos hp]
      obtain ⟨hp1, _⟩ := (hm.purpleLookup row hrow col hcol).resolve_left hp
      have hcells := hm.purpleCells _ hp1
      exact seqAll_purpleStep_full m fuel key row col (purpleLine m row col)
        (purpleLine m row col) (s.setB row col key)
        (fun r c => hs.pnodup r c)
        (fun rc hrc => ⟨(hcells.2 rc hrc).1, (hcells.2 rc hrc).2.1⟩)
        hfull' (hpw hg hp)
    · rw [if_neg hp]

/-- On a fully assigned board whose assignments satisfy the mirror equality
and the purple windows, the construction sweep changes nothing. -/
theorem updateSeq_full (m : Model) (hm : ModelWF m) (fuel : Nat) {s : Board}
    (hs : SInv s) (hfull : ∀ r, r < 9 → ∀ c, c < 9 → s.bAt r c ≠ 0)
    (hmirror : ∀ r, r < 9 → ∀ c, c < 9 → getCell m.isGrey r c ≠ 0 →
      s.bAt (mirrorTarget m r c).1 (mirrorTarget m r c).2 = s.bAt r c)
    (hpw : ∀ r, r < 9 → ∀ c, c < 9 → getCell m.isGrey r c = 0 →
      getCell m.isPurple r c ≠ 0 →
      ∀ rc ∈ purpleLine m r c, (rc.1 ≠ r ∨ rc.2 ≠ c) →
        ¬(s.bAt rc.1 rc.2 = s.bAt r c ∨
          s.bAt rc.1 rc.2 + (purpleLine m r c).length ≤ s.bAt r c ∨
          s.bAt r c + (purpleLine m r c).length ≤ s.bAt rc.1 rc.2)) :
    ∀ todo : List (Nat × Nat), (∀ rc ∈ todo, rc.1 < 9 ∧ rc.2 < 9) →
      seqAll todo (fun ij t =>
        if t.bAt ij.1 ij.2 ≠ 0 then
          addNumber m (fuel + 1) (t.bAt ij.1 ij.2) ij.1 ij.2 (t.setB ij.1 ij.2 0)
        else .ok t) s = .ok s := by
  intro todo
  induction todo with
  | nil => intro _; rfl
  | cons Z rest ih =>
    intro hbnd
    have hZ9 := hbnd Z (List.mem_cons_self Z rest)
    have hbz : s.bAt Z.1 Z.2 ≠ 0 := hfull Z.1 hZ9.1 Z.2 hZ9.2
    have hcollapse : (s.setB Z.1 Z.2 0).setB Z.1 Z.2 (s.bAt Z.1 Z.2) = s := by
      rw [setB_setB s Z.1 Z.2 0 _ (by rw [hs.bshape.1]; exact hZ9.1),
        setB_same s Z.1 Z.2 hs.bshape hZ9.1 hZ9.2]
    have hstep : addNumber m (fuel + 1) (s.bAt Z.1 Z.2) Z.1 Z.2
        (s.setB Z.1 Z.2 0) = .ok s := by
      rw [addNumber_full m hm fuel (s.bAt Z.1 Z.2) Z.1 Z.2
          (sinv_setB hs (by omega)) hZ9.1 hZ9.2
          (bAt_setB_self s 0 hs.bshape hZ9.1 hZ9.2) hbz
          (fun r hr c hc hrc => by
            rw [bAt_setB_ne s 0 (prodne hrc)]
            exact hfull r hr c hc)
          (fun hg => by
            rw [hcollapse]
            exact hmirror Z.1 hZ9.1 Z.2 hZ9.2 hg)
          (fun hg hp rc hrc hne => by
            rw [hcollapse]
            exact hpw Z.1 hZ9.1 Z.2 hZ9.2 hg hp rc hrc hne),
        hcollapse]
    show (match (if s.bAt Z.1 Z.2 ≠ 0 then
        addNumber m (fuel + 1) (s.bAt Z.1 Z.2) Z.1 Z.2 (s.setB Z.1 Z.2 0)
      else .ok s) with
      | .ok t => seqAll rest (fun ij t =>
          if t.bAt ij.1 ij.2 ≠ 0 then
            addNumber m (fuel + 1) (t.bAt ij.1 ij.2) ij.1 ij.2
              (t.setB ij.1 ij.2 0)
          else .ok t) t
      | e => e) = .ok s
    rw [if_pos hbz, hstep]
    exact ih (fun rc h => hbnd rc (List.mem_cons_of_mem Z h))

/-- `updatePossibilities` is the identity on a fully assigned board whose
assignments satisfy the mirror equalities and the purple windows. -/
theorem updatePossibilities_full (m : Model) (hm : ModelWF m) (fuel : Nat)
    {s : Board} (hs : SInv s)
    (hfull : ∀ r, r < 9 → ∀ c, c < 9 → s.bAt r c ≠ 0)
    (hmirror : ∀ r, r < 9 → ∀ c, c < 9 → getCell m.isGrey r c ≠ 0 →
      s.bAt (mirrorTarget m r c).1 (mirrorTarget m r c).2 = s.bAt r c)
    (hpw : ∀ r, r < 9 → ∀ c, c < 9 → getCell m.isGrey r c = 0 →
      getCell m.isPurple r c ≠ 0 →
      ∀ rc ∈ purpleLine m r c, (rc.1 ≠ r ∨ rc.2 ≠ c) →
        ¬(s.bAt rc.1 rc.2 = s.bAt r c ∨
          s.bAt rc.1 rc.2 + (purpleLine m r c).length ≤ s.bAt r c ∨
          s.bAt r c + (purpleLine m r c).length ≤ s.bAt rc.1 rc.2)) :
    updatePossibilities m (fuel + 1) s = .ok s := by
  unfold updatePossibilities
  exact updateSeq_full m hm fuel hs hfull hmirror hpw cellsList
    (fun rc h => by cases rc; exact mem_cellsList.mp h)

/-- `recurse` returns the grid of a fully assigned board at once. -/
theorem recurse_full (m : Model) (hm : ModelWF m) (fuel : Nat) (gl : Bool)
    {s : Board} (hs : SInv s)
    (hfull : ∀ r, r < 9 → ∀ c, c < 9 → s.bAt r c ≠ 0) :
    recurse m (fuel + 1) gl s = .ok s.b := by
  rw [recurse_succ]
  have hgs : greyScan m s = (100, 0, 0) := by
    rcases greyScan_spec m s with h | ⟨hmem, hb, _⟩
    · exact h
    · exfalso
      have hr := grey_mem_inrange m hm hmem
      exact hfull _ hr.1 _ hr.2 hb
  have hsel : select m gl s = fullScan m s (100, 0, 0) := by
    cases gl with
    | false => unfold select; simp
    | true => unfold select; simp [hgs]
  have h100 : (select m gl s).1 = 100 := by
    rw [hsel]
    rcases fullScan_spec m s (100, 0, 0) with h | ⟨h1, h2, hb, _⟩
    · rw [h]
    · exact absurd hb (hfull _ h1 _ h2)
  rw [if_pos h100]

/-- `solve` on a fully assigned input satisfying the mirror and purple-window
conditions succeeds and returns the input unchanged. -/
theorem solveEmb_full (m : Model) (hm : ModelWF m) {b0 : List (List Nat)}
    (hb : BShape (mkBoard b0))
    (hmax : ∀ r, r < 9 → ∀ c, c < 9 → (mkBoard b0).bAt r c ≤ 9)
    (hfull : ∀ r, r < 9 → ∀ c, c < 9 → (mkBoard b0).bAt r c ≠ 0)
    (hmirror : ∀ r, r < 9 → ∀ c, c < 9 → getCell m.isGrey r c ≠ 0 →
      (mkBoard b0).bAt (mirrorTarget m r c).1 (mirrorTarget m r c).2 =
        (mkBoard b0).bAt r c)
    (hpw : ∀ r, r < 9 → ∀ c, c < 9 → getCell m.isGrey r c = 0 →
      getCell m.isPurple r c ≠ 0 →
      ∀ rc ∈ purpleLine m r c, (rc.1 ≠ r ∨ rc.2 ≠ c) →
        ¬((mkBoard b0).bAt rc.1 rc.2 = (mkBoard b0).bAt r c ∨
          (mkBoard b0).bAt rc.1 rc.2 + (purpleLine m r c).length ≤
            (mkBoard b0).bAt r c ∨
          (mkBoard b0).bAt r c + (purpleLine m r c).length ≤
            (mkBoard b0).bAt rc.1 rc.2)) :
    solveEmb m b0 = .ok b0 := by
  have hs : SInv (mkBoard b0) := SInv_mkBoard b0 hb hmax
  unfold solveEmb
  rw [show (82 : Nat) = 81 + 1 from rfl,
    updatePossibilities_full m hm 81 hs hfull hmirror hpw]
  show recurse m 100 true (mkBoard b0) = .ok b0
  rw [show (100 : Nat) = 99 + 1 from rfl]
  exact recurse_full m hm 99 true hs hfull

/-! ### C6: the mirror invariant holds of every returned grid -/

/-- **C6.** In every grid returned by `solve`, for every grey (mirror) line
of length `L` and every index `i < L`, the value at the line's index `i`
equals the value at index `L-1-i`: the mirror propagation of `addNumber`
(and the construction sweep re-adding the givens) keeps every mirrored
pair equal, and the returned grid is fully assigned, so the equality is
unconditional.  A center cell (`L` odd, `i = L-1-i`) satisfies it
trivially. -/
theorem c6_solved_grid_mirror (m : Model) (hm : ModelWF m)
    (b0 : List (List Nat)) (hb : BShape (mkBoard b0))
    (hmax : ∀ r, r < 9 → ∀ c, c < 9 → (mkBoard b0).bAt r c ≤ 9)
    {grid : List (List Nat)} (hok : solveEmb m b0 = .ok grid) :
    ∀ gi, gi < m.greys.length → ∀ i, i < (m.greys.getD gi []).length →
      getCell grid ((m.greys.getD gi []).getD i (0, 0)).1
        ((m.greys.getD gi []).getD i (0, 0)).2 =
      getCell grid ((m.greys.getD gi []).getD
          ((m.greys.getD gi []).length - i - 1) (0, 0)).1
        ((m.greys.getD gi []).getD
          ((m.greys.getD gi []).length - i - 1) (0, 0)).2 := by
  obtain ⟨s, hup, hrec⟩ := solveEmb_ok_elim hok
  obtain ⟨hs, hmi⟩ := updatePossibilities_mirror m hm (SInv_mkBoard b0 hb hmax) hup
  obtain ⟨sf, rfl, hsf, hmf, hfull⟩ := recurse_ok_master m hm (MirrorInv m)
    (fun fuel key row col t t' h1 h2 h3 h4 h5 h6 h7 =>
      MirrorInv_addNumber m hm h1 h2 h3 h4 h5 h6 h7) 100 true s grid hs hmi hrec
  intro gi hgi i hi
  have hc := hm.greyCells gi hgi i hi
  have hne : sf.bAt ((m.greys.getD gi []).getD i (0, 0)).1
      ((m.greys.getD gi []).getD i (0, 0)).2 ≠ 0 :=
    hfull _ hc.1 _ hc.2.1
  exact (hmf gi hgi i hi trivial hne).symm

/-- A complete valid grid used by several concrete instances: row `r` is
the cyclic shift of `1..9` by `3r + r/3`. -/
def gridC6 : List (List Nat) :=
  [[1, 2, 3, 4, 5, 6, 7, 8, 9],
   [4, 5, 6, 7, 8, 9, 1, 2, 3],
   [7, 8, 9, 1, 2, 3, 4, 5, 6],
   [2, 3, 4, 5, 6, 7, 8, 9, 1],
   [5, 6, 7, 8, 9, 1, 2, 3, 4],
   [8, 9, 1, 2, 3, 4, 5, 6, 7],
   [3, 4, 5, 6, 7, 8, 9, 1, 2],
   [6, 7, 8, 9, 1, 2, 3, 4, 5],
   [9, 1, 2, 3, 4, 5, 6, 7, 8]]

/-- Grey lookup table for the single grey line `[(0,0), (2,3)]` (both cells
hold value 1 in `gridC6`). -/
def isGreyC6 : List (List Nat) :=
  [[1, 0, 0, 0, 0, 0, 0, 0, 0],
   [0, 0, 0, 0, 0, 0, 0, 0, 0],
   [0, 0, 0, 1, 0, 0, 0, 0, 0],
   [0, 0, 0, 0, 0, 0, 0, 0, 0],
   [0, 0, 0, 0, 0, 0, 0, 0, 0],
   [0, 0, 0, 0, 0, 0, 0, 0, 0],
   [0, 0, 0, 0, 0, 0, 0, 0, 0],
   [0, 0, 0, 0, 0, 0, 0, 0, 0],
   [0, 0, 0, 0, 0, 0, 0, 0, 0]]

/-- Index table for the grey line `[(0,0), (2,3)]`. -/
def greyIdxC6 : List (List Nat) :=
  [[0, 0, 0, 0, 0, 0, 0, 0, 0],
   [0, 0, 0, 0, 0, 0, 0, 0, 0],
   [0, 0, 0, 1, 0, 0, 0, 0, 0],
   [0, 0, 0, 0, 0, 0, 0, 0, 0],
   [0, 0, 0, 0, 0, 0, 0, 0, 0],
   [0, 0, 0, 0, 0, 0, 0, 0, 0],
   [0, 0, 0, 0, 0, 0, 0, 0, 0],
   [0, 0, 0, 0, 0, 0, 0, 0, 0],
   [0, 0, 0, 0, 0, 0, 0, 0, 0]]

/-- A model with one grey line `[(0,0), (2,3)]` and no purple lines. -/
def mC6 : Model := ⟨isGreyC6, greyIdxC6, zeroTbl, [[(0, 0), (2, 3)]], []⟩

theorem mC6_wf : ModelWF mC6 :=
  ⟨by decide, by decide, by decide, by decide, by decide⟩

theorem getD_zero_list (c : Nat) : (List.replicate 9 (0 : Nat)).getD c 0 = 0 := by
  rcases Nat.lt_or_ge c 9 with hc | hc
  · rw [List.getD_eq_getElem _ _ (by simpa using hc), List.getElem_replicate]
  · exact List.getD_eq_default _ _ (by simpa using hc)

theorem getCell_zeroTbl (r c : Nat) : getCell zeroTbl r c = 0 := by
  have h1 : zeroTbl.getD r [] = List.replicate 9 0 ∨ zeroTbl.getD r [] = [] := by
    rcases Nat.lt_or_ge r 9 with hr | hr
    · left
      show (List.replicate 9 (List.replicate 9 0)).getD r [] = _
      rw [List.getD_eq_getElem _ _ (by simpa using hr), List.getElem_replicate]
    · right
      exact List.getD_eq_default _ _ (by simpa [zeroTbl] using hr)
  unfold getCell
  rcases h1 with h | h
  · rw [h]
    exact getD_zero_list c
  · rw [h]
    exact List.getD_nil

/-- `solve` accepts `gridC6` with the grey line of `mC6` and returns it. -/
theorem solveC6_eq : solveEmb mC6 gridC6 = .ok gridC6 :=
  solveEmb_full mC6 mC6_wf (by unfold BShape; decide) (by decide) (by decide)
    (by decide) (fun r _ c _ _ hp => absurd (getCell_zeroTbl r c) hp)

theorem c6_solved_grid_mirror_witness :
    solveEmb mC6 gridC6 = .ok gridC6 ∧
    (∀ gi, gi < mC6.greys.length → ∀ i, i < (mC6.greys.getD gi []).length →
      getCell gridC6 ((mC6.greys.getD gi []).getD i (0, 0)).1
        ((mC6.greys.getD gi []).getD i (0, 0)).2 =
      getCell gridC6 ((mC6.greys.getD gi []).getD
          ((mC6.greys.getD gi []).length - i - 1) (0, 0)).1
        ((mC6.greys.getD gi []).getD
          ((mC6.greys.getD gi []).length - i - 1) (0, 0)).2) :=
  ⟨solveC6_eq, c6_solved_grid_mirror mC6 mC6_wf gridC6 (by unfold BShape; decide)
    (by decide) solveC6_eq⟩

/-! ### C1 and C2: contradictory givens are accepted unchanged -/

theorem emptyModel_wf : ModelWF emptyModel :=
  ⟨by decide, by decide, by decide, by decide, by decide⟩

/-- With no lines, `solve` on any full, in-range, nonzero grid returns the
grid unchanged. -/
theorem solveEmb_full_empty {b0 : List (List Nat)} (hb : BShape (mkBoard b0))
    (hmax : ∀ r, r < 9 → ∀ c, c < 9 → (mkBoard b0).bAt r c ≤ 9)
    (hfull : ∀ r, r < 9 → ∀ c, c < 9 → (mkBoard b0).bAt r c ≠ 0) :
    solveEmb emptyModel b0 = .ok b0 :=
  solveEmb_full emptyModel emptyModel_wf hb hmax hfull
    (fun r _ c _ hg => absurd (getCell_zeroTbl r c) hg)
    (fun r _ c _ _ hp => absurd (getCell_zeroTbl r c) hp)

/-- `gridC6` with the given at `(0,1)` replaced by a second `1`: two clues
with the same value in row 0. -/
def dupGridC1 : List (List Nat) :=
  [[1, 1, 3, 4, 5, 6, 7, 8, 9],
   [4, 5, 6, 7, 8, 9, 1, 2, 3],
   [7, 8, 9, 1, 2, 3, 4, 5, 6],
   [2, 3, 4, 5, 6, 7, 8, 9, 1],
   [5, 6, 7, 8, 9, 1, 2, 3, 4],
   [8, 9, 1, 2, 3, 4, 5, 6, 7],
   [3, 4, 5, 6, 7, 8, 9, 1, 2],
   [6, 7, 8, 9, 1, 2, 3, 4, 5],
   [9, 1, 2, 3, 4, 5, 6, 7, 8]]

/-- `gridC6` with the given at `(4,1)` replaced by a second `5`: two clues
with the same value in row 4. -/
def dupGridC2 : List (List Nat) :=
  [[1, 2, 3, 4, 5, 6, 7, 8, 9],
   [4, 5, 6, 7, 8, 9, 1, 2, 3],
   [7, 8, 9, 1, 2, 3, 4, 5, 6],
   [2, 3, 4, 5, 6, 7, 8, 9, 1],
   [5, 5, 7, 8, 9, 1, 2, 3, 4],
   [8, 9, 1, 2, 3, 4, 5, 6, 7],
   [3, 4, 5, 6, 7, 8, 9, 1, 2],
   [6, 7, 8, 9, 1, 2, 3, 4, 5],
   [9, 1, 2, 3, 4, 5, 6, 7, 8]]

/-- The cells of row `r`. -/
def rowCells (r : Nat) : List (Nat × Nat) := (List.range 9).map fun c => (r, c)

/-- The cells of column `c`. -/
def colCells (c : Nat) : List (Nat × Nat) := (List.range 9).map fun r => (r, c)

/-- `v` appears exactly once among the cells of `group` in `grid` (the
specification's uniqueness requirement for one value and one group). -/
def UniqueInGroup (grid : List (List Nat)) (group : List (Nat × Nat))
    (v : Nat) : Prop :=
  (group.filter fun rc => getCell grid rc.1 rc.2 == v).length = 1

/-- The specification's uniqueness invariant for solved grids: every value
1–9 appears exactly once in every row, column, and 3×3 block. -/
def UniquenessInvariant (grid : List (List Nat)) : Prop :=
  ∀ v, 1 ≤ v → v ≤ 9 →
    (∀ r, r < 9 → UniqueInGroup grid (rowCells r) v) ∧
    (∀ c, c < 9 → UniqueInGroup grid (colCells c) v) ∧
    (∀ br, br < 3 → ∀ bc, bc < 3 →
      UniqueInGroup grid (blockCells (3 * br) (3 * bc)) v)

theorem solveC1_eq : solveEmb emptyModel dupGridC1 = .ok dupGridC1 :=
  solveEmb_full_empty (by unfold BShape; decide) (by decide) (by decide)

/-- **C1.** Refuted: `solve` can succeed and return a grid violating the
uniqueness invariant.  On the puzzle whose givens are the full grid
`dupGridC1` (value 1 given twice in row 0), the construction pass and the
root `recurse` both succeed — `addNumber` never validates already-assigned
cells against each other — and the returned grid has value 1 twice in
row 0. -/
theorem c1_solve_returns_nonunique_grid :
    solveEmb emptyModel dupGridC1 = .ok dupGridC1 ∧
    ¬ UniquenessInvariant dupGridC1 := by
  refine ⟨solveC1_eq, fun h => ?_⟩
  exact absurd ((h 1 (by decide) (by decide)).1 0 (by decide))
    (by unfold UniqueInGroup; decide)

theorem solveC2_eq : solveEmb emptyModel dupGridC2 = .ok dupGridC2 :=
  solveEmb_full_empty (by unfold BShape; decide) (by decide) (by decide)

/-- **C2.** Refuted: on an input whose givens contain two clues with the
same value 5 in row 4 at different columns, `solve` does not end with the
root-level Contradiction: it succeeds and returns the contradictory grid
unchanged (re-adding a given never compares it against other givens). -/
theorem c2_contradictory_givens_accepted :
    getCell dupGridC2 4 0 = 5 ∧ getCell dupGridC2 4 1 = 5 ∧
    solveEmb emptyModel dupGridC2 = .ok dupGridC2 ∧
    solveEmb emptyModel dupGridC2 ≠ .contra := by
  refine ⟨by decide, by decide, solveC2_eq, ?_⟩
  rw [solveC2_eq]
  simp

/-! ### C5: the purple (renban) invariant -/

/-- Pairwise renban facts for the assigned cells of every purple line,
restricted to cells selected by `T`: distinct values with pairwise
difference below the line length. -/
def PurpleOn (m : Model) (s : Board) (T : Nat × Nat → Prop) : Prop :=
  ∀ k, k < m.purples.length → ∀ x ∈ m.purples.getD k [],
    ∀ y ∈ m.purples.getD k [], T x → T y → x ≠ y →
    s.bAt x.1 x.2 ≠ 0 → s.bAt y.1 y.2 ≠ 0 →
    s.bAt x.1 x.2 ≠ s.bAt y.1 y.2 ∧
    s.bAt x.1 x.2 < s.bAt y.1 y.2 + (m.purples.getD k []).length ∧
    s.bAt y.1 y.2 < s.bAt x.1 x.2 + (m.purples.getD k []).length

/-- The purple invariant: every two assigned cells of a purple line hold
distinct values whose difference is below the line length. -/
def PurpleInv (m : Model) (s : Board) : Prop := PurpleOn m s (fun _ => True)

/-- The mirror target of a grey cell is an in-range grey cell. -/
theorem mirror_grey_facts (m : Model) (hm : ModelWF m) {row col : Nat}
    (hrow : row < 9) (hcol : col < 9) (hg : getCell m.isGrey row col ≠ 0) :
    (mirrorTarget m row col).1 < 9 ∧ (mirrorTarget m row col).2 < 9 ∧
    getCell m.isGrey (mirrorTarget m row col).1 (mirrorTarget m row col).2 ≠ 0 := by
  obtain ⟨hg1, hg2, _⟩ := (hm.greyLookup row hrow col hcol).resolve_left hg
  have hMi : (m.greys.getD (getCell m.isGrey row col - 1) []).length -
      getCell m.greyIndexes row col - 1 <
      (m.greys.getD (getCell m.isGrey row col - 1) []).length := by omega
  have hMcells := hm.greyCells _ hg1 _ hMi
  refine ⟨?_, ?_, ?_⟩
  · rw [mirrorTarget_eq]; exact hMcells.1
  · rw [mirrorTarget_eq]; exact hMcells.2.1
  · rw [mirrorTarget_eq, hMcells.2.2.1]; omega

/-- Transfer of the purple invariant across one assignment-shaped change at
`(row, col)`: if the cell is grey only it and its (grey, hence non-purple)
mirror changed; otherwise only the cell changed and the other assigned
cells of its purple line carry window certificates against the new value. -/
theorem purple_transfer (m : Model) (hm : ModelWF m) {s s' : Board}
    {row col key : Nat} (T : Nat × Nat → Prop)
    (hrow : row < 9) (hcol : col < 9)
    (hkZ : s'.bAt row col = key)
    (hcase :
      (getCell m.isGrey row col ≠ 0 ∧
        (∀ r c, (r, c) ≠ (row, col) → (r, c) ≠ mirrorTarget m row col →
          s'.bAt r c = s.bAt r c)) ∨
      (getCell m.isGrey row col = 0 ∧
        (∀ r c, (r, c) ≠ (row, col) → s'.bAt r c = s.bAt r c) ∧
        (getCell m.isPurple row col ≠ 0 →
          ∀ rc ∈ purpleLine m row col, (rc.1 ≠ row ∨ rc.2 ≠ col) →
            s.bAt rc.1 rc.2 ≠ 0 →
            s.bAt rc.1 rc.2 ≠ key ∧
            key < s.bAt rc.1 rc.2 + (purpleLine m row col).length ∧
            s.bAt rc.1 rc.2 < key + (purpleLine m row col).length)))
    (hold : ∀ k, k < m.purples.length → ∀ x ∈ m.purples.getD k [],
      ∀ y ∈ m.purples.getD k [], T x → T y →
      x ≠ (row, col) → y ≠ (row, col) → x ≠ y →
      s.bAt x.1 x.2 ≠ 0 → s.bAt y.1 y.2 ≠ 0 →
      s.bAt x.1 x.2 ≠ s.bAt y.1 y.2 ∧
      s.bAt x.1 x.2 < s.bAt y.1 y.2 + (m.purples.getD k []).length ∧
      s.bAt y.1 y.2 < s.bAt x.1 x.2 + (m.purples.getD k []).length) :
    PurpleOn m s' T := by
  intro k hk x hx y hy hTx hTy hxy hxne hyne
  obtain ⟨x1, x2⟩ := x
  obtain ⟨y1, y2⟩ := y
  dsimp only at hxne hyne ⊢
  have hpx3 : getCell m.isPurple x1 x2 = k + 1 :=
    ((hm.purpleCells k hk).2 (x1, x2) hx).2.2
  have hpy3 : getCell m.isPurple y1 y2 = k + 1 :=
    ((hm.purpleCells k hk).2 (y1, y2) hy).2.2
  rcases hcase with ⟨hg, hchange⟩ | ⟨hg, hoth, hcert⟩
  · -- grey case: the two changed cells are grey, hence not on a purple line
    have hZp : getCell m.isPurple row col = 0 :=
      (hm.exclusive row hrow col hcol).resolve_left hg
    have hMf := mirror_grey_facts m hm hrow hcol hg
    have hMp : getCell m.isPurple (mirrorTarget m row col).1
        (mirrorTarget m row col).2 = 0 :=
      (hm.exclusive _ hMf.1 _ hMf.2.1).resolve_left hMf.2.2
    have hxZ : (x1, x2) ≠ (row, col) := by
      intro heq
      have h1 : x1 = row := congrArg Prod.fst heq
      have h2 : x2 = col := congrArg Prod.snd heq
      rw [h1, h2, hZp] at hpx3
      omega
    have hxM : (x1, x2) ≠ mirrorTarget m row col := by
      intro heq
      have h1 : x1 = (mirrorTarget m row col).1 := congrArg Prod.fst heq
      have h2 : x2 = (mirrorTarget m row col).2 := congrArg Prod.snd heq
      rw [h1, h2, hMp] at hpx3
      omega
    have hyZ : (y1, y2) ≠ (row, col) := by
      intro heq
      have h1 : y1 = row := congrArg Prod.fst heq
      have h2 : y2 = col := congrArg Prod.snd heq
      rw [h1, h2, hZp] at hpy3
      omega
    have hyM : (y1, y2) ≠ mirrorTarget m row col := by
      intro heq
      have h1 : y1 = (mirrorTarget m row col).1 := congrArg Prod.fst heq
      have h2 : y2 = (mirrorTarget m row col).2 := congrArg Prod.snd heq
      rw [h1, h2, hMp] at hpy3
      omega
    have hx' : s'.bAt x1 x2 = s.bAt x1 x2 := hchange x1 x2 hxZ hxM
    have hy' : s'.bAt y1 y2 = s.bAt y1 y2 := hchange y1 y2 hyZ hyM
    rw [hx'] at hxne ⊢
    rw [hy'] at hyne ⊢
    exact hold k hk (x1, x2) hx (y1, y2) hy hTx hTy hxZ hyZ hxy hxne hyne
  · -- the assigned cell is not grey
    by_cases hxZ : (x1, x2) = (row, col)
    · -- `x` is the assigned cell
      have h1 : x1 = row := congrArg Prod.fst hxZ
      have h2 : x2 = col := congrArg Prod.snd hxZ
      subst h1; subst h2
      have hyZ : (y1, y2) ≠ (x1, x2) := fun h => hxy h.symm
      have hy' : s'.bAt y1 y2 = s.bAt y1 y2 := hoth y1 y2 hyZ
      have hline : purpleLine m x1 x2 = m.purples.getD k [] := by
        unfold purpleLine
        rw [hpx3, Nat.add_sub_cancel]
      have hy0 : s.bAt y1 y2 ≠ 0 := by rw [← hy']; exact hyne
      have cert : s.bAt y1 y2 ≠ key ∧
          key < s.bAt y1 y2 + (purpleLine m x1 x2).length ∧
          s.bAt y1 y2 < key + (purpleLine m x1 x2).length :=
        hcert (by rw [hpx3]; omega) (y1, y2) (by rw [hline]; exact hy)
          (prodne hyZ) hy0
      rw [hline] at cert
      rw [hkZ, hy']
      exact ⟨Ne.symm cert.1, cert.2.1, cert.2.2⟩
    · by_cases hyZ : (y1, y2) = (row, col)
      · -- `y` is the assigned cell
        have h1 : y1 = row := congrArg Prod.fst hyZ
        have h2 : y2 = col := congrArg Prod.snd hyZ
        subst h1; subst h2
        have hx' : s'.bAt x1 x2 = s.bAt x1 x2 := hoth x1 x2 hxZ
        have hline : purpleLine m y1 y2 = m.purples.getD k [] := by
          unfold purpleLine
          rw [hpy3, Nat.add_sub_cancel]
        have hx0 : s.bAt x1 x2 ≠ 0 := by rw [← hx']; exact hxne
        have cert : s.bAt x1 x2 ≠ key ∧
            key < s.bAt x1 x2 + (purpleLine m y1 y2).length ∧
            s.bAt x1 x2 < key + (purpleLine m y1 y2).length :=
          hcert (by rw [hpy3]; omega) (x1, x2) (by rw [hline]; exact hx)
            (prodne hxZ) hx0
        rw [hline] at cert
        rw [hkZ, hx']
        exact ⟨cert.1, cert.2.2, cert.2.1⟩
      · have hx' : s'.bAt x1 x2 = s.bAt x1 x2 := hoth x1 x2 hxZ
        have hy' : s'.bAt y1 y2 = s.bAt y1 y2 := hoth y1 y2 hyZ
        rw [hx'] at hxne ⊢
        rw [hy'] at hyne ⊢
        exact hold k hk (x1, x2) hx (y1, y2) hy hTx hTy hxZ hyZ hxy hxne hyne

/-- Successful `addNumber` preserves the purple invariant. -/
theorem PurpleInv_addNumber (m : Model) (hm : ModelWF m)
    {fuel key row col : Nat} {s s' : Board} (hs : SInv s)
    (hrow : row < 9) (hcol : col < 9) (hk1 : 1 ≤ key) (hk9 : key ≤ 9)
    (hpi : PurpleInv m s)
    (hok : addNumber m fuel key row col s = .ok s') : PurpleInv m s' := by
  rcases addNumber_ok_effect m hm fuel key row col s s' hs hrow hcol hk1 hk9 hok with
    ⟨_, rfl⟩ | ⟨hb0, hs', hkey, hchange, hcase⟩
  · exact hpi
  · exact purple_transfer m hm (fun _ => True) hrow hcol hkey
      (hcase.imp (fun h => ⟨h.1, hchange⟩) (fun h => h))
      (fun k hk x hx y hy _ _ _ _ hxy hx0 hy0 =>
        hpi k hk x hx y hy trivial trivial hxy hx0 hy0)

/-- The `updatePossibilities` sweep establishes the purple invariant. -/
theorem updateSeq_purple (m : Model) (hm : ModelWF m) (fuel : Nat) :
    ∀ (todo : List (Nat × Nat)) (s s' : Board), SInv s →
      (∀ rc ∈ todo, rc.1 < 9 ∧ rc.2 < 9) →
      PurpleOn m s (fun X => X ∉ todo) →
      seqAll todo (fun ij s =>
        if s.bAt ij.1 ij.2 ≠ 0 then
          addNumber m fuel (s.bAt ij.1 ij.2) ij.1 ij.2 (s.setB ij.1 ij.2 0)
        else .ok s) s = .ok s' →
      SInv s' ∧ PurpleInv m s' := by
  intro todo
  induction todo with
  | nil =>
    intro s s' hs _ hpo hok
    simp only [seqAll] at hok
    cases hok
    exact ⟨hs, fun k hk x hx y hy _ _ hxy hx0 hy0 =>
      hpo k hk x hx y hy (by simp) (by simp) hxy hx0 hy0⟩
  | cons Z rest ih =>
    intro s s' hs hbnd hpo hok
    simp only [seqAll] at hok
    have hZ9 := hbnd Z (List.mem_cons_self Z rest)
    by_cases hbz : s.bAt Z.1 Z.2 ≠ 0
    · rw [if_pos hbz] at hok
      cases hstep : addNumber m fuel (s.bAt Z.1 Z.2) Z.1 Z.2 (s.setB Z.1 Z.2 0) with
      | ok s1 =>
        rw [hstep] at hok
        obtain ⟨hs1, hkeep, hchange, hcase⟩ :=
          updateStep_effect m hm hs hZ9.1 hZ9.2 hbz hstep
        have hpo1 : PurpleOn m s1 (fun X => X ∉ rest) :=
          purple_transfer m hm (fun X => X ∉ rest) hZ9.1 hZ9.2 hkeep
            (hcase.imp (fun h => ⟨h.1, hchange⟩) (fun h => h))
            (fun k hk x hx y hy hTx hTy hxZ hyZ hxy hx0 hy0 =>
              hpo k hk x hx y hy
                (fun hmem => (List.mem_cons.mp hmem).elim
                  (fun h => hxZ (h.trans Prod.mk.eta.symm)) hTx)
                (fun hmem => (List.mem_cons.mp hmem).elim
                  (fun h => hyZ (h.trans Prod.mk.eta.symm)) hTy)
                hxy hx0 hy0)
        exact ih s1 s' hs1 (fun rc h => hbnd rc (List.mem_cons_of_mem Z h)) hpo1 hok
      | contra b => rw [hstep] at hok; simp at hok
      | fuelOut => rw [hstep] at hok; simp at hok
    · rw [if_neg hbz] at hok
      push_neg at hbz
      refine ih s s' hs (fun rc h => hbnd rc (List.mem_cons_of_mem Z h)) ?_ hok
      intro k hk x hx y hy hTx hTy hxy hx0 hy0
      by_cases hxZ : x = Z
      · exfalso
        rw [hxZ] at hx0
        exact hx0 hbz
      · by_cases hyZ : y = Z
        · exfalso
          rw [hyZ] at hy0
          exact hy0 hbz
        · exact hpo k hk x hx y hy
            (fun hmem => (List.mem_cons.mp hmem).elim hxZ hTx)
            (fun hmem => (List.mem_cons.mp hmem).elim hyZ hTy)
            hxy hx0 hy0

/-- After a successful construction pass, the purple invariant holds. -/
theorem updatePossibilities_purple (m : Model) (hm : ModelWF m) {fuel : Nat}
    {s0 s : Board} (hs : SInv s0)
    (hok : updatePossibilities m fuel s0 = .ok s) : SInv s ∧ PurpleInv m s := by
  refine updateSeq_purple m hm fuel cellsList s0 s hs
    (fun rc h => by cases rc; exact mem_cellsList.mp h) ?_ hok
  intro k hk x hx y hy hTx hTy hxy hx0 hy0
  exfalso
  have hc := (hm.purpleCells k hk).2 x hx
  have hmem := mem_cellsList.mpr ⟨hc.1, hc.2.1⟩
  rw [Prod.mk.eta] at hmem
  exact hTx hmem

/-- `L` distinct naturals with pairwise differences below `L` are exactly
an interval of length `L`. -/
theorem consecutive_of_pairwise (L : Nat) (vals : List Nat)
    (hlen : vals.length = L) (hnd : vals.Nodup)
    (hpair : ∀ x ∈ vals, ∀ y ∈ vals, x ≠ y → x < y + L ∧ y < x + L) :
    ∃ m0, ∀ v, v ∈ vals ↔ m0 ≤ v ∧ v < m0 + L := by
  cases L with
  | zero =>
    refine ⟨0, fun v => ⟨fun hv => ?_, by omega⟩⟩
    rw [List.length_eq_zero.mp hlen] at hv
    exact absurd hv (List.not_mem_nil v)
  | succ L' =>
    have hne : vals ≠ [] := by
      intro h
      rw [h] at hlen
      simp at hlen
    obtain ⟨a, ha⟩ := List.exists_mem_of_ne_nil vals hne
    have hSne : vals.toFinset.Nonempty := ⟨a, List.mem_toFinset.mpr ha⟩
    set m0 := vals.toFinset.min' hSne with hm0
    have hm0mem : m0 ∈ vals := List.mem_toFinset.mp (vals.toFinset.min'_mem hSne)
    have hmin : ∀ v ∈ vals, m0 ≤ v := fun v hv =>
      vals.toFinset.min'_le v (List.mem_toFinset.mpr hv)
    have hub : ∀ v ∈ vals, v < m0 + (L' + 1) := by
      intro v hv
      by_cases hvm : v = m0
      · omega
      · exact (hpair v hv m0 hm0mem hvm).1
    have hsub : vals.toFinset ⊆ Finset.Icc m0 (m0 + L') := by
      intro v hv
      have hv' := List.mem_toFinset.mp hv
      exact Finset.mem_Icc.mpr ⟨hmin v hv', by have := hub v hv'; omega⟩
    have hcard : vals.toFinset.card = L' + 1 := by
      rw [List.toFinset_card_of_nodup hnd, hlen]
    have hSeq : vals.toFinset = Finset.Icc m0 (m0 + L') :=
      Finset.eq_of_subset_of_card_le hsub
        (by rw [hcard, Nat.card_Icc]; omega)
    refine ⟨m0, fun v => ?_⟩
    rw [← List.mem_toFinset, hSeq, Finset.mem_Icc]
    omega

/-- **C5.** In every grid returned by `solve`, the values on each purple
(range) line of length `L` are pairwise distinct and form a set of `L`
consecutive integers `{m0, …, m0+L-1}`: `addNumber`'s purple pass raises
on a same/too-far value at any other assigned line cell, the construction
sweep enforces this between the givens, the returned grid is fully
assigned, and `L` distinct values with pairwise differences below `L`
are necessarily consecutive. -/
theorem c5_purple_lines_consecutive (m : Model) (hm : ModelWF m)
    (b0 : List (List Nat)) (hb : BShape (mkBoard b0))
    (hmax : ∀ r, r < 9 → ∀ c, c < 9 → (mkBoard b0).bAt r c ≤ 9)
    {grid : List (List Nat)} (hok : solveEmb m b0 = .ok grid) :
    ∀ k, k < m.purples.length →
      ((m.purples.getD k []).map fun rc => getCell grid rc.1 rc.2).Nodup ∧
      ∃ m0, ∀ v,
        (v ∈ (m.purples.getD k []).map fun rc => getCell grid rc.1 rc.2) ↔
        (m0 ≤ v ∧ v < m0 + (m.purples.getD k []).length) := by
  obtain ⟨s, hup, hrec⟩ := solveEmb_ok_elim hok
  obtain ⟨hs, hpi⟩ := updatePossibilities_purple m hm (SInv_mkBoard b0 hb hmax) hup
  obtain ⟨sf, rfl, hsf, hpf, hfull⟩ := recurse_ok_master m hm (PurpleInv m)
    (fun fuel key row col t t' h1 h2 h3 h4 h5 h6 h7 =>
      PurpleInv_addNumber m hm h1 h2 h3 h4 h5 h6 h7) 100 true s grid hs hpi hrec
  intro k hk
  have hcells := hm.purpleCells k hk
  have hassigned : ∀ rc ∈ m.purples.getD k [], sf.bAt rc.1 rc.2 ≠ 0 := fun rc hrc =>
    hfull _ (hcells.2 rc hrc).1 _ (hcells.2 rc hrc).2.1
  have hpair : ∀ x ∈ m.purples.getD k [], ∀ y ∈ m.purples.getD k [], x ≠ y →
      sf.bAt x.1 x.2 ≠ sf.bAt y.1 y.2 ∧
      sf.bAt x.1 x.2 < sf.bAt y.1 y.2 + (m.purples.getD k []).length ∧
      sf.bAt y.1 y.2 < sf.bAt x.1 x.2 + (m.purples.getD k []).length :=
    fun x hx y hy hxy =>
      hpf k hk x hx y hy trivial trivial hxy (hassigned x hx) (hassigned y hy)
  have hnd : ((m.purples.getD k []).map fun rc => getCell sf.b rc.1 rc.2).Nodup := by
    refine List.Nodup.map_on ?_ hcells.1
    intro x hx y hy hfeq
    by_contra hne
    exact (hpair x hx y hy hne).1 hfeq
  refine ⟨hnd, ?_⟩
  refine consecutive_of_pairwise (m.purples.getD k []).length _
    (by rw [List.length_map]) hnd ?_
  intro u hu w hw huw
  obtain ⟨x, hx, rfl⟩ := List.mem_map.mp hu
  obtain ⟨y, hy, rfl⟩ := List.mem_map.mp hw
  have hxy : x ≠ y := fun h => huw (by rw [h])
  exact ⟨(hpair x hx y hy hxy).2.1, (hpair x hx y hy hxy).2.2⟩

/-- Purple lookup table for the single purple line `[(0,3), (0,4)]` (values
4 and 5 in `gridC6`). -/
def isPurpleC5 : List (List Nat) :=
  [[0, 0, 0, 1, 1, 0, 0, 0, 0],
   [0, 0, 0, 0, 0, 0, 0, 0, 0],
   [0, 0, 0, 0, 0, 0, 0, 0, 0],
   [0, 0, 0, 0, 0, 0, 0, 0, 0],
   [0, 0, 0, 0, 0, 0, 0, 0, 0],
   [0, 0, 0, 0, 0, 0, 0, 0, 0],
   [0, 0, 0, 0, 0, 0, 0, 0, 0],
   [0, 0, 0, 0, 0, 0, 0, 0, 0],
   [0, 0, 0, 0, 0, 0, 0, 0, 0]]

/-- A model with one purple line `[(0,3), (0,4)]` and no grey lines. -/
def mC5 : Model := ⟨zeroTbl, zeroTbl, isPurpleC5, [], [[(0, 3), (0, 4)]]⟩

theorem mC5_wf : ModelWF mC5 :=
  ⟨by decide, by decide, by decide, by decide, by decide⟩

/-- Bridge from a decidable conjunction form to the purple-window
hypothesis shape of `solveEmb_full`. -/
theorem pw_of_conj (m : Model) (b0 : List (List Nat))
    (h : ∀ r, r < 9 → ∀ c, c < 9 →
      (getCell m.isGrey r c = 0 ∧ getCell m.isPurple r c ≠ 0) →
      ∀ rc ∈ purpleLine m r c, (rc.1 = r ∧ rc.2 = c) ∨
        ¬((mkBoard b0).bAt rc.1 rc.2 = (mkBoard b0).bAt r c ∨
          (mkBoard b0).bAt rc.1 rc.2 + (purpleLine m r c).length ≤
            (mkBoard b0).bAt r c ∨
          (mkBoard b0).bAt r c + (purpleLine m r c).length ≤
            (mkBoard b0).bAt rc.1 rc.2)) :
    ∀ r, r < 9 → ∀ c, c < 9 → getCell m.isGrey r c = 0 →
      getCell m.isPurple r c ≠ 0 →
      ∀ rc ∈ purpleLine m r c, (rc.1 ≠ r ∨ rc.2 ≠ c) →
        ¬((mkBoard b0).bAt rc.1 rc.2 = (mkBoard b0).bAt r c ∨
          (mkBoard b0).bAt rc.1 rc.2 + (purpleLine m r c).length ≤
            (mkBoard b0).bAt r c ∨
          (mkBoard b0).bAt r c + (purpleLine m r c).length ≤
            (mkBoard b0).bAt rc.1 rc.2) := by
  intro r hr c hc hg hp rc hrc hne
  rcases h r hr c hc ⟨hg, hp⟩ rc hrc with heq | hng
  · rcases hne with h1 | h1
    · exact absurd heq.1 h1
    · exact absurd heq.2 h1
  · exact hng

/-- `solve` accepts `gridC6` with the purple line of `mC5` and returns it. -/
theorem solveC5_eq : solveEmb mC5 gridC6 = .ok gridC6 :=
  solveEmb_full mC5 mC5_wf (by unfold BShape; decide) (by decide) (by decide)
    (fun r _ c _ hg => absurd (getCell_zeroTbl r c) hg)
    (pw_of_conj mC5 gridC6 (by decide))

theorem c5_purple_lines_consecutive_witness :
    solveEmb mC5 gridC6 = .ok gridC6 ∧
    (∀ k, k < mC5.purples.length →
      ((mC5.purples.getD k []).map fun rc => getCell gridC6 rc.1 rc.2).Nodup ∧
      ∃ m0, ∀ v,
        (v ∈ (mC5.purples.getD k []).map fun rc => getCell gridC6 rc.1 rc.2) ↔
        (m0 ≤ v ∧ v < m0 + (mC5.purples.getD k []).length)) :=
  ⟨solveC5_eq, c5_purple_lines_consecutive mC5 mC5_wf gridC6
    (by unfold BShape; decide) (by decide) solveC5_eq⟩

/-! ### C8: branch-cell selection -/

/-- The grey cells in the scan order of `recurse`
(`for i in self.greys: for r,c in i`). -/
def greyFlat (m : Model) : List (Nat × Nat) := m.greys.flatMap (fun l => l)

theorem foldl_flatMap {α β γ : Type} (h : γ → List α) (f : β → α → β) :
    ∀ (L : List γ) (a : β),
      L.foldl (fun acc x => (h x).foldl f acc) a = (L.flatMap h).foldl f a := by
  intro L
  induction L with
  | nil => intro a; rfl
  | cons x t ih =>
    intro a
    show t.foldl _ ((h x).foldl f a) = _
    rw [List.flatMap_cons, List.foldl_append]
    exact ih ((h x).foldl f a)

theorem greyScan_eq_flat (m : Model) (s : Board) :
    greyScan m s = (greyFlat m).foldl (fun acc rc =>
      if s.bAt rc.1 rc.2 = 0 ∧ (s.pAt rc.1 rc.2).length < acc.1 then
        ((s.pAt rc.1 rc.2).length, rc.1, rc.2)
      else acc) (100, 0, 0) :=
  foldl_flatMap (fun l => l) _ m.greys (100, 0, 0)

theorem fullScan_eq_cells (m : Model) (s : Board) (acc0 : Nat × Nat × Nat) :
    fullScan m s acc0 = cellsList.foldl (fun acc rc =>
      if s.bAt rc.1 rc.2 = 0 ∧ ((s.pAt rc.1 rc.2).length < acc.1 ∨
          ((s.pAt rc.1 rc.2).length = acc.1 ∧ getCell m.isPurple rc.1 rc.2 ≠ 0)) then
        ((s.pAt rc.1 rc.2).length, rc.1, rc.2)
      else acc) acc0 := by
  unfold fullScan
  rw [show (cellsList : List (Nat × Nat)) =
      (List.range 9).flatMap (fun i => (List.range 9).map fun j => (i, j)) from rfl,
    ← foldl_flatMap]
  congr 1

/-- A strict-improvement fold keeps the first element attaining the minimal
weight: either nothing qualified below the accumulator, or the result is
the first qualifying element that all earlier qualifying elements strictly
exceed and no later qualifying element beats. -/
theorem foldl_argmin_first (P : Nat × Nat → Prop) [DecidablePred P]
    (w : Nat × Nat → Nat) :
    ∀ (l : List (Nat × Nat)) (acc : Nat × Nat × Nat),
      (l.foldl (fun acc rc => if P rc ∧ w rc < acc.1 then (w rc, rc.1, rc.2)
          else acc) acc = acc ∧
        ∀ x ∈ l, P x → acc.1 ≤ w x) ∨
      (∃ l1 x0 l2, l = l1 ++ x0 :: l2 ∧ P x0 ∧
        l.foldl (fun acc rc => if P rc ∧ w rc < acc.1 then (w rc, rc.1, rc.2)
          else acc) acc = (w x0, x0.1, x0.2) ∧
        w x0 < acc.1 ∧
        (∀ x ∈ l1, P x → w x0 < w x) ∧
        (∀ x ∈ l2, P x → w x0 ≤ w x)) := by
  intro l
  induction l with
  | nil => intro acc; exact Or.inl ⟨rfl, by simp⟩
  | cons a t ih =>
    intro acc
    by_cases ha : P a ∧ w a < acc.1
    · have hstep : (a :: t).foldl (fun acc rc =>
          if P rc ∧ w rc < acc.1 then (w rc, rc.1, rc.2) else acc) acc =
          t.foldl (fun acc rc =>
            if P rc ∧ w rc < acc.1 then (w rc, rc.1, rc.2) else acc)
            (w a, a.1, a.2) := by
        rw [List.foldl_cons]
        rw [if_pos ha]
      rcases ih (w a, a.1, a.2) with ⟨hres, hmin⟩ |
        ⟨t1, x0, t2, hsplit, hP0, hres, hlt, hstrict, hge⟩
      · right
        exact ⟨[], a, t, rfl, ha.1, by rw [hstep, hres], ha.2, by simp,
          fun x hx hPx => hmin x hx hPx⟩
      · right
        refine ⟨a :: t1, x0, t2, by rw [hsplit, List.cons_append], hP0,
          by rw [hstep, hres], ?_, ?_, hge⟩
        · have h1 : w x0 < w a := hlt
          omega
        · intro x hx hPx
          rcases List.mem_cons.mp hx with rfl | hx'
          · exact hlt
          · exact hstrict x hx' hPx
    · have hstep : (a :: t).foldl (fun acc rc =>
          if P rc ∧ w rc < acc.1 then (w rc, rc.1, rc.2) else acc) acc =
          t.foldl (fun acc rc =>
            if P rc ∧ w rc < acc.1 then (w rc, rc.1, rc.2) else acc) acc := by
        rw [List.foldl_cons]
        rw [if_neg ha]
      rcases ih acc with ⟨hres, hmin⟩ |
        ⟨t1, x0, t2, hsplit, hP0, hres, hlt, hstrict, hge⟩
      · left
        refine ⟨by rw [hstep, hres], ?_⟩
        intro x hx hPx
        rcases List.mem_cons.mp hx with rfl | hx'
        · by_contra hc
          exact ha ⟨hPx, by omega⟩
        · exact hmin x hx' hPx
      · right
        refine ⟨a :: t1, x0, t2, by rw [hsplit, List.cons_append], hP0,
          by rw [hstep, hres], hlt, ?_, hge⟩
        intro x hx hPx
        rcases List.mem_cons.mp hx with rfl | hx'
        · have hwa : ¬ w x < acc.1 := fun h => ha ⟨hPx, h⟩
          omega
        · exact hstrict x hx' hPx

/-- Minimality of the tie-preferring fold of the all-cells scan. -/
theorem foldl_min2 (P Q : Nat × Nat → Prop) [DecidablePred P] [DecidablePred Q]
    (w : Nat × Nat → Nat) :
    ∀ (l : List (Nat × Nat)) (acc : Nat × Nat × Nat),
      (l.foldl (fun acc rc => if P rc ∧ (w rc < acc.1 ∨ (w rc = acc.1 ∧ Q rc))
          then (w rc, rc.1, rc.2) else acc) acc).1 ≤ acc.1 ∧
      ∀ x ∈ l, P x →
        (l.foldl (fun acc rc => if P rc ∧ (w rc < acc.1 ∨ (w rc = acc.1 ∧ Q rc))
          then (w rc, rc.1, rc.2) else acc) acc).1 ≤ w x := by
  intro l
  induction l with
  | nil => intro acc; exact ⟨Nat.le_refl _, by simp⟩
  | cons a t ih =>
    intro acc
    by_cases ha : P a ∧ (w a < acc.1 ∨ (w a = acc.1 ∧ Q a))
    · have hstep : (a :: t).foldl (fun acc rc =>
          if P rc ∧ (w rc < acc.1 ∨ (w rc = acc.1 ∧ Q rc))
          then (w rc, rc.1, rc.2) else acc) acc =
          t.foldl (fun acc rc =>
            if P rc ∧ (w rc < acc.1 ∨ (w rc = acc.1 ∧ Q rc))
            then (w rc, rc.1, rc.2) else acc) (w a, a.1, a.2) := by
        rw [List.foldl_cons]
        rw [if_pos ha]
      obtain ⟨h1, h2⟩ := ih (w a, a.1, a.2)
      have hwa : w a ≤ acc.1 := by rcases ha.2 with h | h <;> omega
      rw [hstep]
      refine ⟨by have := h1; omega, ?_⟩
      intro x hx hPx
      rcases List.mem_cons.mp hx with rfl | hx'
      · exact h1
      · exact h2 x hx' hPx
    · have hstep : (a :: t).foldl (fun acc rc =>
          if P rc ∧ (w rc < acc.1 ∨ (w rc = acc.1 ∧ Q rc))
          then (w rc, rc.1, rc.2) else acc) acc =
          t.foldl (fun acc rc =>
            if P rc ∧ (w rc < acc.1 ∨ (w rc = acc.1 ∧ Q rc))
            then (w rc, rc.1, rc.2) else acc) acc := by
        rw [List.foldl_cons]
        rw [if_neg ha]
      obtain ⟨h1, h2⟩ := ih acc
      rw [hstep]
      refine ⟨h1, ?_⟩
      intro x hx hPx
      rcases List.mem_cons.mp hx with rfl | hx'
      · have hwa : ¬ w x < acc.1 := fun h => ha ⟨hPx, Or.inl h⟩
        omega
      · exact h2 x hx' hPx

/-- Tie preference of the all-cells scan: if some qualifying `Q`-cell
attains the final minimum, the selected cell satisfies `Q`. -/
theorem foldl_tie_pref (P Q : Nat × Nat → Prop) [DecidablePred P] [DecidablePred Q]
    (w : Nat × Nat → Nat) :
    ∀ (l : List (Nat × Nat)) (acc : Nat × Nat × Nat),
      ((∃ x ∈ l, P x ∧ Q x ∧ w x =
          (l.foldl (fun acc rc => if P rc ∧ (w rc < acc.1 ∨ (w rc = acc.1 ∧ Q rc))
            then (w rc, rc.1, rc.2) else acc) acc).1) ∨
        (Q acc.2 ∧ acc.1 =
          (l.foldl (fun acc rc => if P rc ∧ (w rc < acc.1 ∨ (w rc = acc.1 ∧ Q rc))
            then (w rc, rc.1, rc.2) else acc) acc).1)) →
      Q ((l.foldl (fun acc rc => if P rc ∧ (w rc < acc.1 ∨ (w rc = acc.1 ∧ Q rc))
          then (w rc, rc.1, rc.2) else acc) acc).2) := by
  intro l
  induction l with
  | nil =>
    intro acc h
    rcases h with ⟨x, hx, _⟩ | ⟨hq, _⟩
    · exact absurd hx (List.not_mem_nil x)
    · exact hq
  | cons a t ih =>
    intro acc h
    by_cases ha : P a ∧ (w a < acc.1 ∨ (w a = acc.1 ∧ Q a))
    · have hstep : (a :: t).foldl (fun acc rc =>
          if P rc ∧ (w rc < acc.1 ∨ (w rc = acc.1 ∧ Q rc))
          then (w rc, rc.1, rc.2) else acc) acc =
          t.foldl (fun acc rc =>
            if P rc ∧ (w rc < acc.1 ∨ (w rc = acc.1 ∧ Q rc))
            then (w rc, rc.1, rc.2) else acc) (w a, a.1, a.2) := by
        rw [List.foldl_cons]
        rw [if_pos ha]
      rw [hstep] at h ⊢
      refine ih (w a, a.1, a.2) ?_
      rcases h with ⟨x, hx, hPx, hQx, hwx⟩ | ⟨hQacc, hacc⟩
      · rcases List.mem_cons.mp hx with rfl | hx'
        · right
          refine ⟨?_, hwx⟩
          show Q (x.1, x.2)
          rw [Prod.mk.eta]
          exact hQx
        · exact Or.inl ⟨x, hx', hPx, hQx, hwx⟩
      · -- the accumulator's count survived, so the new best ties it
        obtain ⟨h1, _⟩ := foldl_min2 P Q w t (w a, a.1, a.2)
        have hwa : w a ≤ acc.1 := by rcases ha.2 with hlt | heq <;> omega
        have heq : w a = acc.1 := by omega
        have hQa : Q a := by
          rcases ha.2 with hlt | ⟨_, hq⟩
          · omega
          · exact hq
        right
        refine ⟨?_, by omega⟩
        show Q (a.1, a.2)
        rw [Prod.mk.eta]
        exact hQa
    · have hstep : (a :: t).foldl (fun acc rc =>
          if P rc ∧ (w rc < acc.1 ∨ (w rc = acc.1 ∧ Q rc))
          then (w rc, rc.1, rc.2) else acc) acc =
          t.foldl (fun acc rc =>
            if P rc ∧ (w rc < acc.1 ∨ (w rc = acc.1 ∧ Q rc))
            then (w rc, rc.1, rc.2) else acc) acc := by
        rw [List.foldl_cons]
        rw [if_neg ha]
      rw [hstep] at h ⊢
      refine ih acc ?_
      rcases h with ⟨x, hx, hPx, hQx, hwx⟩ | hright
      · rcases List.mem_cons.mp hx with rfl | hx'
        · -- `x = a` did not update although it ties the minimum: impossible
          exfalso
          obtain ⟨h1, _⟩ := foldl_min2 P Q w t acc
          have hwa : ¬ w x < acc.1 := fun hlt => ha ⟨hPx, Or.inl hlt⟩
          have : ¬ (w x = acc.1 ∧ Q x) := fun hc => ha ⟨hPx, Or.inr hc⟩
          have hne : w x ≠ acc.1 := fun hc => this ⟨hc, hQx⟩
          omega
        · exact Or.inl ⟨x, hx', hPx, hQx, hwx⟩
      · exact Or.inr hright

/-- **C8.** Branch-cell selection of `recurse` (formalized on `select` and
`glNext`, which `recurse_succ` proves are exactly what `recurse` uses).
Phase 1: while `greysLeft` is set and some grey-line cell is unassigned,
the chosen cell is the first unassigned grey cell attaining the minimal
candidate count, in line-then-cell scan order, and the flag stays set.
Phase 2: with the flag clear, the chosen cell is an unassigned cell of
minimal candidate count over all cells, and if any minimal unassigned
cell is purple the chosen cell is purple.  Switch and permanence: when no
unassigned grey cell remains, the `greysLeft` node falls through to the
same all-cells scan and passes a cleared flag to every descendant, and a
cleared flag stays cleared. -/
theorem c8_branch_cell_selection (m : Model) (hm : ModelWF m) {s : Board}
    (hs : SInv s) :
    ((∃ rc ∈ greyFlat m, s.bAt rc.1 rc.2 = 0) →
      glNext m true s = true ∧
      ∃ l1 l2, greyFlat m = l1 ++ (select m true s).2 :: l2 ∧
        s.bAt (select m true s).2.1 (select m true s).2.2 = 0 ∧
        (select m true s).1 =
          (s.pAt (select m true s).2.1 (select m true s).2.2).length ∧
        (∀ x ∈ l1, s.bAt x.1 x.2 = 0 →
          (select m true s).1 < (s.pAt x.1 x.2).length) ∧
        (∀ x ∈ greyFlat m, s.bAt x.1 x.2 = 0 →
          (select m true s).1 ≤ (s.pAt x.1 x.2).length)) ∧
    ((∃ r, r < 9 ∧ ∃ c, c < 9 ∧ s.bAt r c = 0) →
      (select m false s).2.1 < 9 ∧ (select m false s).2.2 < 9 ∧
      s.bAt (select m false s).2.1 (select m false s).2.2 = 0 ∧
      (select m false s).1 =
        (s.pAt (select m false s).2.1 (select m false s).2.2).length ∧
      (∀ r, r < 9 → ∀ c, c < 9 → s.bAt r c = 0 →
        (select m false s).1 ≤ (s.pAt r c).length) ∧
      ((∃ r, r < 9 ∧ ∃ c, c < 9 ∧ s.bAt r c = 0 ∧ getCell m.isPurple r c ≠ 0 ∧
          (s.pAt r c).length = (select m false s).1) →
        getCell m.isPurple (select m false s).2.1 (select m false s).2.2 ≠ 0)) ∧
    ((∀ rc ∈ greyFlat m, s.bAt rc.1 rc.2 ≠ 0) →
      select m true s = select m false s ∧ glNext m true s = false) ∧
    glNext m false s = false := by
  refine ⟨?_, ?_, ?_, rfl⟩
  · -- phase 1
    rintro ⟨rc0, hrc0, hb0⟩
    rcases foldl_argmin_first (fun rc => s.bAt rc.1 rc.2 = 0)
        (fun rc => (s.pAt rc.1 rc.2).length) (greyFlat m) (100, 0, 0) with
      ⟨hres, hmin⟩ | ⟨l1, x0, l2, hsplit, hP0, hres, hlt, hstrict, hge⟩
    · exfalso
      have h100 : (100 : Nat) ≤ (s.pAt rc0.1 rc0.2).length := hmin rc0 hrc0 hb0
      have h9 := pAt_len_le9 hs rc0.1 rc0.2
      omega
    · have hgs : greyScan m s = ((s.pAt x0.1 x0.2).length, x0.1, x0.2) := by
        rw [greyScan_eq_flat]
        exact hres
      have hne100 : (greyScan m s).1 ≠ 100 := by
        have hlen := pAt_len_le9 hs x0.1 x0.2
        rw [hgs]
        show (s.pAt x0.1 x0.2).length ≠ 100
        omega
      have hsel : select m true s = greyScan m s := by
        unfold select
        simp [hne100]
      have hgl : glNext m true s = true := by
        unfold glNext
        simp [hne100]
      refine ⟨hgl, l1, l2, ?_, ?_, ?_, ?_, ?_⟩
      · rw [hsel, hgs]
        exact hsplit
      · rw [hsel, hgs]
        exact hP0
      · rw [hsel, hgs]
      · intro x hx hbx
        rw [hsel, hgs]
        exact hstrict x hx hbx
      · intro x hx hbx
        rw [hsel, hgs]
        rw [hsplit] at hx
        rcases List.mem_append.mp hx with hx1 | hx2
        · exact Nat.le_of_lt (hstrict x hx1 hbx)
        · rcases List.mem_cons.mp hx2 with rfl | hx3
          · exact Nat.le_refl _
          · exact hge x hx3 hbx
  · -- phase 2
    rintro ⟨r0, hr0, c0, hc0, hb0⟩
    have hsel : select m false s = fullScan m s (100, 0, 0) := by
      unfold select
      simp
    have hF := fullScan_eq_cells m s (100, 0, 0)
    have hmin2 := foldl_min2 (fun rc => s.bAt rc.1 rc.2 = 0)
      (fun rc => getCell m.isPurple rc.1 rc.2 ≠ 0)
      (fun rc => (s.pAt rc.1 rc.2).length) cellsList (100, 0, 0)
    rcases fullScan_spec m s (100, 0, 0) with heq | ⟨g1, g2, g3, g4⟩
    · exfalso
      have hle : (cellsList.foldl (fun acc rc =>
          if s.bAt rc.1 rc.2 = 0 ∧ ((s.pAt rc.1 rc.2).length < acc.1 ∨
            ((s.pAt rc.1 rc.2).length = acc.1 ∧ getCell m.isPurple rc.1 rc.2 ≠ 0))
          then ((s.pAt rc.1 rc.2).length, rc.1, rc.2) else acc) (100, 0, 0)).1 ≤
          (s.pAt r0 c0).length :=
        hmin2.2 (r0, c0) (mem_cellsList.mpr ⟨hr0, hc0⟩) hb0
      rw [← hF, heq] at hle
      have h9 := pAt_len_le9 hs r0 c0
      have : (100 : Nat) ≤ (s.pAt r0 c0).length := hle
      omega
    · refine ⟨?_, ?_, ?_, ?_, ?_, ?_⟩
      · rw [hsel]; exact g1
      · rw [hsel]; exact g2
      · rw [hsel]; exact g3
      · rw [hsel]; exact g4
      · intro r hr c hc hb
        have hle : (cellsList.foldl (fun acc rc =>
            if s.bAt rc.1 rc.2 = 0 ∧ ((s.pAt rc.1 rc.2).length < acc.1 ∨
              ((s.pAt rc.1 rc.2).length = acc.1 ∧ getCell m.isPurple rc.1 rc.2 ≠ 0))
            then ((s.pAt rc.1 rc.2).length, rc.1, rc.2) else acc) (100, 0, 0)).1 ≤
            (s.pAt r c).length :=
          hmin2.2 (r, c) (mem_cellsList.mpr ⟨hr, hc⟩) hb
        rw [← hF] at hle
        rw [hsel]
        exact hle
      · rintro ⟨r, hr, c, hc, hb, hp, hlen⟩
        rw [hsel, hF] at hlen
        have hpref := foldl_tie_pref (fun rc => s.bAt rc.1 rc.2 = 0)
          (fun rc => getCell m.isPurple rc.1 rc.2 ≠ 0)
          (fun rc => (s.pAt rc.1 rc.2).length) cellsList (100, 0, 0)
          (Or.inl ⟨(r, c), mem_cellsList.mpr ⟨hr, hc⟩, hb, hp, hlen⟩)
        rw [hsel, hF]
        exact hpref
  · -- switch: no unassigned grey cell left
    intro h3
    have hgs : greyScan m s = (100, 0, 0) := by
      rcases greyScan_spec m s with h | ⟨⟨line, hline, hmemline⟩, hb, _⟩
      · exact h
      · exfalso
        exact h3 _ (List.mem_flatMap.mpr ⟨line, hline, hmemline⟩) hb
    have e1 : select m true s = fullScan m s (100, 0, 0) := by
      unfold select
      simp [hgs]
    have e2 : select m false s = fullScan m s (100, 0, 0) := by
      unfold select
      simp
    refine ⟨by rw [e1, e2], ?_⟩
    unfold glNext
    simp [hgs]

/-- `gridC6` with the two grey-line cells `(0,0)` and `(2,3)` blanked. -/
def gridC8 : List (List Nat) :=
  [[0, 2, 3, 4, 5, 6, 7, 8, 9],
   [4, 5, 6, 7, 8, 9, 1, 2, 3],
   [7, 8, 9, 0, 2, 3, 4, 5, 6],
   [2, 3, 4, 5, 6, 7, 8, 9, 1],
   [5, 6, 7, 8, 9, 1, 2, 3, 4],
   [8, 9, 1, 2, 3, 4, 5, 6, 7],
   [3, 4, 5, 6, 7, 8, 9, 1, 2],
   [6, 7, 8, 9, 1, 2, 3, 4, 5],
   [9, 1, 2, 3, 4, 5, 6, 7, 8]]

/-- The model of `mC6` under its own name, for the selection instance. -/
def mC8 : Model := ⟨isGreyC6, greyIdxC6, zeroTbl, [[(0, 0), (2, 3)]], []⟩

theorem mC8_wf : ModelWF mC8 :=
  ⟨by decide, by decide, by decide, by decide, by decide⟩

theorem c8_branch_cell_selection_witness :
    ((∃ rc ∈ greyFlat mC8, (mkBoard gridC8).bAt rc.1 rc.2 = 0) →
      glNext mC8 true (mkBoard gridC8) = true ∧
      ∃ l1 l2, greyFlat mC8 =
          l1 ++ (select mC8 true (mkBoard gridC8)).2 :: l2 ∧
        (mkBoard gridC8).bAt (select mC8 true (mkBoard gridC8)).2.1
          (select mC8 true (mkBoard gridC8)).2.2 = 0 ∧
        (select mC8 true (mkBoard gridC8)).1 =
          ((mkBoard gridC8).pAt (select mC8 true (mkBoard gridC8)).2.1
            (select mC8 true (mkBoard gridC8)).2.2).length ∧
        (∀ x ∈ l1, (mkBoard gridC8).bAt x.1 x.2 = 0 →
          (select mC8 true (mkBoard gridC8)).1 <
            ((mkBoard gridC8).pAt x.1 x.2).length) ∧
        (∀ x ∈ greyFlat mC8, (mkBoard gridC8).bAt x.1 x.2 = 0 →
          (select mC8 true (mkBoard gridC8)).1 ≤
            ((mkBoard gridC8).pAt x.1 x.2).length)) ∧
    ((∃ r, r < 9 ∧ ∃ c, c < 9 ∧ (mkBoard gridC8).bAt r c = 0) →
      (select mC8 false (mkBoard gridC8)).2.1 < 9 ∧
      (select mC8 false (mkBoard gridC8)).2.2 < 9 ∧
      (mkBoard gridC8).bAt (select mC8 false (mkBoard gridC8)).2.1
        (select mC8 false (mkBoard gridC8)).2.2 = 0 ∧
      (select mC8 false (mkBoard gridC8)).1 =
        ((mkBoard gridC8).pAt (select mC8 false (mkBoard gridC8)).2.1
          (select mC8 false (mkBoard gridC8)).2.2).length ∧
      (∀ r, r < 9 → ∀ c, c < 9 → (mkBoard gridC8).bAt r c = 0 →
        (select mC8 false (mkBoard gridC8)).1 ≤
          ((mkBoard gridC8).pAt r c).length) ∧
      ((∃ r, r < 9 ∧ ∃ c, c < 9 ∧ (mkBoard gridC8).bAt r c = 0 ∧
          getCell mC8.isPurple r c ≠ 0 ∧
          ((mkBoard gridC8).pAt r c).length =
            (select mC8 false (mkBoard gridC8)).1) →
        getCell mC8.isPurple (select mC8 false (mkBoard gridC8)).2.1
          (select mC8 false (mkBoard gridC8)).2.2 ≠ 0)) ∧
    ((∀ rc ∈ greyFlat mC8, (mkBoard gridC8).bAt rc.1 rc.2 ≠ 0) →
      select mC8 true (mkBoard gridC8) = select mC8 false (mkBoard gridC8) ∧
      glNext mC8 true (mkBoard gridC8) = false) ∧
    glNext mC8 false (mkBoard gridC8) = false :=
  c8_branch_cell_selection mC8 mC8_wf
    (SInv_mkBoard gridC8 (by unfold BShape; decide) (by decide))

end SudokuEmb
